import Mathlib

/-!
# twentyfour: search for an arithmetic expression reaching a target

A shallow embedding of `main.go`.

* `Val` stands for Go's `float64`, idealised: finite values are exact rationals (no rounding,
  no overflow, no underflow), and the IEEE special values are kept: the two zeros, the two
  infinities and one NaN.  The results of `+ - * /` on the special values follow IEEE 754.
* The two process-wide maps `treeCache` and `neededTrees` are fields of `Caches`, passed in and
  out of every function.  Their string keys are replaced by the data that is formatted into
  them: the sorted deal, and the sorted deal paired with the needed value.  Formatting with
  `%v` is one-to-one on the values of `Val`, so that two keys are equal here exactly when the
  strings are equal in the program.
* A `nil` node is `none`.
* `int` is taken to be 64 bits wide; the bound of the split loop is computed with wrap-around.
* The recursive functions carry a fuel argument; `getPossibleTrees` and `getNeededTree` start
  them with fuel `len(deal) + 1`, which is shown to be enough.
-/

namespace TwentyFour

/-! ## float64 values -/

/-- A `float64`: a finite value (`num 0` is `+0`), `-0`, `+Inf`, `-Inf` or NaN. -/
inductive Val where
  | num (q : ℚ)
  | negZero
  | posInf
  | negInf
  | nan
  deriving DecidableEq

namespace Val

/-- Go's `math.IsNaN`. -/
def isNaN : Val → Bool
  | nan => true
  | _ => false

/-- The value is `+0` or `-0`. -/
def isZero : Val → Bool
  | num q => decide (q = 0)
  | negZero => true
  | _ => false

/-- The value is `+Inf` or `-Inf`. -/
def isInf : Val → Bool
  | posInf => true
  | negInf => true
  | _ => false

/-- The sign bit (of no use on NaN). -/
def signBit : Val → Bool
  | num q => decide (q < 0)
  | negZero => true
  | negInf => true
  | _ => false

/-- The rational value of a finite `float64`; `0` on the infinities and NaN. -/
def toRat : Val → ℚ
  | num q => q
  | _ => 0

/-- The zero with the given sign bit. -/
def zero (s : Bool) : Val := if s then negZero else num 0

/-- The infinity with the given sign bit. -/
def inf (s : Bool) : Val := if s then negInf else posInf

/-- Unary minus (flips the sign bit). -/
def neg : Val → Val
  | num q => if q = 0 then negZero else num (-q)
  | negZero => num 0
  | posInf => negInf
  | negInf => posInf
  | nan => nan

/-- Go's `a + b` on `float64` (round to nearest: an exact zero sum of opposite values is `+0`). -/
def add : Val → Val → Val
  | nan, _ => nan
  | _, nan => nan
  | posInf, negInf => nan
  | negInf, posInf => nan
  | posInf, _ => posInf
  | _, posInf => posInf
  | negInf, _ => negInf
  | _, negInf => negInf
  | negZero, negZero => negZero
  | negZero, num q => num q
  | num q, negZero => num q
  | num a, num b => num (a + b)

/-- Go's `a - b` on `float64`. -/
def sub (a b : Val) : Val := a.add b.neg

/-- Go's `a * b` on `float64`. -/
def mul (a b : Val) : Val :=
  if a.isNaN || b.isNaN then nan
  else if (a.isInf && b.isZero) || (a.isZero && b.isInf) then nan
  else if a.isInf || b.isInf then inf (xor a.signBit b.signBit)
  else if a.isZero || b.isZero then zero (xor a.signBit b.signBit)
  else num (a.toRat * b.toRat)

/-- Go's `a / b` on `float64`: division by zero gives an infinity, `0/0` and `Inf/Inf` give NaN. -/
def div (a b : Val) : Val :=
  if a.isNaN || b.isNaN then nan
  else if (a.isInf && b.isInf) || (a.isZero && b.isZero) then nan
  else if a.isInf || b.isZero then inf (xor a.signBit b.signBit)
  else if b.isInf || a.isZero then zero (xor a.signBit b.signBit)
  else num (a.toRat / b.toRat)

/-- Go's `math.Abs`. -/
def abs : Val → Val
  | num q => num |q|
  | negZero => num 0
  | posInf => posInf
  | negInf => posInf
  | nan => nan

/-- Go's `a < b` on `float64`: false as soon as one side is NaN. -/
def lt : Val → Val → Bool
  | nan, _ => false
  | _, nan => false
  | posInf, _ => false
  | _, negInf => false
  | negInf, _ => true
  | _, posInf => true
  | a, b => decide (a.toRat < b.toRat)

/-- Go's `a <= b` on `float64`: false as soon as one side is NaN. -/
def le : Val → Val → Bool
  | nan, _ => false
  | _, nan => false
  | negInf, _ => true
  | _, posInf => true
  | posInf, _ => false
  | _, negInf => false
  | a, b => decide (a.toRat ≤ b.toRat)

/-- Go's `a == 0` on `float64`: true on both zeros. -/
def eqZero (a : Val) : Bool := a.isZero

end Val

/-- The tolerance test: `math.Abs(a-b) < 0.00001`. -/
def closeEnough (a b : Val) : Bool := ((a.sub b).abs).lt (Val.num (1 / 100000))

/-! ## Operators and expression trees -/

/-- The four operators; the program holds one value of each (`AddOp`, `SubOp`, `MulOp`,
`DivOp`). -/
inductive operator where
  | AddOp
  | SubOp
  | MulOp
  | DivOp
  deriving DecidableEq

namespace operator

/-- The method `compute`. -/
def compute : operator → Val → Val → Val
  | AddOp, left, right => left.add right
  | SubOp, left, right => left.sub right
  | MulOp, left, right => left.mul right
  | DivOp, left, right => left.div right

/-- The method `computeNecessary`. -/
def computeNecessary : operator → Val → Val → Val
  | AddOp, left, want => want.sub left
  | SubOp, left, want => left.sub want
  | MulOp, left, want => want.div left
  | DivOp, left, want => left.div want

/-- The method `opString`. -/
def opString : operator → String
  | AddOp => "+"
  | SubOp => "-"
  | MulOp => "*"
  | DivOp => "/"

end operator

/-- The package variable `operators`. -/
def operators : List operator :=
  [operator.AddOp, operator.SubOp, operator.MulOp, operator.DivOp]

/-- A non-nil `node`: a `valNode` or an `opNode`. -/
inductive node where
  | valNode (val : Val)
  | opNode (op : operator) (left right : node)
  deriving DecidableEq

namespace node

/-- The method `getVal`. -/
def getVal : node → Val
  | valNode val => val
  | opNode op left right => op.compute left.getVal right.getVal

/-- The method `getExp`; `fmtVal` stands for `fmt.Sprintf("%v", ·)` on a `float64`. -/
def getExp (fmtVal : Val → String) : node → String
  | valNode val => fmtVal val
  | opNode op left right =>
    "(" ++ left.getExp fmtVal ++ " " ++ op.opString ++ " " ++ right.getExp fmtVal ++ ")"

/-- The leaf values of a tree, read from left to right. -/
def leaves : node → List Val
  | valNode val => [val]
  | opNode _ left right => left.leaves ++ right.leaves

end node

/-! ## Keys and caches -/

/-- The method `Less` of `sort.Float64Slice`: NaN sorts before every other value. -/
def float64Less (x y : Val) : Bool := x.lt y || (x.isNaN && !y.isNaN)

/-- The function `dealString`, without the final formatting: the deal sorted ascending.
`sort.Sort` is an insertion sort on a slice of at most 12 elements; it moves an element to the
left only past elements that are greater. -/
def dealString (deal : List Val) : List Val :=
  deal.insertionSort (fun a b => float64Less b a = false)

/-- The two package-level maps. An absent key is `none`; in `neededTrees` a key that is present
with a `nil` node is `some none`. -/
structure Caches where
  treeCache : List Val → Option (List node)
  neededTrees : List Val × Val → Option (Option node)

/-- The state at program start: both maps empty. -/
def Caches.empty : Caches := ⟨fun _ => none, fun _ => none⟩

/-- The statement `neededTrees[key] = tree`. -/
def Caches.setNeeded (c : Caches) (key : List Val × Val) (tree : Option node) : Caches :=
  { c with neededTrees := Function.update c.neededTrees key (some tree) }

/-- The statement `treeCache[ds] = trees`. -/
def Caches.setTrees (c : Caches) (ds : List Val) (trees : List node) : Caches :=
  { c with treeCache := Function.update c.treeCache ds (some trees) }

/-! ## Splitting a deal -/

/-- The function `splitDeal`: position `bit` of the deal goes left when bit `bit` of `split` is
`0`, and right otherwise. -/
def splitDeal (deal : List Val) (split : Nat) : List Val × List Val :=
  deal.enum.foldl
    (fun acc p => if (split >>> p.1) % 2 = 0 then (acc.1 ++ [p.2], acc.2) else (acc.1, acc.2 ++ [p.2]))
    ([], [])

/-- A 64-bit signed integer after wrap-around. -/
def wrapInt64 (z : Int) : Int := (z + 2 ^ 63) % 2 ^ 64 - 2 ^ 63

/-- The loop bound `1<<uint64(len(deal))-1`, computed on `int`. -/
def splitBound (n : Nat) : Int := wrapInt64 (wrapInt64 (1 * 2 ^ n) - 1)

/-- The values taken by `i` in `for i := 1; i < 1<<uint64(len(deal))-1; i++`. -/
def splitIndices (n : Nat) : List Nat := List.range' 1 ((splitBound n).toNat - 1)

/-! ## Forward search -/

/-- The three inner loops of `getPossibleTrees`: one `opNode` per left tree, right tree and
operator, in this order. -/
def combine (leftTrees rightTrees : List node) : List node :=
  leftTrees.flatMap fun lt => rightTrees.flatMap fun rt => operators.map fun op => node.opNode op lt rt

/-- The split loop of `getPossibleTrees`; `recur` is the recursive call. -/
def possibleLoop (recur : List Val → Caches → Option (List node × Caches)) (deal : List Val) :
    List Nat → List node → Caches → Option (List node × Caches)
  | [], trees, c => some (trees, c)
  | i :: is, trees, c =>
    match recur (splitDeal deal i).1 c with
    | none => none
    | some (leftTrees, c1) =>
      match recur (splitDeal deal i).2 c1 with
      | none => none
      | some (rightTrees, c2) =>
        possibleLoop recur deal is (trees ++ combine leftTrees rightTrees) c2

/-- The loop `for _, tree := range trees { neededTrees[deal:value] = tree }`. -/
def storeNeeded (ds : List Val) (trees : List node) (c : Caches) : Caches :=
  trees.foldl (fun c tree => c.setNeeded (ds, tree.getVal) (some tree)) c

/-- The body of `getPossibleTrees`; `recur` is the recursive call. -/
def getPossibleTreesBody (recur : List Val → Caches → Option (List node × Caches))
    (deal : List Val) (c : Caches) : Option (List node × Caches) :=
  match c.treeCache (dealString deal) with
  | some nodes => some (nodes, c)
  | none =>
    match deal with
    | [v] => some ([node.valNode v], c)
    | _ =>
      match possibleLoop recur deal (splitIndices deal.length) [] c with
      | none => none
      | some (trees, c1) =>
        some (trees, (storeNeeded (dealString deal) trees c1).setTrees (dealString deal) trees)

/-- The function `getPossibleTrees` with fuel: `none` when the fuel runs out. -/
def getPossibleTreesF : Nat → List Val → Caches → Option (List node × Caches)
  | 0 => fun _ _ => none
  | fuel + 1 => getPossibleTreesBody (getPossibleTreesF fuel)

/-- The function `getPossibleTrees`. -/
def getPossibleTrees (deal : List Val) (c : Caches) : Option (List node × Caches) :=
  getPossibleTreesF (deal.length + 1) deal c

/-! ## Backward search -/

/-- The operator loop of `getNeededTree` for one left tree; `recur` is the recursive call. The
result `some t` is the tree `t` built at the first success. -/
def opLoop (recur : List Val → Val → Caches → Option (Option node × Caches))
    (rightCards : List Val) (lt : node) (neededVal : Val) :
    List operator → Caches → Option (Option node × Caches)
  | [], c => some (none, c)
  | op :: ops, c =>
    if op = operator.DivOp ∧ (op.computeNecessary lt.getVal neededVal).eqZero = true then
      opLoop recur rightCards lt neededVal ops c
    else
      match recur rightCards (op.computeNecessary lt.getVal neededVal) c with
      | none => none
      | some (some rt, c1) => some (some (node.opNode op lt rt), c1)
      | some (none, c1) => opLoop recur rightCards lt neededVal ops c1

/-- The loop over the left trees of `getNeededTree`. -/
def treeLoop (recur : List Val → Val → Caches → Option (Option node × Caches))
    (rightCards : List Val) (neededVal : Val) :
    List node → Caches → Option (Option node × Caches)
  | [], c => some (none, c)
  | lt :: lts, c =>
    match opLoop recur rightCards lt neededVal operators c with
    | none => none
    | some (some t, c1) => some (some t, c1)
    | some (none, c1) => treeLoop recur rightCards neededVal lts c1

/-- The split loop of `getNeededTree`. -/
def splitLoop (recur : List Val → Val → Caches → Option (Option node × Caches))
    (deal : List Val) (neededVal : Val) :
    List Nat → Caches → Option (Option node × Caches)
  | [], c => some (none, c)
  | i :: is, c =>
    match getPossibleTrees (splitDeal deal i).1 c with
    | none => none
    | some (leftTrees, c1) =>
      match treeLoop recur (splitDeal deal i).2 neededVal leftTrees c1 with
      | none => none
      | some (some t, c2) => some (some t, c2)
      | some (none, c2) => splitLoop recur deal neededVal is c2

/-- The body of `getNeededTree`; `recur` is the recursive call. -/
def getNeededTreeBody (recur : List Val → Val → Caches → Option (Option node × Caches))
    (deal : List Val) (neededVal : Val) (c : Caches) : Option (Option node × Caches) :=
  match c.neededTrees (dealString deal, neededVal) with
  | some tree => some (tree, c)
  | none =>
    match deal with
    | [v] => if closeEnough v neededVal then some (some (node.valNode v), c) else some (none, c)
    | _ =>
      match splitLoop recur deal neededVal (splitIndices deal.length) c with
      | none => none
      | some (some t, c1) => some (some t, c1.setNeeded (dealString deal, neededVal) (some t))
      | some (none, c1) => some (none, c1.setNeeded (dealString deal, neededVal) none)

/-- The function `getNeededTree` with fuel: `none` when the fuel runs out. -/
def getNeededTreeF : Nat → List Val → Val → Caches → Option (Option node × Caches)
  | 0 => fun _ _ _ => none
  | fuel + 1 => getNeededTreeBody (getNeededTreeF fuel)

/-- The function `getNeededTree`. -/
def getNeededTree (deal : List Val) (neededVal : Val) (c : Caches) :
    Option (Option node × Caches) :=
  getNeededTreeF (deal.length + 1) deal neededVal c

/-! ## The deals -/

/-- The constant `numCards`. -/
def numCards : Nat := 4

/-- The constant `maxCard`. -/
def maxCard : Val := Val.num 10

/-- The constant `targetNum`. -/
def targetNum : Val := Val.num 24

/-- The loop `for i := lastCard; i <= maxCard; i++` of `allDeals`, with `k` bounding the number
of tests of the loop condition; `recur` is the recursive call and `all` the slice built so
far. The result is `none` when `k` tests do not end the loop. -/
def dealLoop (recur : List Val → Option (List (List Val))) (partialDeal : List Val) :
    Nat → Val → List (List Val) → Option (List (List Val))
  | 0, _, _ => none
  | k + 1, i, all =>
    if i.le maxCard = true then
      match recur (partialDeal ++ [i]) with
      | none => none
      | some deals => dealLoop recur partialDeal k (i.add (Val.num 1)) (all ++ deals)
    else some all

/-- A number of tests that ends the loop of `allDeals` started at `lastCard`, when the loop
ends at all (started at `-Inf` it does not). -/
def loopTests : Val → Nat
  | Val.num q => (⌊10 - q⌋ + 2).toNat
  | _ => 12

/-- The body of `allDeals`; `recur` is the recursive call. -/
def allDealsBody (recur : List Val → Option (List (List Val))) (partialDeal : List Val) :
    Option (List (List Val)) :=
  if partialDeal.length = numCards then some [partialDeal]
  else
    dealLoop recur partialDeal (loopTests (partialDeal.getLast?.getD (Val.num 1)))
      (partialDeal.getLast?.getD (Val.num 1)) []

/-- The function `allDeals` with fuel: `none` when the fuel runs out. -/
def allDealsF : Nat → List Val → Option (List (List Val))
  | 0 => fun _ => none
  | fuel + 1 => allDealsBody (allDealsF fuel)

/-- The function `allDeals`. A partial deal of more than `numCards` cards never reaches the
length `numCards`: the recursion does not end, and the result is `none`. -/
def allDeals (partialDeal : List Val) : Option (List (List Val)) :=
  allDealsF (numCards + 1 - partialDeal.length) partialDeal

/-! ## Predicates of the specification -/

/-- The tree `T` meets the needed value `t` along its right spine: undoing each operator on the
way down with `computeNecessary` never meets the Divide rule of `getNeededTree`, and the last
leaf passes `closeEnough`. This is the test that the backward search applies without caches. -/
def meets : node → Val → Bool
  | node.valNode v, t => closeEnough v t
  | node.opNode op l r, t =>
    !(decide (op = operator.DivOp) && (op.computeNecessary l.getVal t).eqZero) &&
      meets r (op.computeNecessary l.getVal t)

/-- As `meets`, but at every operation node of the right spine the search may also stop on a
tree whose value is the needed value itself (an entry stored by the forward search). -/
def accepts : node → Val → Bool
  | node.valNode v, t => closeEnough v t
  | node.opNode op l r, t =>
    decide ((node.opNode op l r).getVal = t) ||
      (!(decide (op = operator.DivOp) && (op.computeNecessary l.getVal t).eqZero) &&
        accepts r (op.computeNecessary l.getVal t))

/-- What the two maps hold at any time. -/
structure Inv (c : Caches) : Prop where
  trees_sound : ∀ K ts, c.treeCache K = some ts → ∀ T ∈ ts, (node.leaves T).Perm K
  trees_complete : ∀ K ts, c.treeCache K = some ts → K.length ≤ 63 →
    ∀ T : node, T.leaves.Perm K → T ∈ ts
  needed_sound : ∀ K t T, c.neededTrees (K, t) = some (some T) →
    T.leaves.Perm K ∧ accepts T t = true
  needed_nil : ∀ K t, c.neededTrees (K, t) = some none → K.length ≤ 63 →
    ∀ T : node, T.leaves.Perm K → meets T t = false
  needed_single : ∀ K t, K.length = 1 → c.neededTrees (K, t) = none

/-- What a list returned by the forward search for `deal` holds. -/
def FwdOK (deal : List Val) (ts : List node) : Prop :=
  (∀ T ∈ ts, (node.leaves T).Perm deal) ∧
    (deal.length ≤ 63 → ∀ T : node, T.leaves.Perm deal → T ∈ ts)

/-- What a result of the backward search for `deal` and `t` satisfies. -/
def BwdOK (deal : List Val) (t : Val) (r : Option node) : Prop :=
  (∀ T, r = some T → T.leaves.Perm deal ∧ accepts T t = true) ∧
    (r = none → deal.length ≤ 63 → ∀ T : node, T.leaves.Perm deal → meets T t = false)

/-- The cache states reachable from the empty caches through calls of `getNeededTree` and
`getPossibleTrees`. -/
inductive Reachable : Caches → Prop
  | empty : Reachable Caches.empty
  | needed {c c' : Caches} {deal : List Val} {t : Val} {r : Option node} :
      Reachable c → getNeededTree deal t c = some (r, c') → Reachable c'
  | possible {c c' : Caches} {deal : List Val} {ts : List node} :
      Reachable c → getPossibleTrees deal c = some (ts, c') → Reachable c'

/-- The value is finite: neither an infinity nor NaN. -/
def Val.isFinite : Val → Bool
  | Val.num _ => true
  | Val.negZero => true
  | _ => false

/-- The non-decreasing sequences of four whole cards from 1 to 10, in lexicographic order. -/
def expectedDeals : List (List Val) :=
  (List.range' 1 10).flatMap fun (a : ℕ) => (List.range' a (11 - a)).flatMap fun (b : ℕ) =>
    (List.range' b (11 - b)).flatMap fun (c : ℕ) => (List.range' c (11 - c)).map fun (e : ℕ) =>
      [Val.num (a : ℚ), Val.num (b : ℚ), Val.num (c : ℚ), Val.num (e : ℚ)]

/-- A deal of cards from 0 to 10 read as a number in base 11. -/
def dealCode (d : List Val) : ℚ := d.foldl (fun acc v => acc * 11 + v.toRat) 0

/-- Each number of the list is less than the next one. -/
def increasing : List ℚ → Bool
  | [] => true
  | [_] => true
  | a :: b :: rest => decide (a < b) && increasing (b :: rest)

/-- The pairs of sides into which the split loop cuts a deal, each pair listed once. -/
def splitPairs (deal : List Val) : List (List Val × List Val) :=
  ((splitIndices deal.length).map (splitDeal deal)).dedup

/-- All expression trees whose leaves are the cards of the deal, with fuel. -/
def treesOverF : Nat → List Val → List node
  | 0, _ => []
  | n + 1, deal =>
    match deal with
    | [v] => [node.valNode v]
    | _ => (splitPairs deal).flatMap fun p => combine (treesOverF n p.1) (treesOverF n p.2)

/-- All expression trees whose leaves are the cards of the deal, each used once. -/
def treesOver (deal : List Val) : List node := treesOverF deal.length deal

/-- How a call on a deal of less than `n` cards changes the caches from `c` to `c'`: keys of
deals of `n` cards or more are left alone, an entry of `treeCache` is never changed, an entry
of `neededTrees` stays as it is or is replaced by a tree whose value is the value of the key,
and every tree of a list added to `treeCache` has an entry in `neededTrees` under its value. -/
structure Grows (n : Nat) (c c' : Caches) : Prop where
  trees_far : ∀ K : List Val, n ≤ K.length → c'.treeCache K = c.treeCache K
  needed_far : ∀ (K : List Val) (t : Val), n ≤ K.length →
    c'.neededTrees (K, t) = c.neededTrees (K, t)
  trees_kept : ∀ K ts, c.treeCache K = some ts → c'.treeCache K = some ts
  needed_kept : ∀ K t e, c.neededTrees (K, t) = some e →
    c'.neededTrees (K, t) = some e ∨
      ∃ T : node, c'.neededTrees (K, t) = some (some T) ∧ T.getVal = t
  trees_seeded : ∀ K ts, c'.treeCache K = some ts → c.treeCache K = some ts ∨
    ∀ T ∈ ts, ∃ T' : node,
      c'.neededTrees (K, node.getVal T) = some (some T') ∧ T'.getVal = T.getVal

/-- Every tree of a list held by `treeCache` has an entry in `neededTrees` under its value,
and that entry is a tree of the same value. -/
def Seeded (c : Caches) : Prop :=
  ∀ K ts, c.treeCache K = some ts → ∀ T ∈ ts,
    ∃ T' : node, c.neededTrees (K, node.getVal T) = some (some T') ∧ T'.getVal = T.getVal

/-- What a forward search on `deal` may change in `neededTrees`: an entry that differs after
the call is a tree, stored under the sorted cards of a sub-deal of `deal` and under its own
value, with these cards as leaves. -/
def FwdFrame (deal : List Val) (c c' : Caches) : Prop :=
  ∀ (K : List Val) (v : Val), c'.neededTrees (K, v) ≠ c.neededTrees (K, v) →
    ∃ (T : node) (d' : List Val), c'.neededTrees (K, v) = some (some T) ∧ T.getVal = v ∧
      T.leaves.Perm K ∧ d'.Sublist deal ∧ K = dealString d'

/-- The tree has finite leaves and its evaluation meets no division by zero: no Divide node has a
right subtree of value zero. -/
def wellDefined : node → Bool
  | node.valNode v => v.isFinite
  | node.opNode op l r =>
    wellDefined l && wellDefined r && !(decide (op = operator.DivOp) && r.getVal.isZero)

/-- The number `N(n)` of the specification with fuel: `N(0) = 0`, `N(1) = 1` and
`N(n) = 4 * sum over k = 1..n-1 of C(n,k) * N(k) * N(n-k)`. -/
def numTreesF : Nat → Nat → Nat
  | 0, _ => 0
  | fuel + 1, n =>
    if n ≤ 1 then n
    else 4 * ((List.range' 1 (n - 1)).map fun k =>
      n.choose k * numTreesF fuel k * numTreesF fuel (n - k)).sum

/-- The number `N(n)` of trees that the specification gives for a deal of `n` cards. -/
def numTrees (n : Nat) : Nat := numTreesF n n

/-- The lists of `treeCache` have the length `N(n)` for a key of `n ≤ 63` cards, and no key is a
single card. -/
def CountInv (c : Caches) : Prop :=
  ∀ K ts, c.treeCache K = some ts → K.length ≠ 1 ∧ (K.length ≤ 63 → ts.length = numTrees K.length)

/-- The value is a whole card from 1 to 10. -/
def isCard : Val → Bool
  | Val.num q => decide (q.den = 1) && decide (1 ≤ q) && decide (q ≤ 10)
  | _ => false

/-- The number `x` is a fraction `p / q` of integers with `q > 0` and `|p| + q ≤ S`. -/
def Frac (x : ℚ) (S : ℤ) : Prop := ∃ p q : ℤ, 0 < q ∧ x = p / q ∧ |p| + q ≤ S

/-- Recursive description of `splitDeal`. -/
def splitRec : List Val → Nat → List Val × List Val
  | [], _ => ([], [])
  | x :: xs, s =>
    if s % 2 = 0 then (x :: (splitRec xs (s / 2)).1, (splitRec xs (s / 2)).2)
    else ((splitRec xs (s / 2)).1, x :: (splitRec xs (s / 2)).2)

/-! ## The shape of `splitDeal` and the indices of the split loop -/

theorem splitDeal_foldl_aux (s : Nat) (l : List Val) : ∀ (k : Nat) (a b : List Val),
    (l.enumFrom k).foldl
      (fun acc p => if (s >>> p.1) % 2 = 0 then (acc.1 ++ [p.2], acc.2) else (acc.1, acc.2 ++ [p.2]))
      (a, b) = (a ++ (splitRec l (s >>> k)).1, b ++ (splitRec l (s >>> k)).2) := by
  induction l with
  | nil => intro k a b; simp [splitRec]
  | cons x xs ih =>
    intro k a b
    have hk : s >>> (k + 1) = (s >>> k) / 2 := by
      rw [Nat.shiftRight_succ]
    simp only [List.enumFrom_cons, List.foldl_cons]
    by_cases h : (s >>> k) % 2 = 0
    · simp only [h, if_true]
      rw [ih (k + 1), hk]
      simp [splitRec, h]
    · simp only [h, if_false]
      rw [ih (k + 1), hk]
      simp [splitRec, h]

theorem splitDeal_eq_splitRec (deal : List Val) (s : Nat) : splitDeal deal s = splitRec deal s := by
  unfold splitDeal List.enum
  rw [splitDeal_foldl_aux]
  simp

theorem splitDeal_nil (s : Nat) : splitDeal [] s = ([], []) := by
  rw [splitDeal_eq_splitRec]; rfl

theorem splitDeal_cons (x : Val) (xs : List Val) (s : Nat) :
    splitDeal (x :: xs) s =
      if s % 2 = 0 then (x :: (splitDeal xs (s / 2)).1, (splitDeal xs (s / 2)).2)
      else ((splitDeal xs (s / 2)).1, x :: (splitDeal xs (s / 2)).2) := by
  simp only [splitDeal_eq_splitRec]; rfl

theorem splitDeal_perm (deal : List Val) : ∀ s : Nat,
    ((splitDeal deal s).1 ++ (splitDeal deal s).2).Perm deal := by
  induction deal with
  | nil => intro s; simp [splitDeal_nil]
  | cons x xs ih =>
    intro s
    rw [splitDeal_cons]
    split
    · simpa using ih (s / 2)
    · simp only
      exact (List.perm_middle).trans ((ih (s / 2)).cons x)

theorem splitDeal_length (deal : List Val) (s : Nat) :
    (splitDeal deal s).1.length + (splitDeal deal s).2.length = deal.length := by
  have := (splitDeal_perm deal s).length_eq
  simpa using this

theorem splitDeal_right_eq_nil (deal : List Val) : ∀ s : Nat, s < 2 ^ deal.length →
    ((splitDeal deal s).2 = [] ↔ s = 0) := by
  induction deal with
  | nil => intro s hs; simp at hs; simp [splitDeal_nil, hs]
  | cons x xs ih =>
    intro s hs
    have hs2 : s / 2 < 2 ^ xs.length := by
      rw [List.length_cons, pow_succ] at hs; omega
    rw [splitDeal_cons]
    split
    · simp only [ih _ hs2]; omega
    · simp; omega

theorem splitDeal_left_eq_nil (deal : List Val) : ∀ s : Nat, s < 2 ^ deal.length →
    ((splitDeal deal s).1 = [] ↔ s = 2 ^ deal.length - 1) := by
  induction deal with
  | nil => intro s hs; simp at hs; simp [splitDeal_nil, hs]
  | cons x xs ih =>
    intro s hs
    have hp : 0 < 2 ^ xs.length := Nat.two_pow_pos _
    have hs2 : s / 2 < 2 ^ xs.length := by
      rw [List.length_cons, pow_succ] at hs; omega
    rw [splitDeal_cons]
    rw [List.length_cons, pow_succ]
    split
    · simp; omega
    · simp only [ih _ hs2]; omega

theorem splitBound_small (n : Nat) (h : n ≤ 63) : splitBound n = 2 ^ n - 1 := by
  interval_cases n <;> rfl

theorem splitBound_large (n : Nat) (h : 64 ≤ n) : splitBound n = -1 := by
  obtain ⟨k, rfl⟩ : ∃ k, n = 64 + k := ⟨n - 64, by omega⟩
  have h1 : wrapInt64 (1 * 2 ^ (64 + k)) = 0 := by
    unfold wrapInt64
    rw [one_mul, pow_add, Int.add_comm, Int.add_mul_emod_self_left]
    rfl
  unfold splitBound
  rw [h1]
  rfl

theorem splitIndices_small (n : Nat) (h : n ≤ 63) : splitIndices n = List.range' 1 (2 ^ n - 2) := by
  unfold splitIndices
  rw [splitBound_small n h]
  congr 1
  have h1 : (1 : Int) ≤ 2 ^ n := by exact_mod_cast Nat.one_le_two_pow
  have h2 : ((2 : Int) ^ n - 1).toNat = 2 ^ n - 1 := by
    have : ((2 : Int) ^ n - 1) = ((2 ^ n - 1 : Nat) : Int) := by
      rw [Nat.cast_sub Nat.one_le_two_pow]; simp
    rw [this, Int.toNat_ofNat]
  rw [h2]; omega

theorem splitIndices_large (n : Nat) (h : 64 ≤ n) : splitIndices n = [] := by
  unfold splitIndices
  rw [splitBound_large n h]
  rfl

theorem mem_splitIndices (n i : Nat) :
    i ∈ splitIndices n ↔ n ≤ 63 ∧ 1 ≤ i ∧ i + 1 < 2 ^ n := by
  by_cases h : n ≤ 63
  · rw [splitIndices_small n h, List.mem_range'_1]
    have := @Nat.one_le_two_pow n
    constructor
    · rintro ⟨h1, h2⟩; exact ⟨h, h1, by omega⟩
    · rintro ⟨_, h1, h2⟩; exact ⟨h1, by omega⟩
  · rw [splitIndices_large n (by omega)]
    simp [h]

theorem splitDeal_lengths_lt (deal : List Val) (i : Nat) (hi : i ∈ splitIndices deal.length) :
    (splitDeal deal i).1.length < deal.length ∧ (splitDeal deal i).2.length < deal.length := by
  rw [mem_splitIndices] at hi
  obtain ⟨_, h1, h2⟩ := hi
  have hlt : i < 2 ^ deal.length := by omega
  have hl : (splitDeal deal i).1 ≠ [] := by
    rw [Ne, splitDeal_left_eq_nil deal i hlt]; omega
  have hr : (splitDeal deal i).2 ≠ [] := by
    rw [Ne, splitDeal_right_eq_nil deal i hlt]; omega
  have := splitDeal_length deal i
  have := List.length_pos.mpr hl
  have := List.length_pos.mpr hr
  omega

theorem exists_split (deal : List Val) : ∀ A B : List Val, deal.Perm (A ++ B) →
    ∃ s, s < 2 ^ deal.length ∧ (splitDeal deal s).1.Perm A ∧ (splitDeal deal s).2.Perm B := by
  induction deal with
  | nil =>
    intro A B h
    have h0 : A ++ B = [] := List.Perm.eq_nil h.symm
    have hA : A = [] := (List.append_eq_nil.mp h0).1
    have hB : B = [] := (List.append_eq_nil.mp h0).2
    exact ⟨0, by simp, by simp [splitDeal_nil, hA], by simp [splitDeal_nil, hB]⟩
  | cons x xs ih =>
    intro A B h
    have hx : x ∈ A ++ B := h.subset (List.mem_cons_self x xs)
    rcases List.mem_append.mp hx with hA | hB
    · have hA' : A.Perm (x :: A.erase x) := List.perm_cons_erase hA
      have h2 : xs.Perm (A.erase x ++ B) := by
        have : (x :: xs).Perm (x :: (A.erase x ++ B)) :=
          h.trans ((hA'.append_right B).trans (by simp))
        exact List.Perm.cons_inv this
      obtain ⟨s, hs, hl, hr⟩ := ih _ _ h2
      refine ⟨2 * s, ?_, ?_, ?_⟩
      · rw [List.length_cons, pow_succ]; omega
      · rw [splitDeal_cons]
        have e1 : 2 * s % 2 = 0 := by omega
        have e2 : 2 * s / 2 = s := by omega
        simp only [e1, e2, if_true]
        exact (hl.cons x).trans hA'.symm
      · rw [splitDeal_cons]
        have e1 : 2 * s % 2 = 0 := by omega
        have e2 : 2 * s / 2 = s := by omega
        simp only [e1, e2, if_true]
        exact hr
    · have hB' : B.Perm (x :: B.erase x) := List.perm_cons_erase hB
      have h2 : xs.Perm (A ++ B.erase x) := by
        have : (x :: xs).Perm (x :: (A ++ B.erase x)) :=
          h.trans ((hB'.append_left A).trans List.perm_middle)
        exact List.Perm.cons_inv this
      obtain ⟨s, hs, hl, hr⟩ := ih _ _ h2
      refine ⟨2 * s + 1, ?_, ?_, ?_⟩
      · rw [List.length_cons, pow_succ]; omega
      · rw [splitDeal_cons]
        have e1 : ¬ ((2 * s + 1) % 2 = 0) := by omega
        have e2 : (2 * s + 1) / 2 = s := by omega
        simp only [e1, e2, if_false]
        exact hl
      · rw [splitDeal_cons]
        have e1 : ¬ ((2 * s + 1) % 2 = 0) := by omega
        have e2 : (2 * s + 1) / 2 = s := by omega
        simp only [e1, e2, if_false]
        exact (hr.cons x).trans hB'.symm

theorem exists_splitIndex (deal A B : List Val) (hlen : deal.length ≤ 63)
    (h : deal.Perm (A ++ B)) (hA : A ≠ []) (hB : B ≠ []) :
    ∃ i ∈ splitIndices deal.length, (splitDeal deal i).1.Perm A ∧ (splitDeal deal i).2.Perm B := by
  obtain ⟨s, hs, hl, hr⟩ := exists_split deal A B h
  refine ⟨s, ?_, hl, hr⟩
  rw [mem_splitIndices]
  have h0 : s ≠ 0 := by
    intro h0
    have := (splitDeal_right_eq_nil deal s hs).mpr h0
    rw [this] at hr
    exact hB (List.Perm.eq_nil hr.symm)
  have h1 : s ≠ 2 ^ deal.length - 1 := by
    intro h1
    have := (splitDeal_left_eq_nil deal s hs).mpr h1
    rw [this] at hl
    exact hA (List.Perm.eq_nil hl.symm)
  exact ⟨hlen, by omega, by omega⟩

/-! ## The invariant of the caches -/

theorem leaves_length_pos (T : node) : 0 < T.leaves.length := by
  induction T with
  | valNode v => simp [node.leaves]
  | opNode op l r ihl _ => simp only [node.leaves, List.length_append]; omega

theorem leaves_ne_nil (T : node) : T.leaves ≠ [] := by
  intro h
  have := leaves_length_pos T
  rw [h] at this
  simp at this

theorem leaves_opNode_length (op : operator) (l r : node) :
    2 ≤ (node.opNode op l r).leaves.length := by
  have := leaves_length_pos l
  have := leaves_length_pos r
  simp only [node.leaves, List.length_append]; omega

theorem eq_valNode_of_leaves_perm (T : node) (v : Val) (h : T.leaves.Perm [v]) :
    T = node.valNode v := by
  cases T with
  | valNode w =>
    have := List.perm_singleton.mp h
    simp only [node.leaves, List.cons.injEq, and_true] at this
    rw [this]
  | opNode op l r =>
    have h1 := h.length_eq
    have h2 := leaves_opNode_length op l r
    simp at h1
    omega

theorem mem_operators (op : operator) : op ∈ operators := by
  cases op <;> simp [operators]

theorem mem_combine (T : node) (lts rts : List node) :
    T ∈ combine lts rts ↔ ∃ l ∈ lts, ∃ r ∈ rts, ∃ op, T = node.opNode op l r := by
  unfold combine
  simp only [List.mem_flatMap, List.mem_map]
  constructor
  · rintro ⟨l, hl, r, hr, op, _, rfl⟩
    exact ⟨l, hl, r, hr, op, rfl⟩
  · rintro ⟨l, hl, r, hr, op, rfl⟩
    exact ⟨l, hl, r, hr, op, mem_operators op, rfl⟩

theorem dealString_perm (deal : List Val) : (dealString deal).Perm deal :=
  List.perm_insertionSort _ deal

theorem dealString_length (deal : List Val) : (dealString deal).length = deal.length :=
  (dealString_perm deal).length_eq

theorem accepts_self (T : node) (h : T.leaves.length ≠ 1) : accepts T T.getVal = true := by
  cases T with
  | valNode v => simp [node.leaves] at h
  | opNode op l r => simp [accepts]

theorem meets_imp_accepts (T : node) : ∀ t, meets T t = true → accepts T t = true := by
  induction T with
  | valNode v => intro t h; simpa [meets, accepts] using h
  | opNode op l r _ ihr =>
    intro t h
    simp only [meets, Bool.and_eq_true] at h
    simp only [accepts, Bool.or_eq_true, Bool.and_eq_true]
    exact Or.inr ⟨h.1, ihr _ h.2⟩

theorem Inv_empty : Inv Caches.empty := by
  constructor <;> intros <;> simp_all [Caches.empty]

theorem Inv_setNeeded_some (c : Caches) (K : List Val) (t : Val) (T : node) (hc : Inv c)
    (hK : K.length ≠ 1) (hT : T.leaves.Perm K) (ha : accepts T t = true) :
    Inv (c.setNeeded (K, t) (some T)) := by
  constructor
  · exact hc.trees_sound
  · exact hc.trees_complete
  · intro K' t' T' h
    simp only [Caches.setNeeded, Function.update_apply] at h
    split at h
    · rename_i heq
      simp only [Prod.mk.injEq] at heq
      simp only [Option.some.injEq] at h
      subst h
      rw [heq.1, heq.2]; exact ⟨hT, ha⟩
    · exact hc.needed_sound K' t' T' h
  · intro K' t' h
    simp only [Caches.setNeeded, Function.update_apply] at h
    split at h
    · simp at h
    · exact hc.needed_nil K' t' h
  · intro K' t' hlen
    simp only [Caches.setNeeded, Function.update_apply]
    split
    · rename_i heq
      simp only [Prod.mk.injEq] at heq
      rw [heq.1] at hlen; exact absurd hlen hK
    · exact hc.needed_single K' t' hlen

theorem Inv_setNeeded_none (c : Caches) (K : List Val) (t : Val) (hc : Inv c)
    (hK : K.length ≠ 1)
    (hn : K.length ≤ 63 → ∀ T : node, T.leaves.Perm K → meets T t = false) :
    Inv (c.setNeeded (K, t) none) := by
  constructor
  · exact hc.trees_sound
  · exact hc.trees_complete
  · intro K' t' T' h
    simp only [Caches.setNeeded, Function.update_apply] at h
    split at h
    · simp at h
    · exact hc.needed_sound K' t' T' h
  · intro K' t' h
    simp only [Caches.setNeeded, Function.update_apply] at h
    split at h
    · rename_i heq
      simp only [Prod.mk.injEq] at heq
      rw [heq.1, heq.2]; exact hn
    · exact hc.needed_nil K' t' h
  · intro K' t' hlen
    simp only [Caches.setNeeded, Function.update_apply]
    split
    · rename_i heq
      simp only [Prod.mk.injEq] at heq
      rw [heq.1] at hlen; exact absurd hlen hK
    · exact hc.needed_single K' t' hlen

theorem Inv_setTrees (c : Caches) (K : List Val) (ts : List node) (hc : Inv c)
    (hts : FwdOK K ts) : Inv (c.setTrees K ts) := by
  constructor
  · intro K' ts' h
    simp only [Caches.setTrees, Function.update_apply] at h
    split at h
    · rename_i heq
      simp only [Option.some.injEq] at h
      subst h; rw [heq]; exact hts.1
    · exact hc.trees_sound K' ts' h
  · intro K' ts' h
    simp only [Caches.setTrees, Function.update_apply] at h
    split at h
    · rename_i heq
      simp only [Option.some.injEq] at h
      subst h; rw [heq]; exact hts.2
    · exact hc.trees_complete K' ts' h
  · exact hc.needed_sound
  · exact hc.needed_nil
  · exact hc.needed_single

theorem Inv_storeNeeded (K : List Val) (hK : K.length ≠ 1) : ∀ (trees : List node) (c : Caches),
    Inv c → (∀ T ∈ trees, (node.leaves T).Perm K) → Inv (storeNeeded K trees c) := by
  intro trees
  induction trees with
  | nil => intro c hc _; exact hc
  | cons T rest ih =>
    intro c hc h
    have hT : T.leaves.Perm K := h T (List.mem_cons_self _ _)
    have hlen : T.leaves.length ≠ 1 := by rw [hT.length_eq]; exact hK
    simp only [storeNeeded, List.foldl_cons]
    exact ih _ (Inv_setNeeded_some c K T.getVal T hc hK hT (accepts_self T hlen))
      (fun T' hT' => h T' (List.mem_cons_of_mem _ hT'))

theorem possibleLoop_spec (recur : List Val → Caches → Option (List node × Caches))
    (deal : List Val) (n : Nat)
    (hrec : ∀ d c, d.length < n → Inv c →
      ∃ ts c', recur d c = some (ts, c') ∧ Inv c' ∧ FwdOK d ts) :
    ∀ (is : List Nat) (trees : List node) (c : Caches),
      (∀ i ∈ is, (splitDeal deal i).1.length < n ∧ (splitDeal deal i).2.length < n) → Inv c →
      ∃ ts c', possibleLoop recur deal is trees c = some (ts, c') ∧ Inv c' ∧
        (∀ T ∈ ts, T ∈ trees ∨ ∃ i ∈ is, ∃ op l r, T = node.opNode op l r ∧
            l.leaves.Perm (splitDeal deal i).1 ∧ r.leaves.Perm (splitDeal deal i).2) ∧
        (∀ T ∈ trees, T ∈ ts) ∧
        (∀ i ∈ is, (splitDeal deal i).1.length ≤ 63 → (splitDeal deal i).2.length ≤ 63 →
            ∀ op l r, l.leaves.Perm (splitDeal deal i).1 → r.leaves.Perm (splitDeal deal i).2 →
              node.opNode op l r ∈ ts) := by
  intro is
  induction is with
  | nil =>
    intro trees c _ hc
    exact ⟨trees, c, rfl, hc, fun T hT => Or.inl hT, fun T hT => hT, by simp⟩
  | cons i rest ih =>
    intro trees c hlen hc
    obtain ⟨hl, hr⟩ := hlen i (List.mem_cons_self _ _)
    obtain ⟨lts, c1, e1, hc1, hlts⟩ := hrec _ c hl hc
    obtain ⟨rts, c2, e2, hc2, hrts⟩ := hrec _ c1 hr hc1
    obtain ⟨ts, c', e3, hc', hs, hk, hcomp⟩ :=
      ih (trees ++ combine lts rts) c2 (fun j hj => hlen j (List.mem_cons_of_mem _ hj)) hc2
    refine ⟨ts, c', ?_, hc', ?_, ?_, ?_⟩
    · simp only [possibleLoop, e1, e2, e3]
    · intro T hT
      rcases hs T hT with h | ⟨j, hj, h⟩
      · rcases List.mem_append.mp h with h | h
        · exact Or.inl h
        · obtain ⟨l, hl', r, hr', op, rfl⟩ := (mem_combine T lts rts).mp h
          exact Or.inr ⟨i, List.mem_cons_self _ _, op, l, r, rfl, hlts.1 l hl', hrts.1 r hr'⟩
      · exact Or.inr ⟨j, List.mem_cons_of_mem _ hj, h⟩
    · intro T hT
      exact hk T (List.mem_append_left _ hT)
    · intro j hj h63l h63r op l r hl' hr'
      rcases List.mem_cons.mp hj with rfl | hj
      · apply hk
        apply List.mem_append_right
        exact (mem_combine _ lts rts).mpr ⟨l, hlts.2 h63l l hl', r, hrts.2 h63r r hr', op, rfl⟩
      · exact hcomp j hj h63l h63r op l r hl' hr'

theorem getPossibleTreesF_spec : ∀ (fuel : Nat) (deal : List Val) (c : Caches),
    deal.length < fuel → Inv c →
    ∃ ts c', getPossibleTreesF fuel deal c = some (ts, c') ∧ Inv c' ∧ FwdOK deal ts := by
  intro fuel
  induction fuel with
  | zero => intro deal c h; omega
  | succ fuel ih =>
    intro deal c hfuel hc
    show ∃ ts c', getPossibleTreesBody (getPossibleTreesF fuel) deal c = some (ts, c') ∧ Inv c' ∧ FwdOK deal ts
    unfold getPossibleTreesBody
    split
    · rename_i nodes hnodes
      refine ⟨nodes, c, rfl, hc, ?_, ?_⟩
      · intro T hT
        exact (hc.trees_sound _ _ hnodes T hT).trans (dealString_perm deal)
      · intro h63 T hT
        apply hc.trees_complete _ _ hnodes (by rw [dealString_length]; exact h63)
        exact hT.trans (dealString_perm deal).symm
    · split
      · rename_i v _
        refine ⟨_, c, rfl, hc, ?_, ?_⟩
        · intro T hT
          simp only [List.mem_singleton] at hT
          subst hT; simp [node.leaves]
        · intro _ T hT
          rw [eq_valNode_of_leaves_perm T v hT]; simp
      · rename_i hne
        have hlen1 : deal.length ≠ 1 := by
          intro h1
          obtain ⟨v, hv⟩ := List.length_eq_one.mp h1
          exact hne v hv
        obtain ⟨ts, c1, e, hc1, hs, _, hcomp⟩ :=
          possibleLoop_spec (getPossibleTreesF fuel) deal fuel ih (splitIndices deal.length) [] c
            (fun i hi => by
              have := splitDeal_lengths_lt deal i hi
              omega) hc
        have hsound : ∀ T ∈ ts, (node.leaves T).Perm deal := by
          intro T hT
          rcases hs T hT with h | ⟨i, _, op, l, r, rfl, hl, hr⟩
          · simp at h
          · exact (hl.append hr).trans (splitDeal_perm deal i)
        have hfwd : FwdOK deal ts := by
          refine ⟨hsound, ?_⟩
          intro h63 T hT
          cases T with
          | valNode v =>
            have := hT.length_eq
            simp [node.leaves] at this
            omega
          | opNode op l r =>
            obtain ⟨i, hi, hl, hr⟩ := exists_splitIndex deal l.leaves r.leaves h63
              hT.symm (leaves_ne_nil l) (leaves_ne_nil r)
            have := splitDeal_lengths_lt deal i hi
            exact hcomp i hi (by omega) (by omega) op l r hl.symm hr.symm
        have hfwdK : FwdOK (dealString deal) ts := by
          refine ⟨fun T hT => (hfwd.1 T hT).trans (dealString_perm deal).symm, ?_⟩
          intro h63 T hT
          exact hfwd.2 (by rw [← dealString_length]; exact h63) T
            (hT.trans (dealString_perm deal))
        refine ⟨ts, (storeNeeded (dealString deal) ts c1).setTrees (dealString deal) ts,
          ?_, ?_, hfwd⟩
        · simp only [e]
        · apply Inv_setTrees _ _ _ _ hfwdK
          apply Inv_storeNeeded _ (by rw [dealString_length]; exact hlen1) _ _ hc1
          exact hfwdK.1

theorem getPossibleTrees_spec (deal : List Val) (c : Caches) (hc : Inv c) :
    ∃ ts c', getPossibleTrees deal c = some (ts, c') ∧ Inv c' ∧ FwdOK deal ts :=
  getPossibleTreesF_spec (deal.length + 1) deal c (Nat.lt_succ_self _) hc

theorem opLoop_spec (recur : List Val → Val → Caches → Option (Option node × Caches))
    (rightCards : List Val) (lt : node) (t : Val)
    (hrec : ∀ w c, Inv c →
      ∃ r c', recur rightCards w c = some (r, c') ∧ Inv c' ∧ BwdOK rightCards w r) :
    ∀ (ops : List operator) (c : Caches), Inv c →
      ∃ r c', opLoop recur rightCards lt t ops c = some (r, c') ∧ Inv c' ∧
        (∀ T, r = some T → T.leaves.Perm (lt.leaves ++ rightCards) ∧ accepts T t = true) ∧
        (r = none → rightCards.length ≤ 63 → ∀ op ∈ ops, ∀ rt : node,
          rt.leaves.Perm rightCards → meets (node.opNode op lt rt) t = false) := by
  intro ops
  induction ops with
  | nil =>
    intro c hc
    exact ⟨none, c, rfl, hc, by simp, by simp⟩
  | cons op rest ih =>
    intro c hc
    by_cases hskip : op = operator.DivOp ∧ (op.computeNecessary lt.getVal t).eqZero = true
    · obtain ⟨r, c', e, hc', hs, hn⟩ := ih c hc
      refine ⟨r, c', ?_, hc', hs, ?_⟩
      · rw [opLoop, if_pos hskip]; exact e
      · intro hr h63 op' hop' rt hrt
        rcases List.mem_cons.mp hop' with rfl | hop'
        · obtain ⟨h1, h2⟩ := hskip
          subst h1
          simp [meets, h2]
        · exact hn hr h63 op' hop' rt hrt
    · obtain ⟨r1, c1, e1, hc1, hb1⟩ := hrec (op.computeNecessary lt.getVal t) c hc
      cases r1 with
      | some rt =>
        refine ⟨some (node.opNode op lt rt), c1, ?_, hc1, ?_, by simp⟩
        · rw [opLoop, if_neg hskip, e1]
        · intro T hT
          simp only [Option.some.injEq] at hT
          subst hT
          obtain ⟨hp, ha⟩ := hb1.1 rt rfl
          refine ⟨?_, ?_⟩
          · simp only [node.leaves]; exact hp.append_left _
          · simp only [accepts, Bool.or_eq_true, Bool.and_eq_true, Bool.not_eq_true']
            right
            refine ⟨?_, ha⟩
            by_contra hcon
            apply hskip
            simp only [Bool.not_eq_false, Bool.and_eq_true, decide_eq_true_eq] at hcon
            exact hcon
      | none =>
        obtain ⟨r, c', e, hc', hs, hn⟩ := ih c1 hc1
        refine ⟨r, c', ?_, hc', hs, ?_⟩
        · rw [opLoop, if_neg hskip, e1]; exact e
        · intro hr h63 op' hop' rt hrt
          rcases List.mem_cons.mp hop' with rfl | hop'
          · simp only [meets, Bool.and_eq_false_iff]
            right
            exact hb1.2 rfl h63 rt hrt
          · exact hn hr h63 op' hop' rt hrt

theorem treeLoop_spec (recur : List Val → Val → Caches → Option (Option node × Caches))
    (leftCards rightCards : List Val) (t : Val)
    (hrec : ∀ w c, Inv c →
      ∃ r c', recur rightCards w c = some (r, c') ∧ Inv c' ∧ BwdOK rightCards w r) :
    ∀ (lts : List node) (c : Caches), (∀ lt ∈ lts, (node.leaves lt).Perm leftCards) → Inv c →
      ∃ r c', treeLoop recur rightCards t lts c = some (r, c') ∧ Inv c' ∧
        (∀ T, r = some T → T.leaves.Perm (leftCards ++ rightCards) ∧ accepts T t = true) ∧
        (r = none → rightCards.length ≤ 63 → ∀ lt ∈ lts, ∀ (op : operator) (rt : node),
          rt.leaves.Perm rightCards → meets (node.opNode op lt rt) t = false) := by
  intro lts
  induction lts with
  | nil =>
    intro c _ hc
    exact ⟨none, c, rfl, hc, by simp, by simp⟩
  | cons lt rest ih =>
    intro c hl hc
    obtain ⟨r1, c1, e1, hc1, hs1, hn1⟩ := opLoop_spec recur rightCards lt t hrec operators c hc
    cases r1 with
    | some T =>
      refine ⟨some T, c1, ?_, hc1, ?_, by simp⟩
      · simp only [treeLoop, e1]
      · intro T' hT'
        simp only [Option.some.injEq] at hT'
        subst hT'
        obtain ⟨hp, ha⟩ := hs1 T rfl
        exact ⟨hp.trans ((hl lt (List.mem_cons_self _ _)).append_right _), ha⟩
    | none =>
      obtain ⟨r, c', e, hc', hs, hn⟩ := ih c1 (fun x hx => hl x (List.mem_cons_of_mem _ hx)) hc1
      refine ⟨r, c', ?_, hc', hs, ?_⟩
      · simp only [treeLoop, e1, e]
      · intro hr h63 lt' hlt' op rt hrt
        rcases List.mem_cons.mp hlt' with rfl | hlt'
        · exact hn1 rfl h63 op (mem_operators op) rt hrt
        · exact hn hr h63 lt' hlt' op rt hrt

theorem splitLoop_spec (recur : List Val → Val → Caches → Option (Option node × Caches))
    (deal : List Val) (t : Val) (n : Nat)
    (hrec : ∀ d w c, d.length < n → Inv c →
      ∃ r c', recur d w c = some (r, c') ∧ Inv c' ∧ BwdOK d w r) :
    ∀ (is : List Nat) (c : Caches), (∀ i ∈ is, (splitDeal deal i).2.length < n) → Inv c →
      ∃ r c', splitLoop recur deal t is c = some (r, c') ∧ Inv c' ∧
        (∀ T, r = some T → T.leaves.Perm deal ∧ accepts T t = true) ∧
        (r = none → ∀ i ∈ is, (splitDeal deal i).1.length ≤ 63 →
          (splitDeal deal i).2.length ≤ 63 → ∀ (op : operator) (l rt : node),
            l.leaves.Perm (splitDeal deal i).1 → rt.leaves.Perm (splitDeal deal i).2 →
              meets (node.opNode op l rt) t = false) := by
  intro is
  induction is with
  | nil =>
    intro c _ hc
    exact ⟨none, c, rfl, hc, by simp, by simp⟩
  | cons i rest ih =>
    intro c hlen hc
    obtain ⟨lts, c1, e1, hc1, hf⟩ := getPossibleTrees_spec (splitDeal deal i).1 c hc
    obtain ⟨r2, c2, e2, hc2, hs2, hn2⟩ :=
      treeLoop_spec recur (splitDeal deal i).1 (splitDeal deal i).2 t
        (fun w c hc => hrec _ w c (hlen i (List.mem_cons_self _ _)) hc) lts c1 hf.1 hc1
    cases r2 with
    | some T =>
      refine ⟨some T, c2, ?_, hc2, ?_, by simp⟩
      · simp only [splitLoop, e1, e2]
      · intro T' hT'
        simp only [Option.some.injEq] at hT'
        subst hT'
        obtain ⟨hp, ha⟩ := hs2 T rfl
        exact ⟨hp.trans (splitDeal_perm deal i), ha⟩
    | none =>
      obtain ⟨r, c', e, hc', hs, hn⟩ :=
        ih c2 (fun j hj => hlen j (List.mem_cons_of_mem _ hj)) hc2
      refine ⟨r, c', ?_, hc', hs, ?_⟩
      · simp only [splitLoop, e1, e2, e]
      · intro hr j hj h63l h63r op l rt hl hrt
        rcases List.mem_cons.mp hj with rfl | hj
        · exact hn2 rfl h63r l (hf.2 h63l l hl) op rt hrt
        · exact hn hr j hj h63l h63r op l rt hl hrt

theorem getNeededTreeF_spec : ∀ (fuel : Nat) (deal : List Val) (t : Val) (c : Caches),
    deal.length < fuel → Inv c →
    ∃ r c', getNeededTreeF fuel deal t c = some (r, c') ∧ Inv c' ∧ BwdOK deal t r := by
  intro fuel
  induction fuel with
  | zero => intro deal t c h; omega
  | succ fuel ih =>
    intro deal t c hfuel hc
    show ∃ r c', getNeededTreeBody (getNeededTreeF fuel) deal t c = some (r, c') ∧ Inv c' ∧
      BwdOK deal t r
    unfold getNeededTreeBody
    split
    · rename_i tree htree
      refine ⟨tree, c, rfl, hc, ?_, ?_⟩
      · intro T hT
        subst hT
        obtain ⟨hp, ha⟩ := hc.needed_sound _ _ _ htree
        exact ⟨hp.trans (dealString_perm deal), ha⟩
      · intro hnone h63 T hT
        subst hnone
        exact hc.needed_nil _ _ htree (by rw [dealString_length]; exact h63) T
          (hT.trans (dealString_perm deal).symm)
    · split
      · rename_i v _
        by_cases hclose : closeEnough v t = true
        · refine ⟨some (node.valNode v), c, by simp [hclose], hc, ?_, by simp⟩
          intro T hT
          simp only [Option.some.injEq] at hT
          subst hT
          exact ⟨by simp [node.leaves], by simpa [accepts] using hclose⟩
        · refine ⟨none, c, by simp [hclose], hc, by simp, ?_⟩
          intro _ _ T hT
          rw [eq_valNode_of_leaves_perm T v hT]
          simpa [meets] using hclose
      · rename_i hne
        have hlen1 : deal.length ≠ 1 := by
          intro h1
          obtain ⟨v, hv⟩ := List.length_eq_one.mp h1
          exact hne v hv
        have hK1 : (dealString deal).length ≠ 1 := by rw [dealString_length]; exact hlen1
        obtain ⟨r, c1, e, hc1, hs, hn⟩ :=
          splitLoop_spec (getNeededTreeF fuel) deal t fuel ih (splitIndices deal.length) c
            (fun i hi => by
              have := splitDeal_lengths_lt deal i hi
              omega) hc
        cases r with
        | some T =>
          obtain ⟨hp, ha⟩ := hs T rfl
          refine ⟨some T, c1.setNeeded (dealString deal, t) (some T), by simp only [e], ?_, ?_, by simp⟩
          · exact Inv_setNeeded_some c1 _ t T hc1 hK1 (hp.trans (dealString_perm deal).symm) ha
          · intro T' hT'
            simp only [Option.some.injEq] at hT'
            subst hT'
            exact ⟨hp, ha⟩
        | none =>
          have hnone : deal.length ≤ 63 → ∀ T : node, T.leaves.Perm deal → meets T t = false := by
            intro h63 T hT
            cases T with
            | valNode v =>
              have := hT.length_eq
              simp [node.leaves] at this
              omega
            | opNode op l rt =>
              obtain ⟨i, hi, hl, hr⟩ := exists_splitIndex deal l.leaves rt.leaves h63
                hT.symm (leaves_ne_nil l) (leaves_ne_nil rt)
              have := splitDeal_lengths_lt deal i hi
              exact hn rfl i hi (by omega) (by omega) op l rt hl.symm hr.symm
          refine ⟨none, c1.setNeeded (dealString deal, t) none, by simp only [e], ?_, by simp, ?_⟩
          · apply Inv_setNeeded_none c1 _ t hc1 hK1
            intro h63 T hT
            exact hnone (by rw [← dealString_length]; exact h63) T (hT.trans (dealString_perm deal))
          · intro _ h63 T hT
            exact hnone h63 T hT

theorem getNeededTree_spec (deal : List Val) (t : Val) (c : Caches) (hc : Inv c) :
    ∃ r c', getNeededTree deal t c = some (r, c') ∧ Inv c' ∧ BwdOK deal t r :=
  getNeededTreeF_spec (deal.length + 1) deal t c (Nat.lt_succ_self _) hc

theorem Reachable_Inv (c : Caches) (h : Reachable c) : Inv c := by
  induction h with
  | empty => exact Inv_empty
  | needed _ e ih =>
    obtain ⟨r, c', e', hc', _⟩ := getNeededTree_spec _ _ _ ih
    rw [e] at e'
    simp only [Option.some.injEq, Prod.mk.injEq] at e'
    rw [e'.2]; exact hc'
  | possible _ e ih =>
    obtain ⟨r, c', e', hc', _⟩ := getPossibleTrees_spec _ _ ih
    rw [e] at e'
    simp only [Option.some.injEq, Prod.mk.injEq] at e'
    rw [e'.2]; exact hc'

/-! ## Finite values and the tolerance -/

theorem isFinite_neg (a : Val) : a.neg.isFinite = a.isFinite := by
  cases a with
  | num q => by_cases h : q = 0 <;> simp [Val.neg, Val.isFinite, h]
  | _ => simp [Val.neg, Val.isFinite]

theorem toRat_neg (a : Val) : a.neg.toRat = -a.toRat := by
  cases a with
  | num q => by_cases h : q = 0 <;> simp [Val.neg, Val.toRat, h]
  | _ => simp [Val.neg, Val.toRat]

theorem isFinite_add (a b : Val) : (a.add b).isFinite = (a.isFinite && b.isFinite) := by
  cases a <;> cases b <;> simp [Val.add, Val.isFinite]

theorem toRat_add (a b : Val) (ha : a.isFinite = true) (hb : b.isFinite = true) :
    (a.add b).toRat = a.toRat + b.toRat := by
  cases a <;> cases b <;> simp_all [Val.add, Val.isFinite, Val.toRat]

theorem isFinite_sub (a b : Val) : (a.sub b).isFinite = (a.isFinite && b.isFinite) := by
  rw [Val.sub, isFinite_add, isFinite_neg]

theorem toRat_sub (a b : Val) (ha : a.isFinite = true) (hb : b.isFinite = true) :
    (a.sub b).toRat = a.toRat - b.toRat := by
  rw [Val.sub, toRat_add a b.neg ha (by rw [isFinite_neg]; exact hb), toRat_neg]; ring

theorem abs_lt_iff (a : Val) (e : ℚ) :
    a.abs.lt (Val.num e) = true ↔ a.isFinite = true ∧ |a.toRat| < e := by
  cases a <;> simp [Val.abs, Val.lt, Val.isFinite, Val.toRat]

theorem closeEnough_iff (a b : Val) :
    closeEnough a b = true ↔
      a.isFinite = true ∧ b.isFinite = true ∧ |a.toRat - b.toRat| < 1 / 100000 := by
  unfold closeEnough
  rw [abs_lt_iff, isFinite_sub, Bool.and_eq_true]
  constructor
  · rintro ⟨⟨ha, hb⟩, h⟩
    rw [toRat_sub a b ha hb] at h
    exact ⟨ha, hb, h⟩
  · rintro ⟨ha, hb, h⟩
    rw [toRat_sub a b ha hb]
    exact ⟨⟨ha, hb⟩, h⟩

theorem possibleLoop_total (recur : List Val → Caches → Option (List node × Caches))
    (deal : List Val) (n : Nat)
    (hrec : ∀ d c, d.length < n → ∃ res, recur d c = some res) :
    ∀ (is : List Nat) (trees : List node) (c : Caches),
      (∀ i ∈ is, (splitDeal deal i).1.length < n ∧ (splitDeal deal i).2.length < n) →
      ∃ res, possibleLoop recur deal is trees c = some res := by
  intro is
  induction is with
  | nil => intro trees c _; exact ⟨_, rfl⟩
  | cons i rest ih =>
    intro trees c hlen
    obtain ⟨hl, hr⟩ := hlen i (List.mem_cons_self _ _)
    obtain ⟨⟨lts, c1⟩, e1⟩ := hrec (splitDeal deal i).1 c hl
    obtain ⟨⟨rts, c2⟩, e2⟩ := hrec (splitDeal deal i).2 c1 hr
    obtain ⟨res, e3⟩ := ih (trees ++ combine lts rts) c2
      (fun j hj => hlen j (List.mem_cons_of_mem _ hj))
    exact ⟨res, by simp only [possibleLoop, e1, e2, e3]⟩

theorem getPossibleTreesF_total : ∀ (fuel : Nat) (deal : List Val) (c : Caches),
    deal.length < fuel → ∃ res, getPossibleTreesF fuel deal c = some res := by
  intro fuel
  induction fuel with
  | zero => intro deal c h; omega
  | succ fuel ih =>
    intro deal c hfuel
    show ∃ res, getPossibleTreesBody (getPossibleTreesF fuel) deal c = some res
    unfold getPossibleTreesBody
    split
    · exact ⟨_, rfl⟩
    · split
      · exact ⟨_, rfl⟩
      · obtain ⟨⟨ts, c1⟩, e⟩ := possibleLoop_total (getPossibleTreesF fuel) deal fuel ih
          (splitIndices deal.length) [] c (fun i hi => by
            have := splitDeal_lengths_lt deal i hi
            omega)
        exact ⟨_, by simp only [e]; rfl⟩

theorem getPossibleTrees_total (deal : List Val) (c : Caches) :
    ∃ res, getPossibleTrees deal c = some res :=
  getPossibleTreesF_total (deal.length + 1) deal c (Nat.lt_succ_self _)

theorem opLoop_total (recur : List Val → Val → Caches → Option (Option node × Caches))
    (rightCards : List Val) (lt : node) (t : Val)
    (hrec : ∀ w c, ∃ res, recur rightCards w c = some res) :
    ∀ (ops : List operator) (c : Caches),
      ∃ res, opLoop recur rightCards lt t ops c = some res := by
  intro ops
  induction ops with
  | nil => intro c; exact ⟨_, rfl⟩
  | cons op rest ih =>
    intro c
    by_cases hskip : op = operator.DivOp ∧ (op.computeNecessary lt.getVal t).eqZero = true
    · obtain ⟨res, e⟩ := ih c
      exact ⟨res, by rw [opLoop, if_pos hskip]; exact e⟩
    · obtain ⟨⟨r1, c1⟩, e1⟩ := hrec (op.computeNecessary lt.getVal t) c
      cases r1 with
      | some rt => exact ⟨_, by rw [opLoop, if_neg hskip, e1]⟩
      | none =>
        obtain ⟨res, e⟩ := ih c1
        exact ⟨res, by rw [opLoop, if_neg hskip, e1]; exact e⟩

theorem treeLoop_total (recur : List Val → Val → Caches → Option (Option node × Caches))
    (rightCards : List Val) (t : Val)
    (hrec : ∀ w c, ∃ res, recur rightCards w c = some res) :
    ∀ (lts : List node) (c : Caches),
      ∃ res, treeLoop recur rightCards t lts c = some res := by
  intro lts
  induction lts with
  | nil => intro c; exact ⟨_, rfl⟩
  | cons lt rest ih =>
    intro c
    obtain ⟨⟨r1, c1⟩, e1⟩ := opLoop_total recur rightCards lt t hrec operators c
    cases r1 with
    | some T => exact ⟨_, by simp only [treeLoop, e1]; rfl⟩
    | none =>
      obtain ⟨res, e⟩ := ih c1
      exact ⟨res, by simp only [treeLoop, e1, e]⟩

theorem splitLoop_total (recur : List Val → Val → Caches → Option (Option node × Caches))
    (deal : List Val) (t : Val) (n : Nat)
    (hrec : ∀ d w c, d.length < n → ∃ res, recur d w c = some res) :
    ∀ (is : List Nat) (c : Caches), (∀ i ∈ is, (splitDeal deal i).2.length < n) →
      ∃ res, splitLoop recur deal t is c = some res := by
  intro is
  induction is with
  | nil => intro c _; exact ⟨_, rfl⟩
  | cons i rest ih =>
    intro c hlen
    obtain ⟨⟨lts, c1⟩, e1⟩ := getPossibleTrees_total (splitDeal deal i).1 c
    obtain ⟨⟨r2, c2⟩, e2⟩ := treeLoop_total recur (splitDeal deal i).2 t
      (fun w c => hrec _ w c (hlen i (List.mem_cons_self _ _))) lts c1
    cases r2 with
    | some T => exact ⟨_, by simp only [splitLoop, e1, e2]; rfl⟩
    | none =>
      obtain ⟨res, e⟩ := ih c2 (fun j hj => hlen j (List.mem_cons_of_mem _ hj))
      exact ⟨res, by simp only [splitLoop, e1, e2, e]⟩

theorem getNeededTreeF_total : ∀ (fuel : Nat) (deal : List Val) (t : Val) (c : Caches),
    deal.length < fuel → ∃ res, getNeededTreeF fuel deal t c = some res := by
  intro fuel
  induction fuel with
  | zero => intro deal t c h; omega
  | succ fuel ih =>
    intro deal t c hfuel
    show ∃ res, getNeededTreeBody (getNeededTreeF fuel) deal t c = some res
    unfold getNeededTreeBody
    split
    · exact ⟨_, rfl⟩
    · split
      · split <;> exact ⟨_, rfl⟩
      · obtain ⟨⟨r, c1⟩, e⟩ := splitLoop_total (getNeededTreeF fuel) deal t fuel ih
          (splitIndices deal.length) c (fun i hi => by
            have := splitDeal_lengths_lt deal i hi
            omega)
        cases r with
        | some T => exact ⟨_, by simp only [e]; rfl⟩
        | none => exact ⟨_, by simp only [e]; rfl⟩

theorem getNeededTree_total (deal : List Val) (t : Val) (c : Caches) :
    ∃ r c', getNeededTree deal t c = some (r, c') := by
  obtain ⟨⟨r, c'⟩, e⟩ := getNeededTreeF_total (deal.length + 1) deal t c (Nat.lt_succ_self _)
  exact ⟨r, c', e⟩

/-! ### Cache hits -/

theorem getNeededTree_hit (deal : List Val) (t : Val) (c : Caches) (r : Option node)
    (h : c.neededTrees (dealString deal, t) = some r) :
    getNeededTree deal t c = some (r, c) := by
  show getNeededTreeBody (getNeededTreeF deal.length) deal t c = some (r, c)
  unfold getNeededTreeBody
  rw [h]

theorem getNeededTree_single_miss (v : Val) (t : Val) (c : Caches)
    (h : c.neededTrees (dealString [v], t) = none) :
    getNeededTree [v] t c =
      some (if closeEnough v t = true then some (node.valNode v) else none, c) := by
  show getNeededTreeBody (getNeededTreeF 1) [v] t c = _
  unfold getNeededTreeBody
  rw [h]
  by_cases hc : closeEnough v t = true <;> simp [hc]

theorem getNeededTree_stores (deal : List Val) (t : Val) (c c1 : Caches) (r : Option node)
    (hlen : deal.length ≠ 1) (h : getNeededTree deal t c = some (r, c1)) :
    c1.neededTrees (dealString deal, t) = some r := by
  change getNeededTreeBody (getNeededTreeF deal.length) deal t c = some (r, c1) at h
  unfold getNeededTreeBody at h
  split at h
  · rename_i tree htree
    simp only [Option.some.injEq, Prod.mk.injEq] at h
    rw [← h.1, ← h.2]; exact htree
  · split at h
    · simp at hlen
    · split at h
      · simp at h
      · simp only [Option.some.injEq, Prod.mk.injEq] at h
        rw [← h.1, ← h.2]
        simp [Caches.setNeeded]
      · simp only [Option.some.injEq, Prod.mk.injEq] at h
        rw [← h.1, ← h.2]
        simp [Caches.setNeeded]

theorem getNeededTree_again (deal deal' : List Val) (t : Val) (c c1 : Caches) (r : Option node)
    (hkey : dealString deal' = dealString deal) (h1 : deal.length = 1 → deal' = deal)
    (h : getNeededTree deal t c = some (r, c1)) :
    getNeededTree deal' t c1 = some (r, c1) := by
  by_cases hlen : deal.length = 1
  · rw [h1 hlen]
    obtain ⟨v, rfl⟩ := List.length_eq_one.mp hlen
    cases hk : c.neededTrees (dealString [v], t) with
    | some tree =>
      rw [getNeededTree_hit _ _ _ _ hk] at h
      simp only [Option.some.injEq, Prod.mk.injEq] at h
      rw [← h.1, ← h.2]
      exact getNeededTree_hit _ _ _ _ hk
    | none =>
      rw [getNeededTree_single_miss _ _ _ hk] at h
      simp only [Option.some.injEq, Prod.mk.injEq] at h
      rw [← h.1, ← h.2]
      exact getNeededTree_single_miss _ _ _ hk
  · apply getNeededTree_hit
    rw [hkey]
    exact getNeededTree_stores deal t c c1 r hlen h

/-! ### The canonical key -/

theorem dealString_singleton (v : Val) : dealString [v] = [v] := rfl

/-! ## Soundness and completeness of the backward search -/

theorem getNeededTree_complete (c : Caches) (deal : List Val) (t : Val) (hc : Inv c)
    (hlen : deal.length ≤ 63) (T : node) (hT : T.leaves.Perm deal) (hm : meets T t = true) :
    ∃ T' c', getNeededTree deal t c = some (some T', c') := by
  obtain ⟨r, c', e, _, hb⟩ := getNeededTree_spec deal t c hc
  cases r with
  | some T' => exact ⟨T', c', e⟩
  | none =>
    have := hb.2 rfl hlen T hT
    rw [hm] at this
    exact absurd this (by simp)

/-- C2, counterexample: the tree `(1 / 10)` uses both cards of the deal `[1 10]` and its value
`0.1` is within `0.00001` of `0.100005`, and yet `getNeededTree([1 10], 0.100005)` returns nil
from the empty caches. And on a deal of 64 cards `0`, whose sum is a tree of value `0`,
`getNeededTree` with the target `0` returns nil, the split loop visiting no index. -/
theorem getNeededTree_misses_within_tolerance :
    (∃ T : node, T.leaves.Perm [Val.num 1, Val.num 10] ∧
      closeEnough T.getVal (Val.num (100005 / 1000000)) = true ∧
      (getNeededTree [Val.num 1, Val.num 10] (Val.num (100005 / 1000000)) Caches.empty).map
          Prod.fst = some none) ∧
    (∃ T : node, T.leaves = List.replicate 64 (Val.num 0) ∧
      closeEnough T.getVal (Val.num 0) = true ∧
      (getNeededTree (List.replicate 64 (Val.num 0)) (Val.num 0) Caches.empty).map
          Prod.fst = some none) :=
  ⟨⟨node.opNode operator.DivOp (node.valNode (Val.num 1)) (node.valNode (Val.num 10)),
      List.Perm.refl _, by decide!, by decide!⟩,
    ⟨(List.replicate 63 (Val.num 0)).foldr
        (fun v T => node.opNode operator.AddOp (node.valNode v) T) (node.valNode (Val.num 0)),
      by decide!, by decide!, by decide!⟩⟩

/-- C2, amended: in every reachable cache state and for every deal of at most 63 cards, if some
expression tree that uses every card of the deal exactly once meets `t` along its right spine
(`meets`: the needed values computed by `computeNecessary` down the right spine never meet the
Divide rule, and the last leaf is within `0.00001` of its needed value), then
`getNeededTree(deal, t)` returns a tree; nil is returned only when no such tree exists. -/
theorem getNeededTree_finds_met (c : Caches) (deal : List Val) (t : Val) (T : node)
    (hc : Reachable c) (hlen : deal.length ≤ 63) (hT : T.leaves.Perm deal)
    (hm : meets T t = true) :
    ∃ T' c', getNeededTree deal t c = some (some T', c') :=
  getNeededTree_complete c deal t (Reachable_Inv c hc) hlen T hT hm

/-- C2, witness of the amended statement: the deal `[1 10]` and the target `11`. -/
theorem getNeededTree_finds_met_witness :
    ∃ T' c', getNeededTree [Val.num 1, Val.num 10] (Val.num 11) Caches.empty =
      some (some T', c') :=
  getNeededTree_finds_met Caches.empty [Val.num 1, Val.num 10] (Val.num 11)
    (node.opNode operator.AddOp (node.valNode (Val.num 1)) (node.valNode (Val.num 10)))
    Reachable.empty (by decide) (List.Perm.refl _) (by decide!)

/-- C3: in every reachable cache state `getNeededTree(deal, t)` returns, and the leaves of a
tree it returns are the cards of the deal, each used exactly once (equal multisets). -/
theorem getNeededTree_leaves (c : Caches) (deal : List Val) (t : Val) (hc : Reachable c) :
    ∃ r c', getNeededTree deal t c = some (r, c') ∧
      ∀ T, r = some T → (T.leaves : Multiset Val) = (deal : Multiset Val) := by
  obtain ⟨r, c', e, _, hb⟩ := getNeededTree_spec deal t c (Reachable_Inv c hc)
  exact ⟨r, c', e, fun T hT => Multiset.coe_eq_coe.mpr (hb.1 T hT).1⟩

/-- C3, witness at the empty caches. -/
theorem getNeededTree_leaves_witness :
    ∃ r c', getNeededTree [Val.num 1, Val.num 2] (Val.num 3) Caches.empty = some (r, c') ∧
      ∀ T, r = some T →
        (T.leaves : Multiset Val) = (([Val.num 1, Val.num 2] : List Val) : Multiset Val) :=
  getNeededTree_leaves Caches.empty [Val.num 1, Val.num 2] (Val.num 3) Reachable.empty

/-- C7: in every cache state, two calls of `getNeededTree(deal, t)` in a row return the same
result: both nil, or the same tree, hence the same `getExp()` text and the same `getVal()`. -/
theorem getNeededTree_twice (c : Caches) (deal : List Val) (t : Val) :
    ∃ r1 c1 r2 c2, getNeededTree deal t c = some (r1, c1) ∧
      getNeededTree deal t c1 = some (r2, c2) ∧ r1 = r2 ∧
      (∀ fmtVal : Val → String, r1.map (node.getExp fmtVal) = r2.map (node.getExp fmtVal)) ∧
      r1.map node.getVal = r2.map node.getVal := by
  obtain ⟨r, c1, e⟩ := getNeededTree_total deal t c
  exact ⟨r, c1, r, c1, e, getNeededTree_again deal deal t c c1 r rfl (fun _ => rfl) e, rfl,
    fun _ => rfl, rfl⟩

theorem pairwise_of_increasing : ∀ l : List ℚ, increasing l = true → l.Pairwise (fun x y => x < y)
  | [], _ => List.Pairwise.nil
  | [a], _ => List.pairwise_singleton _ a
  | a :: b :: rest, h => by
    simp only [increasing, Bool.and_eq_true, decide_eq_true_eq] at h
    have ih := pairwise_of_increasing (b :: rest) h.2
    refine List.Pairwise.cons ?_ ih
    intro x hx
    rcases List.mem_cons.mp hx with rfl | hx
    · exact h.1
    · exact lt_trans h.1 (List.rel_of_pairwise_cons ih hx)

theorem allDeals_nil_eq : allDeals [] = some expectedDeals := by decide!

theorem expectedDeals_increasing : increasing (expectedDeals.map dealCode) = true := by decide!

theorem expectedDeals_nodup : expectedDeals.Nodup := by
  have h := pairwise_of_increasing _ expectedDeals_increasing
  have h2 : (expectedDeals.map dealCode).Nodup := h.imp (fun hxy => ne_of_lt hxy)
  exact List.Nodup.of_map _ h2

theorem mem_expectedDeals (d : List Val) :
    d ∈ expectedDeals ↔ ∃ a b c e : ℕ, 1 ≤ a ∧ a ≤ b ∧ b ≤ c ∧ c ≤ e ∧ e ≤ 10 ∧
      d = [Val.num a, Val.num b, Val.num c, Val.num e] := by
  simp only [expectedDeals, List.mem_flatMap, List.mem_map, List.mem_range'_1]
  constructor
  · rintro ⟨a, ⟨ha1, ha2⟩, b, ⟨hb1, hb2⟩, c, ⟨hc1, hc2⟩, e, ⟨he1, he2⟩, rfl⟩
    exact ⟨a, b, c, e, ha1, hb1, hc1, he1, by omega, rfl⟩
  · rintro ⟨a, b, c, e, ha, hab, hbc, hce, he, rfl⟩
    exact ⟨a, ⟨ha, by omega⟩, b, ⟨hab, by omega⟩, c, ⟨hbc, by omega⟩, e, ⟨hce, by omega⟩, rfl⟩

theorem expectedDeals_perm_eq (d d' : List Val) (hd : d ∈ expectedDeals)
    (hd' : d' ∈ expectedDeals) (hp : d.Perm d') : d = d' := by
  obtain ⟨a, b, c, e, _, hab, hbc, hce, _, rfl⟩ := (mem_expectedDeals d).mp hd
  obtain ⟨a', b', c', e', _, hab', hbc', hce', _, rfl⟩ := (mem_expectedDeals d').mp hd'
  refine @List.Perm.eq_of_sorted Val (fun x y => x.toRat ≤ y.toRat) _ _ ?_ ?_ ?_ hp
  · intro x y hx hy hxy hyx
    have hx' : ∃ n : ℕ, x = Val.num n := by
      simp only [List.mem_cons, List.mem_singleton, List.not_mem_nil, or_false] at hx
      rcases hx with rfl | rfl | rfl | rfl <;> exact ⟨_, rfl⟩
    have hy' : ∃ n : ℕ, y = Val.num n := by
      simp only [List.mem_cons, List.mem_singleton, List.not_mem_nil, or_false] at hy
      rcases hy with rfl | rfl | rfl | rfl <;> exact ⟨_, rfl⟩
    obtain ⟨n, rfl⟩ := hx'
    obtain ⟨m, rfl⟩ := hy'
    simp only [Val.toRat] at hxy hyx
    rw [le_antisymm hxy hyx]
  · have h1 : (a : ℚ) ≤ b := by exact_mod_cast hab
    have h2 : (b : ℚ) ≤ c := by exact_mod_cast hbc
    have h3 : (c : ℚ) ≤ e := by exact_mod_cast hce
    simp only [List.pairwise_cons, List.mem_cons, List.mem_singleton, List.not_mem_nil,
      or_false, forall_eq_or_imp, forall_eq, Val.toRat, IsEmpty.forall_iff, implies_true,
      List.Pairwise.nil, and_true]
    exact ⟨⟨h1, h1.trans h2, (h1.trans h2).trans h3⟩, ⟨h2, h2.trans h3⟩, h3⟩
  · have h1 : (a' : ℚ) ≤ b' := by exact_mod_cast hab'
    have h2 : (b' : ℚ) ≤ c' := by exact_mod_cast hbc'
    have h3 : (c' : ℚ) ≤ e' := by exact_mod_cast hce'
    simp only [List.pairwise_cons, List.mem_cons, List.mem_singleton, List.not_mem_nil,
      or_false, forall_eq_or_imp, forall_eq, Val.toRat, IsEmpty.forall_iff, implies_true,
      List.Pairwise.nil, and_true]
    exact ⟨⟨h1, h1.trans h2, (h1.trans h2).trans h3⟩, ⟨h2, h2.trans h3⟩, h3⟩

/-- C9: `allDeals([])` returns exactly the non-decreasing sequences of four whole cards from 1
to 10: its elements are the lists `[a b c e]` with `1 ≤ a ≤ b ≤ c ≤ e ≤ 10`, every such list
occurs, none occurs twice, no two elements are permutations of each other, and there are 715
of them. -/
theorem allDeals_nil :
    ∃ all : List (List Val), allDeals [] = some all ∧ all.length = 715 ∧
      (∀ d : List Val, d ∈ all ↔ ∃ a b c e : ℕ, 1 ≤ a ∧ a ≤ b ∧ b ≤ c ∧ c ≤ e ∧ e ≤ 10 ∧
        d = [Val.num a, Val.num b, Val.num c, Val.num e]) ∧
      all.Nodup ∧ (∀ d ∈ all, ∀ d' ∈ all, d.Perm d' → d = d') :=
  ⟨expectedDeals, allDeals_nil_eq, by decide!, mem_expectedDeals, expectedDeals_nodup,
    fun d hd d' hd' hp => expectedDeals_perm_eq d d' hd hd' hp⟩

/-! ## The partitions of a deal -/

theorem splitRec_eq_filter (s : Nat) (l : List Val) : ∀ k : Nat,
    (splitRec l (s >>> k)).1 = ((l.enumFrom k).filter (fun p => !s.testBit p.1)).map Prod.snd ∧
      (splitRec l (s >>> k)).2 =
        ((l.enumFrom k).filter (fun p => s.testBit p.1)).map Prod.snd := by
  induction l with
  | nil => intro k; simp [splitRec]
  | cons x xs ih =>
    intro k
    have hk : (s >>> k) / 2 = s >>> (k + 1) := by rw [Nat.shiftRight_succ]
    have hbit : s.testBit k = decide ((s >>> k) % 2 = 1) := by
      rw [Nat.testBit_to_div_mod, Nat.shiftRight_eq_div_pow]
    obtain ⟨ih1, ih2⟩ := ih (k + 1)
    by_cases h : (s >>> k) % 2 = 0
    · have hb : s.testBit k = false := by rw [hbit]; simp [h]
      simp only [splitRec, h, if_true, hk, List.enumFrom_cons, List.filter_cons, hb,
        Bool.not_false, List.map_cons, ih1, ih2]
      simp
    · have hb : s.testBit k = true := by
        rw [hbit, decide_eq_true_eq]
        rcases Nat.mod_two_eq_zero_or_one (s >>> k) with h0 | h1
        · exact absurd h0 h
        · exact h1
      simp only [splitRec, h, if_false, hk, List.enumFrom_cons, List.filter_cons, hb,
        Bool.not_true, List.map_cons, ih1, ih2]
      simp

theorem splitDeal_eq_filter (deal : List Val) (s : Nat) :
    (splitDeal deal s).1 = (deal.enum.filter (fun p => !s.testBit p.1)).map Prod.snd ∧
      (splitDeal deal s).2 = (deal.enum.filter (fun p => s.testBit p.1)).map Prod.snd := by
  rw [splitDeal_eq_splitRec]
  have := splitRec_eq_filter s deal 0
  simpa [List.enum] using this

theorem filter_enum_sublist (deal : List Val) (p : ℕ × Val → Bool) :
    ((deal.enum.filter p).map Prod.snd).Sublist deal := by
  have h : ((deal.enum.filter p).map Prod.snd).Sublist (deal.enum.map Prod.snd) :=
    (List.filter_sublist _).map _
  rwa [List.enum_map_snd] at h

theorem exists_testBit_ne (n i j : Nat) (hi : i < 2 ^ n) (hj : j < 2 ^ n) (hij : i ≠ j) :
    ∃ k, k < n ∧ i.testBit k ≠ j.testBit k := by
  by_contra hcon
  apply hij
  apply Nat.eq_of_testBit_eq
  intro k
  by_cases hk : k < n
  · by_contra hne
    exact hcon ⟨k, hk, hne⟩
  · have hle : 2 ^ n ≤ 2 ^ k := Nat.pow_le_pow_right (by norm_num) (by omega)
    rw [Nat.testBit_lt_two_pow (lt_of_lt_of_le hi hle),
      Nat.testBit_lt_two_pow (lt_of_lt_of_le hj hle)]

/-- C10, counterexample: on a deal of 64 cards the split loop visits no index at all (on the
64-bit `int` the bound `1<<64 - 1` is `-1`), although `1 ≤ 2^64 - 2`. -/
theorem splitIndices_sixty_four :
    (List.replicate 64 (Val.num 1)).length = 64 ∧
      1 ∉ splitIndices (List.replicate 64 (Val.num 1)).length ∧ 1 ≤ 2 ^ 64 - 2 := by
  decide!

/-- C10, amended: for every deal of length `L ≤ 63` the split loop visits exactly
the indices `1 .. 2^L - 2`, each once, never `0` nor `2^L - 1`; for each such index both sides
returned by `splitDeal` are non-empty subsequences of the deal, in their original order,
position `k` goes left exactly when bit `k` of the index is `0` and right otherwise, the two
sides together are the whole deal, and two distinct indices differ in the bit of some position
of the deal. -/
theorem splitDeal_partition (deal : List Val) (h63 : deal.length ≤ 63) :
    splitIndices deal.length = List.range' 1 (2 ^ deal.length - 2) ∧
      (splitIndices deal.length).length = 2 ^ deal.length - 2 ∧
      (splitIndices deal.length).Nodup ∧
      0 ∉ splitIndices deal.length ∧ (2 ^ deal.length - 1) ∉ splitIndices deal.length ∧
      (∀ i ∈ splitIndices deal.length,
        (splitDeal deal i).1 ≠ [] ∧ (splitDeal deal i).2 ≠ [] ∧
        (splitDeal deal i).1 = (deal.enum.filter (fun p => !i.testBit p.1)).map Prod.snd ∧
        (splitDeal deal i).2 = (deal.enum.filter (fun p => i.testBit p.1)).map Prod.snd ∧
        (splitDeal deal i).1.Sublist deal ∧ (splitDeal deal i).2.Sublist deal ∧
        ((splitDeal deal i).1 ++ (splitDeal deal i).2).Perm deal) ∧
      (∀ i ∈ splitIndices deal.length, ∀ j ∈ splitIndices deal.length, i ≠ j →
        ∃ k, k < deal.length ∧ i.testBit k ≠ j.testBit k) := by
  have heq := splitIndices_small deal.length h63
  refine ⟨heq, ?_, ?_, ?_, ?_, ?_, ?_⟩
  · rw [heq, List.length_range']
  · rw [heq]; exact List.nodup_range' 1 _
  · rw [mem_splitIndices]; omega
  · rw [mem_splitIndices]
    have := @Nat.one_le_two_pow deal.length
    omega
  · intro i hi
    have hlt := splitDeal_lengths_lt deal i hi
    have hlen := splitDeal_length deal i
    obtain ⟨e1, e2⟩ := splitDeal_eq_filter deal i
    refine ⟨?_, ?_, e1, e2, ?_, ?_, splitDeal_perm deal i⟩
    · intro h; rw [h] at hlen; simp at hlen; omega
    · intro h; rw [h] at hlen; simp at hlen; omega
    · rw [e1]; exact filter_enum_sublist deal _
    · rw [e2]; exact filter_enum_sublist deal _
  · intro i hi j hj hij
    rw [mem_splitIndices] at hi hj
    exact exists_testBit_ne deal.length i j (by omega) (by omega) hij

/-- C10, witness of the amended statement: the deal `[8 8 3 3]`. -/
theorem splitDeal_partition_witness :
    splitIndices [Val.num 8, Val.num 8, Val.num 3, Val.num 3].length =
        List.range' 1 (2 ^ [Val.num 8, Val.num 8, Val.num 3, Val.num 3].length - 2) ∧
      (splitIndices [Val.num 8, Val.num 8, Val.num 3, Val.num 3].length).length =
        2 ^ [Val.num 8, Val.num 8, Val.num 3, Val.num 3].length - 2 :=
  ⟨(splitDeal_partition [Val.num 8, Val.num 8, Val.num 3, Val.num 3] (by decide)).1,
    (splitDeal_partition [Val.num 8, Val.num 8, Val.num 3, Val.num 3] (by decide)).2.1⟩

/-! ## The reference scenarios -/

theorem mem_treesOverF : ∀ (n : Nat) (deal : List Val) (T : node), deal.length ≤ n →
    deal.length ≤ 63 → T.leaves.Perm deal → T ∈ treesOverF n deal := by
  intro n
  induction n with
  | zero =>
    intro deal T hn _ hT
    have h0 := hT.length_eq
    have := leaves_length_pos T
    omega
  | succ n ih =>
    intro deal T hn h63 hT
    unfold treesOverF
    split
    · rename_i v
      rw [eq_valNode_of_leaves_perm T v hT]; simp
    · rename_i hne
      cases T with
      | valNode v =>
        have h1 := hT.length_eq
        simp only [node.leaves, List.length_singleton] at h1
        obtain ⟨w, hw⟩ := List.length_eq_one.mp h1.symm
        exact absurd hw (hne w)
      | opNode op l r =>
        obtain ⟨i, hi, hl, hr⟩ := exists_splitIndex deal l.leaves r.leaves h63
          hT.symm (leaves_ne_nil l) (leaves_ne_nil r)
        have hlt := splitDeal_lengths_lt deal i hi
        rw [List.mem_flatMap]
        refine ⟨splitDeal deal i, ?_, ?_⟩
        · unfold splitPairs
          rw [List.mem_dedup]
          exact List.mem_map_of_mem _ hi
        · rw [mem_combine]
          exact ⟨l, ih _ l (by omega) (by omega) hl.symm, r,
            ih _ r (by omega) (by omega) hr.symm, op, rfl⟩

theorem mem_treesOver (deal : List Val) (T : node) (h63 : deal.length ≤ 63)
    (hT : T.leaves.Perm deal) : T ∈ treesOver deal :=
  mem_treesOverF deal.length deal T (le_refl _) h63 hT

theorem closeEnough_not_finite (v w : Val) (hw : w.isFinite = false) :
    closeEnough v w = false ∧ closeEnough w v = false := by
  constructor
  · rw [Bool.eq_false_iff]
    intro h
    rw [closeEnough_iff] at h
    rw [h.2.1] at hw
    exact absurd hw (by simp)
  · rw [Bool.eq_false_iff]
    intro h
    rw [closeEnough_iff] at h
    rw [h.1] at hw
    exact absurd hw (by simp)

theorem no_tree_ones :
    (treesOver [Val.num 1, Val.num 1, Val.num 1, Val.num 1]).all
      (fun T => !accepts T (Val.num 24)) = true := by decide!

/-- C5: from the empty caches `getNeededTree([1 1 1 1], 24)` returns nil. The needed value
`24 / (1 - 1)` and the left value `1 / (1 - 1)` are `+Inf`, and `closeEnough` fails as soon as
one of its arguments is not finite, so that no card is accepted for such a needed value. -/
theorem getNeededTree_ones :
    (∃ c', getNeededTree [Val.num 1, Val.num 1, Val.num 1, Val.num 1] (Val.num 24)
        Caches.empty = some (none, c')) ∧
      operator.MulOp.computeNecessary ((Val.num 1).sub (Val.num 1)) (Val.num 24) = Val.posInf ∧
      operator.DivOp.compute (Val.num 1) ((Val.num 1).sub (Val.num 1)) = Val.posInf ∧
      (∀ v w : Val, w.isFinite = false →
        closeEnough v w = false ∧ closeEnough w v = false) := by
  refine ⟨?_, by decide!, by decide!, closeEnough_not_finite⟩
  obtain ⟨r, c', e, _, hb⟩ := getNeededTree_spec
    [Val.num 1, Val.num 1, Val.num 1, Val.num 1] (Val.num 24) Caches.empty Inv_empty
  cases r with
  | none => exact ⟨c', e⟩
  | some T =>
    obtain ⟨hp, ha⟩ := hb.1 T rfl
    have hmem := mem_treesOver _ T (by decide) hp
    have hall := List.all_eq_true.mp no_tree_ones T hmem
    rw [ha] at hall
    simp at hall

/-! ## Finite arithmetic and the inverse operations -/

theorem isFinite_zero (s : Bool) : (Val.zero s).isFinite = true := by
  cases s <;> rfl

theorem toRat_zero (s : Bool) : (Val.zero s).toRat = 0 := by
  cases s <;> rfl

theorem isZero_iff (a : Val) (ha : a.isFinite = true) : a.isZero = true ↔ a.toRat = 0 := by
  cases a <;> simp_all [Val.isZero, Val.isFinite, Val.toRat]

theorem isZero_eq_false_iff (a : Val) (ha : a.isFinite = true) :
    a.isZero = false ↔ a.toRat ≠ 0 := by
  rw [Ne, ← isZero_iff a ha]; simp

theorem finite_not_special (a : Val) (ha : a.isFinite = true) :
    a.isNaN = false ∧ a.isInf = false := by
  cases a <;> simp_all [Val.isNaN, Val.isInf, Val.isFinite]

theorem mul_finite (a b : Val) (ha : a.isFinite = true) (hb : b.isFinite = true) :
    (a.mul b).isFinite = true ∧ (a.mul b).toRat = a.toRat * b.toRat := by
  obtain ⟨ha1, ha2⟩ := finite_not_special a ha
  obtain ⟨hb1, hb2⟩ := finite_not_special b hb
  unfold Val.mul
  simp only [ha1, ha2, hb1, hb2, Bool.or_self, Bool.false_and, Bool.and_false, Bool.false_eq_true,
    if_false]
  by_cases hz : (a.isZero || b.isZero) = true
  · rw [if_pos hz]
    refine ⟨isFinite_zero _, ?_⟩
    rw [toRat_zero]
    rcases Bool.or_eq_true_iff.mp hz with h | h
    · rw [(isZero_iff a ha).mp h]; simp
    · rw [(isZero_iff b hb).mp h]; simp
  · rw [if_neg hz]
    exact ⟨rfl, rfl⟩

theorem div_finite (a b : Val) (ha : a.isFinite = true) (hb : b.isFinite = true)
    (hb0 : b.isZero = false) :
    (a.div b).isFinite = true ∧ (a.div b).toRat = a.toRat / b.toRat := by
  obtain ⟨ha1, ha2⟩ := finite_not_special a ha
  obtain ⟨hb1, hb2⟩ := finite_not_special b hb
  unfold Val.div
  simp only [ha1, ha2, hb1, hb2, hb0, Bool.or_self, Bool.false_and, Bool.and_false,
    Bool.false_eq_true, if_false, Bool.false_or]
  by_cases hz : a.isZero = true
  · rw [if_pos hz]
    refine ⟨isFinite_zero _, ?_⟩
    rw [toRat_zero, (isZero_iff a ha).mp hz]; simp
  · rw [if_neg hz]
    exact ⟨rfl, rfl⟩

theorem add_finite (a b : Val) (ha : a.isFinite = true) (hb : b.isFinite = true) :
    (a.add b).isFinite = true ∧ (a.add b).toRat = a.toRat + b.toRat :=
  ⟨by rw [isFinite_add, ha, hb]; rfl, toRat_add a b ha hb⟩

theorem sub_finite (a b : Val) (ha : a.isFinite = true) (hb : b.isFinite = true) :
    (a.sub b).isFinite = true ∧ (a.sub b).toRat = a.toRat - b.toRat :=
  ⟨by rw [isFinite_sub, ha, hb]; rfl, toRat_sub a b ha hb⟩

/-- C11, counterexample: with the left value `+Inf` and the target `5`, Add needs
`5 - Inf = -Inf`, and `Inf + (-Inf)` is NaN, not `5`. -/
theorem computeNecessary_not_inverse :
    operator.AddOp.compute Val.posInf (operator.AddOp.computeNecessary Val.posInf (Val.num 5)) =
      Val.nan ∧ Val.nan ≠ Val.num 5 := by
  decide!

/-- C11, amended: `computeNecessary` is Add: `t - l`, Subtract: `l - t`, Multiply: `t / l`,
Divide: `l / t`. On finite values and in exact arithmetic it is the inverse of `compute` in the
right operand: `compute(l, computeNecessary(l, t))` is finite and equal to `t` as a number (with
`l ≠ 0` for Multiply, and `l ≠ 0` and `t ≠ 0` for Divide), and `computeNecessary(l, compute(l, r))`
is finite and equal to `r` as a number (with `l ≠ 0` for Multiply, and `l ≠ 0` and `r ≠ 0` for
Divide). -/
theorem computeNecessary_inverse (l x : Val) (hl : l.isFinite = true) (hx : x.isFinite = true) :
    (∀ left want : Val,
      operator.AddOp.computeNecessary left want = want.sub left ∧
      operator.SubOp.computeNecessary left want = left.sub want ∧
      operator.MulOp.computeNecessary left want = want.div left ∧
      operator.DivOp.computeNecessary left want = left.div want) ∧
    (∀ op : operator,
      (op = operator.MulOp → l.isZero = false) →
      (op = operator.DivOp → l.isZero = false ∧ x.isZero = false) →
      ((op.compute l (op.computeNecessary l x)).isFinite = true ∧
          (op.compute l (op.computeNecessary l x)).toRat = x.toRat) ∧
        ((op.computeNecessary l (op.compute l x)).isFinite = true ∧
          (op.computeNecessary l (op.compute l x)).toRat = x.toRat)) := by
  refine ⟨fun _ _ => ⟨rfl, rfl, rfl, rfl⟩, ?_⟩
  intro op hmul hdiv
  cases op with
  | AddOp =>
    simp only [operator.compute, operator.computeNecessary]
    obtain ⟨f1, e1⟩ := sub_finite x l hx hl
    obtain ⟨f2, e2⟩ := add_finite l (x.sub l) hl f1
    obtain ⟨f3, e3⟩ := add_finite l x hl hx
    obtain ⟨f4, e4⟩ := sub_finite (l.add x) l f3 hl
    exact ⟨⟨f2, by rw [e2, e1]; ring⟩, ⟨f4, by rw [e4, e3]; ring⟩⟩
  | SubOp =>
    simp only [operator.compute, operator.computeNecessary]
    obtain ⟨f1, e1⟩ := sub_finite l x hl hx
    obtain ⟨f2, e2⟩ := sub_finite l (l.sub x) hl f1
    exact ⟨⟨f2, by rw [e2, e1]; ring⟩, ⟨f2, by rw [e2, e1]; ring⟩⟩
  | MulOp =>
    have hl0 := hmul rfl
    have hlq : l.toRat ≠ 0 := (isZero_eq_false_iff l hl).mp hl0
    simp only [operator.compute, operator.computeNecessary]
    obtain ⟨f1, e1⟩ := div_finite x l hx hl hl0
    obtain ⟨f2, e2⟩ := mul_finite l (x.div l) hl f1
    obtain ⟨f3, e3⟩ := mul_finite l x hl hx
    obtain ⟨f4, e4⟩ := div_finite (l.mul x) l f3 hl hl0
    exact ⟨⟨f2, by rw [e2, e1]; field_simp⟩, ⟨f4, by rw [e4, e3]; field_simp⟩⟩
  | DivOp =>
    obtain ⟨hl0, hx0⟩ := hdiv rfl
    have hlq : l.toRat ≠ 0 := (isZero_eq_false_iff l hl).mp hl0
    have hxq : x.toRat ≠ 0 := (isZero_eq_false_iff x hx).mp hx0
    simp only [operator.compute, operator.computeNecessary]
    obtain ⟨f1, e1⟩ := div_finite l x hl hx hx0
    have h10 : (l.div x).isZero = false := by
      rw [isZero_eq_false_iff _ f1, e1]
      exact div_ne_zero hlq hxq
    obtain ⟨f2, e2⟩ := div_finite l (l.div x) hl f1 h10
    exact ⟨⟨f2, by rw [e2, e1]; field_simp⟩, ⟨f2, by rw [e2, e1]; field_simp⟩⟩

/-- C11, witness of the amended statement: the left value `3` and the other value `24`. -/
theorem computeNecessary_inverse_witness :
    (operator.DivOp.compute (Val.num 3)
        (operator.DivOp.computeNecessary (Val.num 3) (Val.num 24))).toRat = (Val.num 24).toRat :=
  ((computeNecessary_inverse (Val.num 3) (Val.num 24) rfl rfl).2 operator.DivOp
    (fun h => by cases h) (fun _ => ⟨by decide!, by decide!⟩)).1.2

/-! ## The Divide rule -/

/-- C16: in the operator loop of `getNeededTree`, when the operator is Divide and the needed
value `leftVal / neededVal` is a zero, the loop goes on to the next operator without any
recursive call, whatever the recursive call would do; Divide being the last operator, the loop
then ends without a tree and leaves the caches as they are. On the deal `[0 0]` with the target
`5`, where the skipped leaf `0` would pass `closeEnough` and give the tree `(0 / 0)` of value
NaN, the result is nil. -/
theorem opLoop_divide_skip :
    (∀ (recur : List Val → Val → Caches → Option (Option node × Caches))
        (rightCards : List Val) (lt : node) (neededVal : Val) (ops : List operator) (c : Caches),
        (operator.DivOp.computeNecessary lt.getVal neededVal).eqZero = true →
        opLoop recur rightCards lt neededVal (operator.DivOp :: ops) c =
          opLoop recur rightCards lt neededVal ops c) ∧
    (∀ (recur : List Val → Val → Caches → Option (Option node × Caches))
        (rightCards : List Val) (lt : node) (neededVal : Val) (c : Caches),
        (operator.DivOp.computeNecessary lt.getVal neededVal).eqZero = true →
        opLoop recur rightCards lt neededVal [operator.DivOp] c = some (none, c)) ∧
    operators.getLast? = some operator.DivOp ∧
    (getNeededTree [Val.num 0, Val.num 0] (Val.num 5) Caches.empty).map Prod.fst = some none ∧
    closeEnough (Val.num 0) (operator.DivOp.computeNecessary (Val.num 0) (Val.num 5)) = true ∧
    (node.opNode operator.DivOp (node.valNode (Val.num 0)) (node.valNode (Val.num 0))).getVal =
      Val.nan := by
  refine ⟨?_, ?_, by decide, by decide!, by decide!, by decide!⟩
  · intro recur rightCards lt neededVal ops c h
    rw [opLoop, if_pos ⟨rfl, h⟩]
  · intro recur rightCards lt neededVal c h
    rw [opLoop, if_pos ⟨rfl, h⟩]
    rfl

/-! ## The list returned by the forward search -/

/-- C20, counterexample: on a deal of 64 cards `0` the forward search returns no tree at all
(the split loop visits no index), although the sum of the cards is a tree over the deal. -/
theorem getPossibleTrees_sixty_four :
    (getPossibleTrees (List.replicate 64 (Val.num 0)) Caches.empty).map Prod.fst = some [] ∧
      ((List.replicate 63 (Val.num 0)).foldr
        (fun v T => node.opNode operator.AddOp (node.valNode v) T)
        (node.valNode (Val.num 0))).leaves = List.replicate 64 (Val.num 0) := by
  decide!

/-- C20, amended: in every reachable cache state and for every deal of at most 63 cards,
`getPossibleTrees(deal)` returns, and a tree is an element of the returned list exactly when
the multiset of its leaf values is the multiset of the cards of the deal. -/
theorem getPossibleTrees_mem (c : Caches) (deal : List Val) (hc : Reachable c)
    (hlen : deal.length ≤ 63) :
    ∃ ts c', getPossibleTrees deal c = some (ts, c') ∧
      ∀ T : node, T ∈ ts ↔ (T.leaves : Multiset Val) = (deal : Multiset Val) := by
  obtain ⟨ts, c', e, _, hf⟩ := getPossibleTrees_spec deal c (Reachable_Inv c hc)
  refine ⟨ts, c', e, fun T => ?_⟩
  rw [Multiset.coe_eq_coe]
  exact ⟨fun h => hf.1 T h, fun h => hf.2 hlen T h⟩

/-- C20, witness of the amended statement at the empty caches. -/
theorem getPossibleTrees_mem_witness :
    ∃ ts c', getPossibleTrees [Val.num 1, Val.num 2] Caches.empty = some (ts, c') ∧
      ∀ T : node, T ∈ ts ↔
        (T.leaves : Multiset Val) = (([Val.num 1, Val.num 2] : List Val) : Multiset Val) :=
  getPossibleTrees_mem Caches.empty [Val.num 1, Val.num 2] Reachable.empty (by decide)

/-! ## How the caches grow -/

theorem Grows_refl (n : Nat) (c : Caches) : Grows n c c :=
  ⟨fun _ _ => rfl, fun _ _ _ => rfl, fun _ _ h => h, fun _ _ _ h => Or.inl h,
    fun _ _ h => Or.inl h⟩

theorem Grows_trans {n : Nat} {c c1 c2 : Caches} (h1 : Grows n c c1) (h2 : Grows n c1 c2) :
    Grows n c c2 := by
  refine ⟨?_, ?_, ?_, ?_, ?_⟩
  · intro K hK; rw [h2.trees_far K hK, h1.trees_far K hK]
  · intro K t hK; rw [h2.needed_far K t hK, h1.needed_far K t hK]
  · intro K ts h; exact h2.trees_kept K ts (h1.trees_kept K ts h)
  · intro K t e h
    rcases h1.needed_kept K t e h with h' | ⟨T, hT, hv⟩
    · exact h2.needed_kept K t e h'
    · rcases h2.needed_kept K t _ hT with h'' | ⟨T2, hT2, hv2⟩
      · exact Or.inr ⟨T, h'', hv⟩
      · exact Or.inr ⟨T2, hT2, hv2⟩
  · intro K ts h
    rcases h2.trees_seeded K ts h with h' | h'
    · rcases h1.trees_seeded K ts h' with h'' | h''
      · exact Or.inl h''
      · right
        intro T hT
        obtain ⟨T', e, hv⟩ := h'' T hT
        rcases h2.needed_kept K _ _ e with e2 | ⟨T2, e2, hv2⟩
        · exact ⟨T', e2, hv⟩
        · exact ⟨T2, e2, hv2⟩
    · exact Or.inr h'

theorem Grows_mono {n m : Nat} {c c' : Caches} (hnm : n ≤ m) (h : Grows n c c') :
    Grows m c c' :=
  ⟨fun K hK => h.trees_far K (le_trans hnm hK), fun K t hK => h.needed_far K t (le_trans hnm hK),
    h.trees_kept, h.needed_kept, h.trees_seeded⟩

theorem Grows_setNeeded_tree (c : Caches) (K : List Val) (T : node) :
    Grows (K.length + 1) c (c.setNeeded (K, T.getVal) (some T)) := by
  refine ⟨fun _ _ => rfl, ?_, fun _ _ h => h, ?_, fun _ _ h => Or.inl h⟩
  · intro K' t hK
    simp only [Caches.setNeeded, Function.update_apply]
    rw [if_neg]
    intro h
    simp only [Prod.mk.injEq] at h
    rw [h.1] at hK
    omega
  · intro K' t e h
    simp only [Caches.setNeeded, Function.update_apply]
    split
    · rename_i heq
      simp only [Prod.mk.injEq] at heq
      exact Or.inr ⟨T, rfl, heq.2.symm⟩
    · exact Or.inl h

theorem Grows_setNeeded_new (c : Caches) (K : List Val) (t : Val) (r : Option node)
    (hnew : c.neededTrees (K, t) = none) :
    Grows (K.length + 1) c (c.setNeeded (K, t) r) := by
  refine ⟨fun _ _ => rfl, ?_, fun _ _ h => h, ?_, fun _ _ h => Or.inl h⟩
  · intro K' t' hK
    simp only [Caches.setNeeded, Function.update_apply]
    rw [if_neg]
    intro h
    simp only [Prod.mk.injEq] at h
    rw [h.1] at hK
    omega
  · intro K' t' e h
    simp only [Caches.setNeeded, Function.update_apply]
    split
    · rename_i heq
      simp only [Prod.mk.injEq] at heq
      rw [heq.1, heq.2, hnew] at h
      simp at h
    · exact Or.inl h

theorem Grows_setTrees_new (c : Caches) (K : List Val) (ts : List node)
    (hnew : c.treeCache K = none)
    (hent : ∀ T ∈ ts, ∃ T' : node,
      c.neededTrees (K, node.getVal T) = some (some T') ∧ T'.getVal = T.getVal) :
    Grows (K.length + 1) c (c.setTrees K ts) := by
  refine ⟨?_, fun _ _ _ => rfl, ?_, fun _ _ _ h => Or.inl h, ?_⟩
  rotate_left 2
  · intro K' ts' h
    simp only [Caches.setTrees, Function.update_apply] at h
    split at h
    · rename_i heq
      simp only [Option.some.injEq] at h
      right
      rw [heq, ← h]
      exact hent
    · exact Or.inl h
  · intro K' hK
    simp only [Caches.setTrees, Function.update_apply]
    rw [if_neg]
    intro h
    rw [h] at hK
    omega
  · intro K' ts' h
    simp only [Caches.setTrees, Function.update_apply]
    split
    · rename_i heq
      rw [heq, hnew] at h
      simp at h
    · exact h

theorem storeNeeded_treeCache (K : List Val) : ∀ (trees : List node) (c : Caches),
    (storeNeeded K trees c).treeCache = c.treeCache := by
  intro trees
  induction trees with
  | nil => intro c; rfl
  | cons T rest ih =>
    intro c
    simp only [storeNeeded, List.foldl_cons]
    exact (ih _).trans rfl

theorem Grows_storeNeeded (K : List Val) : ∀ (trees : List node) (c : Caches),
    Grows (K.length + 1) c (storeNeeded K trees c) := by
  intro trees
  induction trees with
  | nil => intro c; exact Grows_refl _ c
  | cons T rest ih =>
    intro c
    simp only [storeNeeded, List.foldl_cons]
    exact Grows_trans (Grows_setNeeded_tree c K T) (ih _)

theorem storeNeeded_entries (K : List Val) : ∀ (trees : List node) (c : Caches),
    ∀ T ∈ trees, ∃ T' : node,
      (storeNeeded K trees c).neededTrees (K, node.getVal T) = some (some T') ∧
        T'.getVal = T.getVal := by
  intro trees
  induction trees with
  | nil => intro c T hT; simp at hT
  | cons T0 rest ih =>
    intro c T hT
    simp only [storeNeeded, List.foldl_cons]
    rcases List.mem_cons.mp hT with rfl | hT
    · have h0 : (c.setNeeded (K, T.getVal) (some T)).neededTrees (K, T.getVal) =
          some (some T) := by
        simp [Caches.setNeeded]
      rcases (Grows_storeNeeded K rest _).needed_kept K _ _ h0 with e | ⟨T2, e, hv⟩
      · exact ⟨T, e, rfl⟩
      · exact ⟨T2, e, hv⟩
    · exact ih _ T hT

theorem possibleLoop_grows (recur : List Val → Caches → Option (List node × Caches))
    (deal : List Val) (n : Nat)
    (hrec : ∀ d c r c', d.length < n → recur d c = some (r, c') → Grows n c c') :
    ∀ (is : List Nat) (trees : List node) (c : Caches) (ts : List node) (c' : Caches),
      (∀ i ∈ is, (splitDeal deal i).1.length < n ∧ (splitDeal deal i).2.length < n) →
      possibleLoop recur deal is trees c = some (ts, c') → Grows n c c' := by
  intro is
  induction is with
  | nil =>
    intro trees c ts c' _ h
    simp only [possibleLoop, Option.some.injEq, Prod.mk.injEq] at h
    rw [← h.2]; exact Grows_refl _ _
  | cons i rest ih =>
    intro trees c ts c' hlen h
    obtain ⟨hl, hr⟩ := hlen i (List.mem_cons_self _ _)
    rw [possibleLoop] at h
    cases e1 : recur (splitDeal deal i).1 c with
    | none => rw [e1] at h; simp at h
    | some p1 =>
      obtain ⟨lts, c1⟩ := p1
      rw [e1] at h
      simp only at h
      cases e2 : recur (splitDeal deal i).2 c1 with
      | none => rw [e2] at h; simp at h
      | some p2 =>
        obtain ⟨rts, c2⟩ := p2
        rw [e2] at h
        simp only at h
        exact Grows_trans (Grows_trans (hrec _ _ _ _ hl e1) (hrec _ _ _ _ hr e2))
          (ih _ _ _ _ (fun j hj => hlen j (List.mem_cons_of_mem _ hj)) h)

theorem getPossibleTreesF_grows : ∀ (fuel : Nat) (deal : List Val) (c : Caches)
    (ts : List node) (c' : Caches), deal.length < fuel →
    getPossibleTreesF fuel deal c = some (ts, c') → Grows (deal.length + 1) c c' := by
  intro fuel
  induction fuel with
  | zero => intro deal c ts c' h; omega
  | succ fuel ih =>
    intro deal c ts c' hfuel h
    change getPossibleTreesBody (getPossibleTreesF fuel) deal c = some (ts, c') at h
    unfold getPossibleTreesBody at h
    split at h
    · simp only [Option.some.injEq, Prod.mk.injEq] at h
      rw [← h.2]; exact Grows_refl _ _
    · rename_i hmiss
      split at h
      · simp only [Option.some.injEq, Prod.mk.injEq] at h
        rw [← h.2]; exact Grows_refl _ _
      · split at h
        · simp at h
        · rename_i trees c1 e
          simp only [Option.some.injEq, Prod.mk.injEq] at h
          rw [← h.2]
          have hloop : Grows deal.length c c1 :=
            possibleLoop_grows (getPossibleTreesF fuel) deal deal.length
              (fun d c0 r c0' hd hr =>
                Grows_mono (by omega) (ih d c0 r c0' (by omega) hr))
              _ _ _ _ _ (fun i hi => splitDeal_lengths_lt deal i hi) e
          have hK : (dealString deal).length = deal.length := dealString_length deal
          have h1 : Grows (deal.length + 1) c1 (storeNeeded (dealString deal) trees c1) := by
            have := Grows_storeNeeded (dealString deal) trees c1
            rwa [hK] at this
          have hnew : (storeNeeded (dealString deal) trees c1).treeCache (dealString deal) =
              none := by
            rw [storeNeeded_treeCache, hloop.trees_far _ (by rw [hK])]
            exact hmiss
          have h2 := Grows_setTrees_new (storeNeeded (dealString deal) trees c1)
            (dealString deal) trees hnew (storeNeeded_entries _ trees c1)
          rw [hK] at h2
          exact Grows_trans (Grows_trans (Grows_mono (by omega) hloop) h1) h2

theorem getPossibleTrees_grows (deal : List Val) (c : Caches) (ts : List node) (c' : Caches)
    (h : getPossibleTrees deal c = some (ts, c')) : Grows (deal.length + 1) c c' :=
  getPossibleTreesF_grows (deal.length + 1) deal c ts c' (Nat.lt_succ_self _) h

theorem opLoop_grows (recur : List Val → Val → Caches → Option (Option node × Caches))
    (rightCards : List Val) (lt : node) (t : Val) (n : Nat)
    (hrec : ∀ w c r c', recur rightCards w c = some (r, c') → Grows n c c') :
    ∀ (ops : List operator) (c : Caches) (r : Option node) (c' : Caches),
      opLoop recur rightCards lt t ops c = some (r, c') → Grows n c c' := by
  intro ops
  induction ops with
  | nil =>
    intro c r c' h
    simp only [opLoop, Option.some.injEq, Prod.mk.injEq] at h
    rw [← h.2]; exact Grows_refl _ _
  | cons op rest ih =>
    intro c r c' h
    rw [opLoop] at h
    split at h
    · exact ih c r c' h
    · cases e1 : recur rightCards (op.computeNecessary lt.getVal t) c with
      | none => rw [e1] at h; simp at h
      | some p1 =>
        obtain ⟨r1, c1⟩ := p1
        rw [e1] at h
        cases r1 with
        | some rt =>
          simp only [Option.some.injEq, Prod.mk.injEq] at h
          rw [← h.2]; exact hrec _ _ _ _ e1
        | none =>
          simp only at h
          exact Grows_trans (hrec _ _ _ _ e1) (ih c1 r c' h)

theorem treeLoop_grows (recur : List Val → Val → Caches → Option (Option node × Caches))
    (rightCards : List Val) (t : Val) (n : Nat)
    (hrec : ∀ w c r c', recur rightCards w c = some (r, c') → Grows n c c') :
    ∀ (lts : List node) (c : Caches) (r : Option node) (c' : Caches),
      treeLoop recur rightCards t lts c = some (r, c') → Grows n c c' := by
  intro lts
  induction lts with
  | nil =>
    intro c r c' h
    simp only [treeLoop, Option.some.injEq, Prod.mk.injEq] at h
    rw [← h.2]; exact Grows_refl _ _
  | cons lt rest ih =>
    intro c r c' h
    rw [treeLoop] at h
    cases e1 : opLoop recur rightCards lt t operators c with
    | none => rw [e1] at h; simp at h
    | some p1 =>
      obtain ⟨r1, c1⟩ := p1
      rw [e1] at h
      have g1 := opLoop_grows recur rightCards lt t n hrec operators c r1 c1 e1
      cases r1 with
      | some T =>
        simp only [Option.some.injEq, Prod.mk.injEq] at h
        rw [← h.2]; exact g1
      | none =>
        simp only at h
        exact Grows_trans g1 (ih c1 r c' h)

theorem splitLoop_grows (recur : List Val → Val → Caches → Option (Option node × Caches))
    (deal : List Val) (t : Val) (n : Nat)
    (hrec : ∀ d w c r c', d.length < n → recur d w c = some (r, c') → Grows n c c') :
    ∀ (is : List Nat) (c : Caches) (r : Option node) (c' : Caches),
      (∀ i ∈ is, (splitDeal deal i).1.length < n ∧ (splitDeal deal i).2.length < n) →
      splitLoop recur deal t is c = some (r, c') → Grows n c c' := by
  intro is
  induction is with
  | nil =>
    intro c r c' _ h
    simp only [splitLoop, Option.some.injEq, Prod.mk.injEq] at h
    rw [← h.2]; exact Grows_refl _ _
  | cons i rest ih =>
    intro c r c' hlen h
    obtain ⟨hl, hr⟩ := hlen i (List.mem_cons_self _ _)
    rw [splitLoop] at h
    cases e1 : getPossibleTrees (splitDeal deal i).1 c with
    | none => rw [e1] at h; simp at h
    | some p1 =>
      obtain ⟨lts, c1⟩ := p1
      rw [e1] at h
      simp only at h
      have g1 : Grows n c c1 := Grows_mono (by omega) (getPossibleTrees_grows _ _ _ _ e1)
      cases e2 : treeLoop recur (splitDeal deal i).2 t lts c1 with
      | none => rw [e2] at h; simp at h
      | some p2 =>
        obtain ⟨r2, c2⟩ := p2
        rw [e2] at h
        have g2 := treeLoop_grows recur (splitDeal deal i).2 t n
          (fun w c0 r0 c0' h0 => hrec _ w c0 r0 c0' hr h0) lts c1 r2 c2 e2
        cases r2 with
        | some T =>
          simp only [Option.some.injEq, Prod.mk.injEq] at h
          rw [← h.2]; exact Grows_trans g1 g2
        | none =>
          simp only at h
          exact Grows_trans (Grows_trans g1 g2)
            (ih c2 r c' (fun j hj => hlen j (List.mem_cons_of_mem _ hj)) h)

theorem getNeededTreeF_grows : ∀ (fuel : Nat) (deal : List Val) (t : Val) (c : Caches)
    (r : Option node) (c' : Caches), deal.length < fuel →
    getNeededTreeF fuel deal t c = some (r, c') → Grows (deal.length + 1) c c' := by
  intro fuel
  induction fuel with
  | zero => intro deal t c r c' h; omega
  | succ fuel ih =>
    intro deal t c r c' hfuel h
    change getNeededTreeBody (getNeededTreeF fuel) deal t c = some (r, c') at h
    unfold getNeededTreeBody at h
    split at h
    · simp only [Option.some.injEq, Prod.mk.injEq] at h
      rw [← h.2]; exact Grows_refl _ _
    · rename_i hmiss
      split at h
      · split at h <;>
        · simp only [Option.some.injEq, Prod.mk.injEq] at h
          rw [← h.2]; exact Grows_refl _ _
      · have hK : (dealString deal).length = deal.length := dealString_length deal
        have hloop : ∀ r1 c1, splitLoop (getNeededTreeF fuel) deal t
            (splitIndices deal.length) c = some (r1, c1) → Grows deal.length c c1 :=
          fun r1 c1 e => splitLoop_grows (getNeededTreeF fuel) deal t deal.length
            (fun d w c0 r0 c0' hd hr =>
              Grows_mono (by omega) (ih d w c0 r0 c0' (by omega) hr))
            _ c r1 c1 (fun i hi => splitDeal_lengths_lt deal i hi) e
        split at h
        · simp at h
        · rename_i T c1 e
          simp only [Option.some.injEq, Prod.mk.injEq] at h
          rw [← h.2]
          have g := hloop _ _ e
          have hnew : c1.neededTrees (dealString deal, t) = none := by
            rw [g.needed_far _ _ (by rw [hK])]; exact hmiss
          have h2 := Grows_setNeeded_new c1 (dealString deal) t (some T) hnew
          rw [hK] at h2
          exact Grows_trans (Grows_mono (by omega) g) h2
        · rename_i c1 e
          simp only [Option.some.injEq, Prod.mk.injEq] at h
          rw [← h.2]
          have g := hloop _ _ e
          have hnew : c1.neededTrees (dealString deal, t) = none := by
            rw [g.needed_far _ _ (by rw [hK])]; exact hmiss
          have h2 := Grows_setNeeded_new c1 (dealString deal) t none hnew
          rw [hK] at h2
          exact Grows_trans (Grows_mono (by omega) g) h2

theorem getNeededTree_grows (deal : List Val) (t : Val) (c : Caches) (r : Option node)
    (c' : Caches) (h : getNeededTree deal t c = some (r, c')) :
    Grows (deal.length + 1) c c' :=
  getNeededTreeF_grows (deal.length + 1) deal t c r c' (Nat.lt_succ_self _) h

theorem Seeded_empty : Seeded Caches.empty := by
  intro K ts h
  simp [Caches.empty] at h

theorem Seeded_of_grows {n : Nat} {c c' : Caches} (h : Grows n c c') (hs : Seeded c) :
    Seeded c' := by
  intro K ts hK T hT
  rcases h.trees_seeded K ts hK with h0 | h0
  · obtain ⟨T', e, hv⟩ := hs K ts h0 T hT
    rcases h.needed_kept K _ _ e with e2 | ⟨T2, e2, hv2⟩
    · exact ⟨T', e2, hv⟩
    · exact ⟨T2, e2, hv2⟩
  · exact h0 T hT

theorem Reachable_Seeded (c : Caches) (h : Reachable c) : Seeded c := by
  induction h with
  | empty => exact Seeded_empty
  | needed _ e ih => exact Seeded_of_grows (getNeededTree_grows _ _ _ _ _ e) ih
  | possible _ e ih => exact Seeded_of_grows (getPossibleTrees_grows _ _ _ _ e) ih

theorem getPossibleTrees_stores (deal : List Val) (c c' : Caches) (ts : List node)
    (hlen : deal.length ≠ 1) (h : getPossibleTrees deal c = some (ts, c')) :
    c'.treeCache (dealString deal) = some ts := by
  change getPossibleTreesBody (getPossibleTreesF deal.length) deal c = some (ts, c') at h
  unfold getPossibleTreesBody at h
  split at h
  · rename_i nodes hn
    simp only [Option.some.injEq, Prod.mk.injEq] at h
    rw [← h.1, ← h.2]; exact hn
  · split at h
    · simp at hlen
    · split at h
      · simp at h
      · simp only [Option.some.injEq, Prod.mk.injEq] at h
        rw [← h.1, ← h.2]
        simp [Caches.setTrees]

theorem FwdFrame_refl (deal : List Val) (c : Caches) : FwdFrame deal c c :=
  fun _ _ h => absurd rfl h

theorem FwdFrame_trans {deal : List Val} {c c1 c2 : Caches} (h1 : FwdFrame deal c c1)
    (h2 : FwdFrame deal c1 c2) : FwdFrame deal c c2 := by
  intro K v hne
  by_cases h : c2.neededTrees (K, v) = c1.neededTrees (K, v)
  · rw [h] at hne ⊢
    exact h1 K v hne
  · exact h2 K v h

theorem FwdFrame_mono {d deal : List Val} {c c' : Caches} (hd : d.Sublist deal)
    (h : FwdFrame d c c') : FwdFrame deal c c' := by
  intro K v hne
  obtain ⟨T, d', e, hv, hp, hs, hk⟩ := h K v hne
  exact ⟨T, d', e, hv, hp, hs.trans hd, hk⟩

theorem splitDeal_sublist (deal : List Val) (i : Nat) :
    (splitDeal deal i).1.Sublist deal ∧ (splitDeal deal i).2.Sublist deal := by
  obtain ⟨e1, e2⟩ := splitDeal_eq_filter deal i
  rw [e1, e2]
  exact ⟨filter_enum_sublist deal _, filter_enum_sublist deal _⟩

theorem storeNeeded_frame (K : List Val) : ∀ (trees : List node) (c : Caches)
    (key : List Val × Val),
    (storeNeeded K trees c).neededTrees key ≠ c.neededTrees key →
    ∃ T ∈ trees, (storeNeeded K trees c).neededTrees key = some (some T) ∧
      key = (K, node.getVal T) := by
  intro trees
  induction trees with
  | nil => intro c key h; exact absurd rfl h
  | cons T0 rest ih =>
    intro c key h
    simp only [storeNeeded, List.foldl_cons] at h ⊢
    by_cases h1 : (storeNeeded K rest (c.setNeeded (K, T0.getVal) (some T0))).neededTrees key =
        (c.setNeeded (K, T0.getVal) (some T0)).neededTrees key
    · have h1' : List.foldl (fun c tree => c.setNeeded (K, tree.getVal) (some tree))
          (c.setNeeded (K, T0.getVal) (some T0)) rest =
          storeNeeded K rest (c.setNeeded (K, T0.getVal) (some T0)) := rfl
      rw [h1'] at h ⊢
      rw [h1] at h ⊢
      simp only [Caches.setNeeded, Function.update_apply] at h ⊢
      split at h
      · rename_i heq
        rw [if_pos heq]
        exact ⟨T0, List.mem_cons_self _ _, rfl, heq⟩
      · exact absurd rfl h
    · obtain ⟨T, hT, e, hk⟩ := ih _ key h1
      exact ⟨T, List.mem_cons_of_mem _ hT, e, hk⟩

theorem possibleLoop_frame (recur : List Val → Caches → Option (List node × Caches))
    (deal : List Val) (n : Nat)
    (hspec : ∀ d c, d.length < n → Inv c →
      ∃ ts c', recur d c = some (ts, c') ∧ Inv c' ∧ FwdOK d ts)
    (hframe : ∀ d c ts c', d.length < n → Inv c → recur d c = some (ts, c') →
      FwdFrame d c c') :
    ∀ (is : List Nat) (trees : List node) (c : Caches) (ts : List node) (c' : Caches),
      (∀ i ∈ is, (splitDeal deal i).1.length < n ∧ (splitDeal deal i).2.length < n) →
      Inv c → possibleLoop recur deal is trees c = some (ts, c') → FwdFrame deal c c' := by
  intro is
  induction is with
  | nil =>
    intro trees c ts c' _ _ h
    simp only [possibleLoop, Option.some.injEq, Prod.mk.injEq] at h
    rw [← h.2]; exact FwdFrame_refl _ _
  | cons i rest ih =>
    intro trees c ts c' hlen hc h
    obtain ⟨hl, hr⟩ := hlen i (List.mem_cons_self _ _)
    obtain ⟨lts, c1, e1, hc1, _⟩ := hspec _ c hl hc
    obtain ⟨rts, c2, e2, hc2, _⟩ := hspec _ c1 hr hc1
    rw [possibleLoop, e1] at h
    simp only [e2] at h
    have f1 := FwdFrame_mono (splitDeal_sublist deal i).1 (hframe _ _ _ _ hl hc e1)
    have f2 := FwdFrame_mono (splitDeal_sublist deal i).2 (hframe _ _ _ _ hr hc1 e2)
    exact FwdFrame_trans (FwdFrame_trans f1 f2)
      (ih _ _ _ _ (fun j hj => hlen j (List.mem_cons_of_mem _ hj)) hc2 h)

theorem getPossibleTreesF_frame : ∀ (fuel : Nat) (deal : List Val) (c : Caches)
    (ts : List node) (c' : Caches), deal.length < fuel → Inv c →
    getPossibleTreesF fuel deal c = some (ts, c') → FwdFrame deal c c' := by
  intro fuel
  induction fuel with
  | zero => intro deal c ts c' h; omega
  | succ fuel ih =>
    intro deal c ts c' hfuel hc h
    obtain ⟨ts0, c0, e0, _, hfwd⟩ := getPossibleTreesF_spec (fuel + 1) deal c hfuel hc
    rw [h] at e0
    simp only [Option.some.injEq, Prod.mk.injEq] at e0
    rw [← e0.1] at hfwd
    change getPossibleTreesBody (getPossibleTreesF fuel) deal c = some (ts, c') at h
    unfold getPossibleTreesBody at h
    split at h
    · simp only [Option.some.injEq, Prod.mk.injEq] at h
      rw [← h.2]; exact FwdFrame_refl _ _
    · split at h
      · simp only [Option.some.injEq, Prod.mk.injEq] at h
        rw [← h.2]; exact FwdFrame_refl _ _
      · split at h
        · simp at h
        · rename_i trees c1 e
          simp only [Option.some.injEq, Prod.mk.injEq] at h
          have hloop : FwdFrame deal c c1 :=
            possibleLoop_frame (getPossibleTreesF fuel) deal deal.length
              (fun d c0 hd hc0 => getPossibleTreesF_spec fuel d c0 (by omega) hc0)
              (fun d c0 r c0' hd hc0 hr => ih d c0 r c0' (by omega) hc0 hr)
              _ _ _ _ _ (fun i hi => splitDeal_lengths_lt deal i hi) hc e
          rw [← h.2]
          refine FwdFrame_trans hloop ?_
          intro K v hne
          have hne' : (storeNeeded (dealString deal) trees c1).neededTrees (K, v) ≠
              c1.neededTrees (K, v) := hne
          obtain ⟨T, hT, e', hk⟩ := storeNeeded_frame (dealString deal) trees c1 (K, v) hne'
          simp only [Prod.mk.injEq] at hk
          have hT' : T ∈ ts := by rw [← h.1]; exact hT
          refine ⟨T, deal, e', hk.2.symm, ?_, List.Sublist.refl _, hk.1⟩
          rw [hk.1]
          exact (hfwd.1 T hT').trans (dealString_perm deal).symm

theorem getPossibleTrees_frame (deal : List Val) (c : Caches) (ts : List node) (c' : Caches)
    (hc : Inv c) (h : getPossibleTrees deal c = some (ts, c')) : FwdFrame deal c c' :=
  getPossibleTreesF_frame (deal.length + 1) deal c ts c' (Nat.lt_succ_self _) hc h

/-- C13, counterexample: after `getNeededTree([1 2], 3)` from the empty caches, `neededTrees`
holds the tree `(2 + 1)` under the key of `[1 2]` and `3`; a call of `getPossibleTrees([1 2])`
then replaces it by `(1 + 2)`. -/
theorem neededTrees_entry_replaced :
    (getNeededTree [Val.num 1, Val.num 2] (Val.num 3) Caches.empty).bind
        (fun p => (getPossibleTrees [Val.num 1, Val.num 2] p.2).map
          (fun q => (p.2.neededTrees ([Val.num 1, Val.num 2], Val.num 3),
            q.2.neededTrees ([Val.num 1, Val.num 2], Val.num 3)))) =
      some
        (some (some (node.opNode operator.AddOp (node.valNode (Val.num 2))
            (node.valNode (Val.num 1)))),
          some (some (node.opNode operator.AddOp (node.valNode (Val.num 1))
            (node.valNode (Val.num 2))))) := by
  decide!

/-- C13, amended: in every cache state, a call of `getPossibleTrees` or of `getNeededTree`
returns and changes no entry of `treeCache`; an entry of `neededTrees` is never removed, and it
stays as it is or is replaced by a tree whose value is the value of the key. An entry that
`getNeededTree` finds under the key of its own arguments is left as it is. -/
theorem cache_entries_kept (c : Caches) (deal : List Val) (t : Val) :
    (∃ ts c', getPossibleTrees deal c = some (ts, c') ∧
      (∀ K l, c.treeCache K = some l → c'.treeCache K = some l) ∧
      (∀ K v e, c.neededTrees (K, v) = some e → c'.neededTrees (K, v) = some e ∨
        ∃ T : node, c'.neededTrees (K, v) = some (some T) ∧ T.getVal = v)) ∧
    (∃ r c', getNeededTree deal t c = some (r, c') ∧
      (∀ K l, c.treeCache K = some l → c'.treeCache K = some l) ∧
      (∀ K v e, c.neededTrees (K, v) = some e → c'.neededTrees (K, v) = some e ∨
        ∃ T : node, c'.neededTrees (K, v) = some (some T) ∧ T.getVal = v) ∧
      (∀ e, c.neededTrees (dealString deal, t) = some e → c' = c)) := by
  constructor
  · obtain ⟨⟨ts, c'⟩, e⟩ := getPossibleTrees_total deal c
    have g := getPossibleTrees_grows deal c ts c' e
    exact ⟨ts, c', e, g.trees_kept, g.needed_kept⟩
  · obtain ⟨r, c', e⟩ := getNeededTree_total deal t c
    have g := getNeededTree_grows deal t c r c' e
    refine ⟨r, c', e, g.trees_kept, g.needed_kept, ?_⟩
    intro e0 h0
    rw [getNeededTree_hit deal t c e0 h0] at e
    simp only [Option.some.injEq, Prod.mk.injEq] at e
    exact e.2.symm

/-- C14: in every reachable cache state, a call of `getPossibleTrees(deal)` returns; when the
deal has at least two cards, `neededTrees` then holds, for every returned tree, under the key
of the sorted deal and the value of the tree, a tree of that same value; and an entry of
`neededTrees` that the call adds or changes is a tree, stored under the sorted cards of a
sub-deal of `deal` and under its own value, with these cards as leaves: the call stores no
nil. -/
theorem getPossibleTrees_seeds (c : Caches) (deal : List Val) (hc : Reachable c) :
    ∃ ts c', getPossibleTrees deal c = some (ts, c') ∧
      (2 ≤ deal.length → ∀ T ∈ ts, ∃ T' : node,
        c'.neededTrees (dealString deal, node.getVal T) = some (some T') ∧
          T'.getVal = T.getVal) ∧
      (∀ (K : List Val) (v : Val), c'.neededTrees (K, v) ≠ c.neededTrees (K, v) →
        ∃ (T : node) (d' : List Val), c'.neededTrees (K, v) = some (some T) ∧ T.getVal = v ∧
          T.leaves.Perm K ∧ d'.Sublist deal ∧ K = dealString d') ∧
      (∀ (K : List Val) (v : Val), c'.neededTrees (K, v) = some none →
        c.neededTrees (K, v) = some none) := by
  obtain ⟨⟨ts, c'⟩, e⟩ := getPossibleTrees_total deal c
  have g := getPossibleTrees_grows deal c ts c' e
  have hs' : Seeded c' := Seeded_of_grows g (Reachable_Seeded c hc)
  have hf := getPossibleTrees_frame deal c ts c' (Reachable_Inv c hc) e
  refine ⟨ts, c', e, ?_, hf, ?_⟩
  · intro h2 T hT
    exact hs' _ ts (getPossibleTrees_stores deal c c' ts (by omega) e) T hT
  · intro K v hnil
    by_contra hne
    have hne' : c'.neededTrees (K, v) ≠ c.neededTrees (K, v) := by
      rw [hnil]; exact fun h => hne h.symm
    obtain ⟨T, _, e', _⟩ := hf K v hne'
    rw [hnil] at e'
    simp at e'

/-- C14, witness at the empty caches: the deal `[1 2]`. -/
theorem getPossibleTrees_seeds_witness :
    ∃ ts c', getPossibleTrees [Val.num 1, Val.num 2] Caches.empty = some (ts, c') ∧
      (2 ≤ [Val.num 1, Val.num 2].length → ∀ T ∈ ts, ∃ T' : node,
        c'.neededTrees (dealString [Val.num 1, Val.num 2], node.getVal T) = some (some T') ∧
          T'.getVal = T.getVal) :=
  let ⟨ts, c', e, h, _⟩ :=
    getPossibleTrees_seeds Caches.empty [Val.num 1, Val.num 2] Reachable.empty
  ⟨ts, c', e, h⟩

theorem opLoop_congr (recur recur' : List Val → Val → Caches → Option (Option node × Caches))
    (rc : List Val) (lt : node) (t : Val) (h : ∀ w c, recur rc w c = recur' rc w c) :
    ∀ (ops : List operator) (c : Caches),
      opLoop recur rc lt t ops c = opLoop recur' rc lt t ops c := by
  intro ops
  induction ops with
  | nil => intro c; rfl
  | cons op ops ih => intro c; simp only [opLoop, h, ih]

theorem treeLoop_congr (recur recur' : List Val → Val → Caches → Option (Option node × Caches))
    (rc : List Val) (t : Val) (h : ∀ w c, recur rc w c = recur' rc w c) :
    ∀ (lts : List node) (c : Caches),
      treeLoop recur rc t lts c = treeLoop recur' rc t lts c := by
  intro lts
  induction lts with
  | nil => intro c; rfl
  | cons lt lts ih =>
    intro c
    simp only [treeLoop, opLoop_congr recur recur' rc lt t h, ih]

theorem splitLoop_congr (recur recur' : List Val → Val → Caches → Option (Option node × Caches))
    (deal : List Val) (t : Val) :
    ∀ (is : List Nat) (c : Caches),
      (∀ i ∈ is, ∀ w c, recur (splitDeal deal i).2 w c = recur' (splitDeal deal i).2 w c) →
      splitLoop recur deal t is c = splitLoop recur' deal t is c := by
  intro is
  induction is with
  | nil => intro c _; rfl
  | cons i is ih =>
    intro c h
    have hi := h i (List.mem_cons_self _ _)
    have ih' := fun c => ih c (fun j hj => h j (List.mem_cons_of_mem _ hj))
    simp only [splitLoop, treeLoop_congr recur recur' _ t hi, ih']

theorem getNeededTreeF_fuel : ∀ (n m : Nat) (d : List Val) (t : Val) (c : Caches),
    d.length < n → d.length < m → getNeededTreeF n d t c = getNeededTreeF m d t c := by
  intro n
  induction n with
  | zero => intro m d t c h; omega
  | succ n ih =>
    intro m d t c hn hm
    cases m with
    | zero => omega
    | succ m =>
      show getNeededTreeBody (getNeededTreeF n) d t c = getNeededTreeBody (getNeededTreeF m) d t c
      unfold getNeededTreeBody
      rw [splitLoop_congr (getNeededTreeF n) (getNeededTreeF m) d t (splitIndices d.length) c
        (fun i hi w c0 => ih m _ w c0
          (by have := (splitDeal_lengths_lt d i hi).2; omega)
          (by have := (splitDeal_lengths_lt d i hi).2; omega))]

theorem getNeededTreeF_eq (n : Nat) (d : List Val) (t : Val) (c : Caches) (h : d.length < n) :
    getNeededTreeF n d t c = getNeededTree d t c :=
  getNeededTreeF_fuel n (d.length + 1) d t c h (Nat.lt_succ_self _)

/-- The recursion equation of `getNeededTree`, free of fuel. -/
theorem getNeededTree_eq_body (deal : List Val) (t : Val) (c : Caches) :
    getNeededTree deal t c = getNeededTreeBody getNeededTree deal t c := by
  show getNeededTreeBody (getNeededTreeF deal.length) deal t c = _
  unfold getNeededTreeBody
  rw [splitLoop_congr (getNeededTreeF deal.length) getNeededTree deal t
    (splitIndices deal.length) c
    (fun i hi w c0 => getNeededTreeF_eq _ _ w c0 (splitDeal_lengths_lt deal i hi).2)]

theorem opLoop_some (recur : List Val → Val → Caches → Option (Option node × Caches))
    (rc : List Val) (lt : node) (t : Val) (T : node) (c' : Caches) :
    ∀ (ops : List operator) (c : Caches), opLoop recur rc lt t ops c = some (some T, c') →
      ∃ (ops1 : List operator) (op : operator) (ops2 : List operator) (c1 : Caches) (rt : node),
        ops = ops1 ++ op :: ops2 ∧ opLoop recur rc lt t ops1 c = some (none, c1) ∧
        ¬ (op = operator.DivOp ∧ (op.computeNecessary lt.getVal t).eqZero = true) ∧
        recur rc (op.computeNecessary lt.getVal t) c1 = some (some rt, c') ∧
        T = node.opNode op lt rt := by
  intro ops
  induction ops with
  | nil => intro c h; simp [opLoop] at h
  | cons op ops ih =>
    intro c h
    rw [opLoop] at h
    split at h
    · rename_i hskip
      obtain ⟨ops1, op1, ops2, c1, rt, e, h1, h2, h3, h4⟩ := ih c h
      refine ⟨op :: ops1, op1, ops2, c1, rt, by rw [e]; rfl, ?_, h2, h3, h4⟩
      rw [opLoop, if_pos hskip]; exact h1
    · rename_i hskip
      split at h
      · simp at h
      · rename_i rt c1 e
        simp only [Option.some.injEq, Prod.mk.injEq] at h
        refine ⟨[], op, ops, c, rt, rfl, rfl, hskip, ?_, h.1.symm⟩
        rw [e, h.2]
      · rename_i c1 e
        obtain ⟨ops1, op1, ops2, c2, rt, e', h1, h2, h3, h4⟩ := ih c1 h
        refine ⟨op :: ops1, op1, ops2, c2, rt, by rw [e']; rfl, ?_, h2, h3, h4⟩
        rw [opLoop, if_neg hskip, e]; exact h1

theorem treeLoop_some (recur : List Val → Val → Caches → Option (Option node × Caches))
    (rc : List Val) (t : Val) (T : node) (c' : Caches) :
    ∀ (lts : List node) (c : Caches), treeLoop recur rc t lts c = some (some T, c') →
      ∃ (lts1 : List node) (lt : node) (lts2 : List node) (c1 : Caches),
        lts = lts1 ++ lt :: lts2 ∧ treeLoop recur rc t lts1 c = some (none, c1) ∧
        opLoop recur rc lt t operators c1 = some (some T, c') := by
  intro lts
  induction lts with
  | nil => intro c h; simp [treeLoop] at h
  | cons lt lts ih =>
    intro c h
    rw [treeLoop] at h
    split at h
    · simp at h
    · rename_i T1 c1 e
      simp only [Option.some.injEq, Prod.mk.injEq] at h
      refine ⟨[], lt, lts, c, rfl, rfl, ?_⟩
      rw [e, h.1, h.2]
    · rename_i c1 e
      obtain ⟨lts1, lt1, lts2, c2, e', h1, h2⟩ := ih c1 h
      refine ⟨lt :: lts1, lt1, lts2, c2, by rw [e']; rfl, ?_, h2⟩
      rw [treeLoop, e]; exact h1

theorem splitLoop_some (recur : List Val → Val → Caches → Option (Option node × Caches))
    (deal : List Val) (t : Val) (T : node) (c' : Caches) :
    ∀ (is : List Nat) (c : Caches), splitLoop recur deal t is c = some (some T, c') →
      ∃ (is1 : List Nat) (i : Nat) (is2 : List Nat) (c1 : Caches) (lts : List node)
        (c2 : Caches),
        is = is1 ++ i :: is2 ∧ splitLoop recur deal t is1 c = some (none, c1) ∧
        getPossibleTrees (splitDeal deal i).1 c1 = some (lts, c2) ∧
        treeLoop recur (splitDeal deal i).2 t lts c2 = some (some T, c') := by
  intro is
  induction is with
  | nil => intro c h; simp [splitLoop] at h
  | cons i is ih =>
    intro c h
    rw [splitLoop] at h
    split at h
    · simp at h
    · rename_i lts c1 e
      split at h
      · simp at h
      · rename_i T1 c2 e2
        simp only [Option.some.injEq, Prod.mk.injEq] at h
        refine ⟨[], i, is, c, lts, c1, rfl, rfl, e, ?_⟩
        rw [e2, h.1, h.2]
      · rename_i c2 e2
        obtain ⟨is1, j, is2, c3, lts', c4, e', h1, h2, h3⟩ := ih c2 h
        refine ⟨i :: is1, j, is2, c3, lts', c4, by rw [e']; rfl, ?_, h2, h3⟩
        rw [splitLoop, e]
        simp only [e2]
        exact h1

/-- C12, counterexample: from the empty caches `getNeededTree([1 2], 3)` returns `(2 + 1)`;
in the cache state left by `getPossibleTrees([1 2])` it returns `(1 + 2)`, the entry that the
forward search stored last under this key. -/
theorem getNeededTree_tree_not_from_empty :
    (getNeededTree [Val.num 1, Val.num 2] (Val.num 3) Caches.empty).map Prod.fst =
      some (some (node.opNode operator.AddOp (node.valNode (Val.num 2))
        (node.valNode (Val.num 1)))) ∧
    ((getPossibleTrees [Val.num 1, Val.num 2] Caches.empty).bind
        (fun p => (getNeededTree [Val.num 1, Val.num 2] (Val.num 3) p.2).map Prod.fst)) =
      some (some (node.opNode operator.AddOp (node.valNode (Val.num 1))
        (node.valNode (Val.num 2)))) ∧
    (∃ ts c, getPossibleTrees [Val.num 1, Val.num 2] Caches.empty = some (ts, c) ∧
      Reachable c) := by
  refine ⟨by decide!, by decide!, ?_⟩
  obtain ⟨⟨ts, c⟩, e⟩ := getPossibleTrees_total [Val.num 1, Val.num 2] Caches.empty
  exact ⟨ts, c, e, Reachable.possible Reachable.empty e⟩

/-- C12, amended: the result of `getNeededTree(deal, t)` is determined by the cache state and the
fixed iteration orders. The call returns; when `neededTrees` holds an entry under the key of the
sorted deal and `t`, the result is this entry. Otherwise, for a deal that is not a single card, a
returned tree is the first success: the split indices are tried in increasing order, the left
trees in the order in which `getPossibleTrees` returns them, the operators in the order Add,
Subtract, Multiply, Divide, each call running in the cache state left by the calls before it;
every earlier split index, every earlier left tree and every earlier operator ends without a
tree, the operator is not a Divide whose needed right value is zero, and the recursive call on
the right cards returns the right subtree. The result is nil exactly when the loop over all
split indices ends without a tree. -/
theorem getNeededTree_first_success (c : Caches) (deal : List Val) (t : Val) :
    ∃ r c', getNeededTree deal t c = some (r, c') ∧
      (∀ e, c.neededTrees (dealString deal, t) = some e → r = e ∧ c' = c) ∧
      (c.neededTrees (dealString deal, t) = none → deal.length ≠ 1 →
        (∀ T, r = some T →
          ∃ (is1 : List Nat) (i : Nat) (is2 : List Nat) (c1 : Caches) (lts : List node)
            (c2 : Caches) (lts1 : List node) (lt : node) (lts2 : List node) (c3 : Caches)
            (ops1 : List operator) (op : operator) (ops2 : List operator) (c4 : Caches)
            (rt : node) (c5 : Caches),
            splitIndices deal.length = is1 ++ i :: is2 ∧
            splitLoop getNeededTree deal t is1 c = some (none, c1) ∧
            getPossibleTrees (splitDeal deal i).1 c1 = some (lts, c2) ∧
            lts = lts1 ++ lt :: lts2 ∧
            treeLoop getNeededTree (splitDeal deal i).2 t lts1 c2 = some (none, c3) ∧
            operators = ops1 ++ op :: ops2 ∧
            opLoop getNeededTree (splitDeal deal i).2 lt t ops1 c3 = some (none, c4) ∧
            ¬ (op = operator.DivOp ∧ (op.computeNecessary lt.getVal t).eqZero = true) ∧
            getNeededTree (splitDeal deal i).2 (op.computeNecessary lt.getVal t) c4 =
              some (some rt, c5) ∧
            T = node.opNode op lt rt ∧
            c' = c5.setNeeded (dealString deal, t) (some T)) ∧
        (r = none ↔ ∃ c1, splitLoop getNeededTree deal t (splitIndices deal.length) c =
          some (none, c1))) := by
  obtain ⟨r, c', e⟩ := getNeededTree_total deal t c
  refine ⟨r, c', e, ?_, ?_⟩
  · intro e0 h0
    rw [getNeededTree_hit deal t c e0 h0] at e
    simp only [Option.some.injEq, Prod.mk.injEq] at e
    exact ⟨e.1.symm, e.2.symm⟩
  · intro hmiss hlen
    rw [getNeededTree_eq_body] at e
    unfold getNeededTreeBody at e
    rw [hmiss] at e
    simp only at e
    split at e
    · simp at hlen
    · split at e
      · simp at e
      · rename_i T0 c0 hs
        simp only [Option.some.injEq, Prod.mk.injEq] at e
        constructor
        · intro T hT
          rw [← e.1] at hT
          cases hT
          obtain ⟨is1, i, is2, c1, lts, c2, e1, h1, h2, h3⟩ :=
            splitLoop_some getNeededTree deal t T0 c0 _ c hs
          obtain ⟨lts1, lt, lts2, c3, e2, h4, h5⟩ :=
            treeLoop_some getNeededTree _ t T0 c0 lts c2 h3
          obtain ⟨ops1, op, ops2, c4, rt, e3, h6, h7, h8, h9⟩ :=
            opLoop_some getNeededTree _ lt t T0 c0 operators c3 h5
          exact ⟨is1, i, is2, c1, lts, c2, lts1, lt, lts2, c3, ops1, op, ops2, c4, rt, c0,
            e1, h1, h2, e2, h4, e3, h6, h7, h8, h9, e.2.symm⟩
        · rw [← e.1]
          constructor
          · intro h; cases h
          · rintro ⟨c1, h⟩
            rw [hs] at h
            simp at h
      · rename_i c0 hs
        simp only [Option.some.injEq, Prod.mk.injEq] at e
        constructor
        · intro T hT
          rw [← e.1] at hT
          cases hT
        · rw [← e.1]
          exact ⟨fun _ => ⟨c0, hs⟩, fun _ => rfl⟩

/-- C12, witness at the empty caches: `getNeededTree([1 2], 3)` meets no entry, the deal has two
cards, and the call returns the tree `(2 + 1)`; the loop over the split indices does not end
without a tree. -/
theorem getNeededTree_first_success_witness :
    ∃ r c', getNeededTree [Val.num 1, Val.num 2] (Val.num 3) Caches.empty = some (r, c') ∧
      (r = none ↔ ∃ c1, splitLoop getNeededTree [Val.num 1, Val.num 2] (Val.num 3)
        (splitIndices [Val.num 1, Val.num 2].length) Caches.empty = some (none, c1)) ∧
      r = some (node.opNode operator.AddOp (node.valNode (Val.num 2))
        (node.valNode (Val.num 1))) := by
  obtain ⟨r, c', e, _, h⟩ :=
    getNeededTree_first_success Caches.empty [Val.num 1, Val.num 2] (Val.num 3)
  refine ⟨r, c', e, (h rfl (by decide)).2, ?_⟩
  have h : (getNeededTree [Val.num 1, Val.num 2] (Val.num 3) Caches.empty).map Prod.fst =
      some (some (node.opNode operator.AddOp (node.valNode (Val.num 2))
        (node.valNode (Val.num 1)))) := by decide!
  rw [e] at h
  simpa using h

/-! ## Exact completeness -/

theorem wellDefined_finite (T : node) : wellDefined T = true → T.getVal.isFinite = true := by
  induction T with
  | valNode v => intro h; exact h
  | opNode op l r ihl ihr =>
    intro h
    simp only [wellDefined, Bool.and_eq_true, Bool.not_eq_true', Bool.and_eq_false_iff,
      decide_eq_false_iff_not] at h
    obtain ⟨⟨hl, hr⟩, hd⟩ := h
    have fl := ihl hl
    have fr := ihr hr
    cases op with
    | AddOp => exact (add_finite _ _ fl fr).1
    | SubOp => exact (sub_finite _ _ fl fr).1
    | MulOp => exact (mul_finite _ _ fl fr).1
    | DivOp =>
      rcases hd with hd | hd
      · exact absurd rfl hd
      · exact (div_finite _ _ fl fr hd).1

theorem closeEnough_of_toRat_eq (v t : Val) (hv : v.isFinite = true) (ht : t.isFinite = true)
    (h : t.toRat = v.toRat) : closeEnough v t = true := by
  rw [closeEnough_iff]
  refine ⟨hv, ht, ?_⟩
  rw [h]; norm_num

/-- A tree whose evaluation meets no division by zero can be rearranged into a tree over the
same leaves that the backward search meets along its right spine, for every finite needed value
equal to the value of the tree as a number. -/
theorem exists_meets (T : node) : wellDefined T = true → ∀ t : Val, t.isFinite = true →
    t.toRat = T.getVal.toRat → ∃ T' : node, T'.leaves.Perm T.leaves ∧ meets T' t = true := by
  induction T with
  | valNode v =>
    intro h t ht e
    exact ⟨node.valNode v, List.Perm.refl _, closeEnough_of_toRat_eq v t h ht e⟩
  | opNode op l r ihl ihr =>
    intro h t ht e
    have h' := h
    simp only [wellDefined, Bool.and_eq_true, Bool.not_eq_true', Bool.and_eq_false_iff,
      decide_eq_false_iff_not] at h'
    obtain ⟨⟨hl, hr⟩, hd⟩ := h'
    have fl := wellDefined_finite l hl
    have fr := wellDefined_finite r hr
    cases op with
    | AddOp =>
      obtain ⟨f1, e1⟩ := sub_finite t l.getVal ht fl
      have ev : (node.opNode operator.AddOp l r).getVal.toRat = l.getVal.toRat + r.getVal.toRat :=
        (add_finite _ _ fl fr).2
      obtain ⟨r', hp, hm⟩ := ihr hr (t.sub l.getVal) f1 (by rw [e1, e, ev]; ring)
      refine ⟨node.opNode operator.AddOp l r', ?_, ?_⟩
      · simp only [node.leaves]; exact List.Perm.append_left _ hp
      · simp only [meets, operator.computeNecessary]
        simpa using hm
    | SubOp =>
      obtain ⟨f1, e1⟩ := sub_finite l.getVal t fl ht
      have ev : (node.opNode operator.SubOp l r).getVal.toRat = l.getVal.toRat - r.getVal.toRat :=
        (sub_finite _ _ fl fr).2
      obtain ⟨r', hp, hm⟩ := ihr hr (l.getVal.sub t) f1 (by rw [e1, e, ev]; ring)
      refine ⟨node.opNode operator.SubOp l r', ?_, ?_⟩
      · simp only [node.leaves]; exact List.Perm.append_left _ hp
      · simp only [meets, operator.computeNecessary]
        simpa using hm
    | MulOp =>
      have ev : (node.opNode operator.MulOp l r).getVal.toRat = l.getVal.toRat * r.getVal.toRat :=
        (mul_finite _ _ fl fr).2
      by_cases hl0 : l.getVal.isZero = false
      · have hlq := (isZero_eq_false_iff _ fl).mp hl0
        obtain ⟨f1, e1⟩ := div_finite t l.getVal ht fl hl0
        obtain ⟨r', hp, hm⟩ := ihr hr (t.div l.getVal) f1 (by rw [e1, e, ev]; field_simp)
        refine ⟨node.opNode operator.MulOp l r', ?_, ?_⟩
        · simp only [node.leaves]; exact List.Perm.append_left _ hp
        · simp only [meets, operator.computeNecessary]
          simpa using hm
      · have hl1 : l.getVal.isZero = true := by simpa using hl0
        have hlq := (isZero_iff _ fl).mp hl1
        have ht0 : t.toRat = 0 := by rw [e, ev, hlq]; ring
        by_cases hr0 : r.getVal.isZero = false
        · obtain ⟨f1, e1⟩ := div_finite t r.getVal ht fr hr0
          obtain ⟨l', hp, hm⟩ := ihl hl (t.div r.getVal) f1 (by rw [e1, ht0, hlq]; simp)
          refine ⟨node.opNode operator.MulOp r l', ?_, ?_⟩
          · simp only [node.leaves]
            exact (List.Perm.append_left _ hp).trans List.perm_append_comm
          · simp only [meets, operator.computeNecessary]
            simpa using hm
        · have hr1 : r.getVal.isZero = true := by simpa using hr0
          have hrq := (isZero_iff _ fr).mp hr1
          obtain ⟨f1, e1⟩ := sub_finite t l.getVal ht fl
          obtain ⟨r', hp, hm⟩ := ihr hr (t.sub l.getVal) f1 (by rw [e1, ht0, hlq, hrq]; ring)
          refine ⟨node.opNode operator.AddOp l r', ?_, ?_⟩
          · simp only [node.leaves]; exact List.Perm.append_left _ hp
          · simp only [meets, operator.computeNecessary]
            simpa using hm
    | DivOp =>
      have hr0 : r.getVal.isZero = false := by
        rcases hd with hd | hd
        · exact absurd rfl hd
        · exact hd
      have hrq := (isZero_eq_false_iff _ fr).mp hr0
      have ev : (node.opNode operator.DivOp l r).getVal.toRat = l.getVal.toRat / r.getVal.toRat :=
        (div_finite _ _ fl fr hr0).2
      by_cases hl0 : l.getVal.isZero = false
      · have hlq := (isZero_eq_false_iff _ fl).mp hl0
        have htq : t.toRat ≠ 0 := by rw [e, ev]; exact div_ne_zero hlq hrq
        have ht0 := (isZero_eq_false_iff _ ht).mpr htq
        obtain ⟨f1, e1⟩ := div_finite l.getVal t fl ht ht0
        have e2 : (l.getVal.div t).toRat = r.getVal.toRat := by
          rw [e1, e, ev]; field_simp
        obtain ⟨r', hp, hm⟩ := ihr hr (l.getVal.div t) f1 e2
        have hnz : (l.getVal.div t).isZero = false := by
          rw [isZero_eq_false_iff _ f1, e2]; exact hrq
        refine ⟨node.opNode operator.DivOp l r', ?_, ?_⟩
        · simp only [node.leaves]; exact List.Perm.append_left _ hp
        · simp only [meets, operator.computeNecessary, Val.eqZero, hnz]
          simpa using hm
      · have hl1 : l.getVal.isZero = true := by simpa using hl0
        have hlq := (isZero_iff _ fl).mp hl1
        have ht0 : t.toRat = 0 := by rw [e, ev, hlq]; simp
        obtain ⟨f1, e1⟩ := div_finite t r.getVal ht fr hr0
        obtain ⟨l', hp, hm⟩ := ihl hl (t.div r.getVal) f1 (by rw [e1, ht0, hlq]; simp)
        refine ⟨node.opNode operator.MulOp r l', ?_, ?_⟩
        · simp only [node.leaves]
          exact (List.Perm.append_left _ hp).trans List.perm_append_comm
        · simp only [meets, operator.computeNecessary]
          simpa using hm

/-- C18, counterexample: the sum of 64 cards `0` is a tree over the deal whose evaluation meets
no division by zero and whose value is `0`, but `getNeededTree` returns nil on this deal for
the target `0`: with 64 cards the split loop visits no index. -/
theorem getNeededTree_sixty_four_nil :
    wellDefined ((List.replicate 63 (Val.num 0)).foldr
        (fun v T => node.opNode operator.AddOp (node.valNode v) T)
        (node.valNode (Val.num 0))) = true ∧
      ((List.replicate 63 (Val.num 0)).foldr
        (fun v T => node.opNode operator.AddOp (node.valNode v) T)
        (node.valNode (Val.num 0))).leaves = List.replicate 64 (Val.num 0) ∧
      ((List.replicate 63 (Val.num 0)).foldr
        (fun v T => node.opNode operator.AddOp (node.valNode v) T)
        (node.valNode (Val.num 0))).getVal = Val.num 0 ∧
      (getNeededTree (List.replicate 64 (Val.num 0)) (Val.num 0) Caches.empty).map Prod.fst =
        some none := by
  decide!

/-- C18, amended: in every reachable cache state, for every deal of at most 63 cards and every
expression tree `T` whose leaves are a permutation of the cards of the deal and whose evaluation
meets no division by zero, `getNeededTree(deal, value of T)` returns a tree; so does the call
for every finite target equal to the value of `T` as a number. The returned tree has the cards
of the deal as leaves. -/
theorem getNeededTree_exact_complete (c : Caches) (deal : List Val) (T : node)
    (hc : Reachable c) (hlen : deal.length ≤ 63) (hT : T.leaves.Perm deal)
    (hw : wellDefined T = true) :
    ∀ t : Val, t.isFinite = true → t.toRat = T.getVal.toRat →
      ∃ T' c', getNeededTree deal t c = some (some T', c') ∧ T'.leaves.Perm deal := by
  intro t ht e
  obtain ⟨T1, hp, hm⟩ := exists_meets T hw t ht e
  obtain ⟨T', c', e'⟩ :=
    getNeededTree_complete c deal t (Reachable_Inv c hc) hlen T1 (hp.trans hT) hm
  obtain ⟨r, c2, e2, _, hb⟩ := getNeededTree_spec deal t c (Reachable_Inv c hc)
  rw [e'] at e2
  simp only [Option.some.injEq, Prod.mk.injEq] at e2
  exact ⟨T', c', e', (hb.1 T' e2.1.symm).1⟩

/-- C18, witness at the empty caches: the deal `[0 3]` and the tree `(0 * 3)`, whose left
subtree has the value zero under Multiply; the call for its value returns a tree. -/
theorem getNeededTree_exact_complete_witness :
    ∃ T' c', getNeededTree [Val.num 0, Val.num 3]
        (node.opNode operator.MulOp (node.valNode (Val.num 0)) (node.valNode (Val.num 3))).getVal
        Caches.empty = some (some T', c') ∧ T'.leaves.Perm [Val.num 0, Val.num 3] :=
  getNeededTree_exact_complete Caches.empty [Val.num 0, Val.num 3]
    (node.opNode operator.MulOp (node.valNode (Val.num 0)) (node.valNode (Val.num 3)))
    Reachable.empty (by decide) (List.Perm.refl _) (by decide!) _
    (wellDefined_finite _ (by decide!)) rfl

/-! ## The number of trees -/

theorem numTreesF_fuel : ∀ (f g n : Nat), n ≤ f → n ≤ g → numTreesF f n = numTreesF g n := by
  intro f
  induction f with
  | zero =>
    intro g n hf hg
    have hn : n = 0 := by omega
    subst hn
    cases g with
    | zero => rfl
    | succ g => simp [numTreesF]
  | succ f ih =>
    intro g n hf hg
    cases g with
    | zero =>
      have hn : n = 0 := by omega
      subst hn
      simp [numTreesF]
    | succ g =>
      simp only [numTreesF]
      split
      · rfl
      · rename_i h1
        congr 2
        apply List.map_congr_left
        intro k hk
        rw [List.mem_range'_1] at hk
        rw [ih g k (by omega) (by omega), ih g (n - k) (by omega) (by omega)]

theorem numTrees_rec (n : Nat) (h : 2 ≤ n) :
    numTrees n = 4 * ((List.range' 1 (n - 1)).map fun k =>
      n.choose k * numTrees k * numTrees (n - k)).sum := by
  obtain ⟨m, rfl⟩ : ∃ m, n = m + 1 := ⟨n - 1, by omega⟩
  show numTreesF (m + 1) (m + 1) = _
  rw [numTreesF, if_neg (by omega)]
  congr 2
  apply List.map_congr_left
  intro k hk
  rw [List.mem_range'_1] at hk
  show _ = (m + 1).choose k * numTreesF k k * numTreesF (m + 1 - k) (m + 1 - k)
  rw [numTreesF_fuel m k k (by omega) le_rfl,
    numTreesF_fuel m (m + 1 - k) (m + 1 - k) (by omega) le_rfl]

theorem numTrees_pos : ∀ n : Nat, 1 ≤ n → 0 < numTrees n := by
  intro n
  induction n using Nat.strong_induction_on with
  | _ n ih =>
    intro h1
    by_cases h2 : n = 1
    · subst h2; decide
    · rw [numTrees_rec n (by omega)]
      have hmem : 1 ∈ List.range' 1 (n - 1) := by rw [List.mem_range'_1]; omega
      have hle : n.choose 1 * numTrees 1 * numTrees (n - 1) ≤
          ((List.range' 1 (n - 1)).map fun k =>
            n.choose k * numTrees k * numTrees (n - k)).sum :=
        List.single_le_sum (fun x _ => Nat.zero_le x) _
          (List.mem_map.mpr ⟨1, hmem, rfl⟩)
      have hp : 0 < n.choose 1 * numTrees 1 * numTrees (n - 1) := by
        apply Nat.mul_pos
        · apply Nat.mul_pos
          · rw [Nat.choose_one_right]; omega
          · decide
        · exact ih (n - 1) (by omega) (by omega)
      omega

theorem list_sum_range' (F : Nat → Nat) : ∀ (m a : Nat),
    ((List.range' a m).map F).sum = ∑ i in Finset.range m, F (a + i) := by
  intro m
  induction m with
  | zero => intro a; simp
  | succ m ih =>
    intro a
    rw [List.range'_succ, List.map_cons, List.sum_cons, ih, Finset.sum_range_succ']
    simp only [Nat.add_zero]
    rw [Nat.add_comm]
    congr 1
    apply Finset.sum_congr rfl
    intro i _
    congr 1
    omega

theorem sum_range_ends (F : Nat → Nat) (m : Nat) (h : 2 ≤ m) :
    ∑ i in Finset.range m, F i =
      F 0 + ((List.range' 1 (m - 2)).map F).sum + F (m - 1) := by
  obtain ⟨k, rfl⟩ : ∃ k, m = k + 2 := ⟨m - 2, by omega⟩
  rw [Finset.sum_range_succ, Finset.sum_range_succ', list_sum_range']
  simp only [Nat.add_sub_cancel]
  have : ∑ i in Finset.range k, F (i + 1) = ∑ i in Finset.range k, F (1 + i) :=
    Finset.sum_congr rfl (fun i _ => by rw [Nat.add_comm])
  rw [this, show k + 2 - 1 = k + 1 from rfl]
  ring

theorem sum_range_double (F : Nat → Nat) : ∀ m : Nat,
    ∑ i in Finset.range (2 * m), F i = ∑ j in Finset.range m, (F (2 * j) + F (2 * j + 1)) := by
  intro m
  induction m with
  | zero => simp
  | succ m ih =>
    rw [show 2 * (m + 1) = 2 * m + 1 + 1 from by ring, Finset.sum_range_succ,
      Finset.sum_range_succ, ih, Finset.sum_range_succ]
    ring

theorem sum_choose_succ (h : Nat → Nat) (n : Nat) :
    ∑ k in Finset.range (n + 2), (n + 1).choose k * h k =
      ∑ k in Finset.range (n + 1), n.choose k * h k +
        ∑ k in Finset.range (n + 1), n.choose k * h (k + 1) := by
  rw [Finset.sum_range_succ' _ (n + 1)]
  have e1 : ∑ k in Finset.range (n + 1), (n + 1).choose (k + 1) * h (k + 1) =
      ∑ k in Finset.range (n + 1), n.choose k * h (k + 1) +
        ∑ k in Finset.range (n + 1), n.choose (k + 1) * h (k + 1) := by
    rw [← Finset.sum_add_distrib]
    apply Finset.sum_congr rfl
    intro k _
    rw [Nat.choose_succ_succ]; ring
  have e2 : ∑ k in Finset.range (n + 1), n.choose k * h k =
      ∑ k in Finset.range (n + 1), n.choose (k + 1) * h (k + 1) + h 0 := by
    rw [Finset.sum_range_succ' _ n, Finset.sum_range_succ _ n]
    simp
  rw [e1, e2]
  simp only [Nat.choose_zero_right, Nat.one_mul]
  ring

/-- Over all bit patterns of `n` bits, the right side of the split has `k` cards for `C(n,k)`
patterns. -/
theorem sum_splitDeal_right (h : Nat → Nat) : ∀ deal : List Val,
    ∑ i in Finset.range (2 ^ deal.length), h (splitDeal deal i).2.length =
      ∑ k in Finset.range (deal.length + 1), deal.length.choose k * h k := by
  intro deal
  induction deal generalizing h with
  | nil => simp [splitDeal_nil]
  | cons x xs ih =>
    rw [List.length_cons, pow_succ, Nat.mul_comm, sum_range_double, sum_choose_succ,
      Finset.sum_add_distrib]
    congr 1
    · rw [← ih h]
      apply Finset.sum_congr rfl
      intro j _
      rw [splitDeal_cons, if_pos (by omega)]
      simp only
      rw [show 2 * j / 2 = j from by omega]
    · rw [← ih (fun k => h (k + 1))]
      apply Finset.sum_congr rfl
      intro j _
      rw [splitDeal_cons, if_neg (by omega)]
      simp only [List.length_cons]
      rw [show (2 * j + 1) / 2 = j from by omega]

theorem numTrees_zero : numTrees 0 = 0 := rfl

theorem numTrees_one : numTrees 1 = 1 := rfl

/-- The sizes of the lists that the split loop of `getPossibleTrees` appends add up to `N(n)`. -/
theorem sum_splits (deal : List Val) (h63 : deal.length ≤ 63) (hne : deal.length ≠ 1) :
    ((splitIndices deal.length).map fun i =>
      numTrees (splitDeal deal i).1.length * numTrees (splitDeal deal i).2.length * 4).sum =
      numTrees deal.length := by
  rw [splitIndices_small _ h63]
  by_cases h0 : deal.length = 0
  · rw [h0]; rfl
  have h2 : 2 ≤ deal.length := by omega
  have hpow : 2 ≤ 2 ^ deal.length := by
    calc 2 = 2 ^ 1 := rfl
      _ ≤ 2 ^ deal.length := Nat.pow_le_pow_right (by decide) (by omega)
  have hF : ∀ i, numTrees (splitDeal deal i).1.length * numTrees (splitDeal deal i).2.length * 4 =
      (fun k => numTrees (deal.length - k) * numTrees k * 4) (splitDeal deal i).2.length := by
    intro i
    have := splitDeal_length deal i
    simp only
    rw [show deal.length - (splitDeal deal i).2.length = (splitDeal deal i).1.length from by omega]
  have e0 : (splitDeal deal 0).2.length = 0 := by
    rw [(splitDeal_right_eq_nil deal 0 (Nat.two_pow_pos _)).mpr rfl]; rfl
  have e1 : (splitDeal deal (2 ^ deal.length - 1)).2.length = deal.length := by
    have hl := (splitDeal_left_eq_nil deal (2 ^ deal.length - 1) (by omega)).mpr rfl
    have := splitDeal_length deal (2 ^ deal.length - 1)
    rw [hl] at this
    simpa using this
  have hsum := sum_range_ends
    (fun i => (fun k => numTrees (deal.length - k) * numTrees k * 4) (splitDeal deal i).2.length)
    (2 ^ deal.length) hpow
  rw [sum_splitDeal_right (fun k => numTrees (deal.length - k) * numTrees k * 4) deal] at hsum
  simp only [e0, e1, Nat.sub_zero, Nat.sub_self, numTrees_zero, Nat.mul_zero, Nat.zero_mul,
    Nat.zero_add, Nat.add_zero] at hsum
  rw [List.map_congr_left (fun i _ => hF i), ← hsum,
    sum_range_ends (fun k => deal.length.choose k * (numTrees (deal.length - k) * numTrees k * 4))
      (deal.length + 1) (by omega)]
  simp only [Nat.sub_zero, Nat.sub_self, numTrees_zero, Nat.mul_zero, Nat.zero_mul,
    Nat.zero_add, Nat.add_zero, Nat.add_sub_cancel]
  rw [numTrees_rec deal.length h2, show deal.length + 1 - 2 = deal.length - 1 from by omega,
    ← List.sum_map_mul_left]
  congr 1
  apply List.map_congr_left
  intro k _
  ring

/-! ## Properties of the caches kept by the backward search -/

theorem opLoop_preserves (P : Caches → Prop)
    (recur : List Val → Val → Caches → Option (Option node × Caches))
    (rc : List Val) (lt : node) (t : Val)
    (hrec : ∀ w c r c', P c → recur rc w c = some (r, c') → P c') :
    ∀ (ops : List operator) (c : Caches) (r : Option node) (c' : Caches),
      P c → opLoop recur rc lt t ops c = some (r, c') → P c' := by
  intro ops
  induction ops with
  | nil =>
    intro c r c' hc h
    simp only [opLoop, Option.some.injEq, Prod.mk.injEq] at h
    rw [← h.2]; exact hc
  | cons op ops ih =>
    intro c r c' hc h
    rw [opLoop] at h
    split at h
    · exact ih c r c' hc h
    · split at h
      · simp at h
      · rename_i rt c1 e
        simp only [Option.some.injEq, Prod.mk.injEq] at h
        rw [← h.2]; exact hrec _ _ _ _ hc e
      · rename_i c1 e
        exact ih c1 r c' (hrec _ _ _ _ hc e) h

theorem treeLoop_preserves (P : Caches → Prop)
    (recur : List Val → Val → Caches → Option (Option node × Caches))
    (rc : List Val) (t : Val)
    (hrec : ∀ w c r c', P c → recur rc w c = some (r, c') → P c') :
    ∀ (lts : List node) (c : Caches) (r : Option node) (c' : Caches),
      P c → treeLoop recur rc t lts c = some (r, c') → P c' := by
  intro lts
  induction lts with
  | nil =>
    intro c r c' hc h
    simp only [treeLoop, Option.some.injEq, Prod.mk.injEq] at h
    rw [← h.2]; exact hc
  | cons lt lts ih =>
    intro c r c' hc h
    rw [treeLoop] at h
    split at h
    · simp at h
    · rename_i T c1 e
      simp only [Option.some.injEq, Prod.mk.injEq] at h
      rw [← h.2]; exact opLoop_preserves P recur rc lt t hrec _ _ _ _ hc e
    · rename_i c1 e
      exact ih c1 r c' (opLoop_preserves P recur rc lt t hrec _ _ _ _ hc e) h

theorem splitLoop_preserves (P : Caches → Prop)
    (recur : List Val → Val → Caches → Option (Option node × Caches))
    (deal : List Val) (t : Val)
    (hfwd : ∀ d c ts c', P c → getPossibleTrees d c = some (ts, c') → P c')
    (hrec : ∀ d w c r c', P c → recur d w c = some (r, c') → P c') :
    ∀ (is : List Nat) (c : Caches) (r : Option node) (c' : Caches),
      P c → splitLoop recur deal t is c = some (r, c') → P c' := by
  intro is
  induction is with
  | nil =>
    intro c r c' hc h
    simp only [splitLoop, Option.some.injEq, Prod.mk.injEq] at h
    rw [← h.2]; exact hc
  | cons i is ih =>
    intro c r c' hc h
    rw [splitLoop] at h
    split at h
    · simp at h
    · rename_i lts c1 e
      have hc1 := hfwd _ _ _ _ hc e
      split at h
      · simp at h
      · rename_i T c2 e2
        simp only [Option.some.injEq, Prod.mk.injEq] at h
        rw [← h.2]
        exact treeLoop_preserves P recur _ t (hrec _) _ _ _ _ hc1 e2
      · rename_i c2 e2
        exact ih c2 r c' (treeLoop_preserves P recur _ t (hrec _) _ _ _ _ hc1 e2) h

theorem getNeededTreeF_preserves (P : Caches → Prop)
    (hset : ∀ c k v, P c → P (c.setNeeded k v))
    (hfwd : ∀ d c ts c', P c → getPossibleTrees d c = some (ts, c') → P c') :
    ∀ (fuel : Nat) (deal : List Val) (t : Val) (c : Caches) (r : Option node) (c' : Caches),
      P c → getNeededTreeF fuel deal t c = some (r, c') → P c' := by
  intro fuel
  induction fuel with
  | zero => intro deal t c r c' _ h; simp [getNeededTreeF] at h
  | succ fuel ih =>
    intro deal t c r c' hc h
    change getNeededTreeBody (getNeededTreeF fuel) deal t c = some (r, c') at h
    unfold getNeededTreeBody at h
    split at h
    · simp only [Option.some.injEq, Prod.mk.injEq] at h
      rw [← h.2]; exact hc
    · split at h
      · split at h <;>
        · simp only [Option.some.injEq, Prod.mk.injEq] at h
          rw [← h.2]; exact hc
      · split at h
        · simp at h
        · rename_i T c1 e
          simp only [Option.some.injEq, Prod.mk.injEq] at h
          rw [← h.2]
          exact hset _ _ _ (splitLoop_preserves P _ deal t hfwd ih _ _ _ _ hc e)
        · rename_i c1 e
          simp only [Option.some.injEq, Prod.mk.injEq] at h
          rw [← h.2]
          exact hset _ _ _ (splitLoop_preserves P _ deal t hfwd ih _ _ _ _ hc e)

/-! ## The number of trees returned by the forward search -/

theorem flatMap_ops_length (lt : node) (rts : List node) :
    (List.flatMap rts fun rt => List.map (fun op => node.opNode op lt rt) operators).length =
      rts.length * 4 := by
  induction rts with
  | nil => simp
  | cons rt rts ih2 =>
    rw [List.flatMap_cons, List.length_append, ih2, List.length_map, List.length_cons]
    simp [operators]
    ring

theorem combine_length (lts rts : List node) :
    (combine lts rts).length = lts.length * rts.length * 4 := by
  unfold combine
  induction lts with
  | nil => simp
  | cons lt lts ih =>
    rw [List.flatMap_cons, List.length_append, ih, List.length_cons, flatMap_ops_length]
    ring

theorem CountInv_empty : CountInv Caches.empty := by
  intro K ts h
  simp [Caches.empty] at h

theorem CountInv_setNeeded (c : Caches) (k : List Val × Val) (v : Option node)
    (hc : CountInv c) : CountInv (c.setNeeded k v) :=
  fun K ts h => hc K ts h

theorem possibleLoop_count (recur : List Val → Caches → Option (List node × Caches))
    (deal : List Val) (n : Nat)
    (hrec : ∀ d c ts c', d.length < n → CountInv c → recur d c = some (ts, c') →
      CountInv c' ∧ (d.length ≤ 63 → ts.length = numTrees d.length)) :
    ∀ (is : List Nat) (trees : List node) (c : Caches) (ts : List node) (c' : Caches),
      (∀ i ∈ is, (splitDeal deal i).1.length < n ∧ (splitDeal deal i).2.length < n) →
      CountInv c → possibleLoop recur deal is trees c = some (ts, c') →
      CountInv c' ∧ (deal.length ≤ 63 → ts.length = trees.length + (is.map fun i =>
        numTrees (splitDeal deal i).1.length * numTrees (splitDeal deal i).2.length * 4).sum) := by
  intro is
  induction is with
  | nil =>
    intro trees c ts c' _ hc h
    simp only [possibleLoop, Option.some.injEq, Prod.mk.injEq] at h
    rw [← h.1, ← h.2]
    exact ⟨hc, fun _ => by simp⟩
  | cons i rest ih =>
    intro trees c ts c' hlen hc h
    obtain ⟨hl, hr⟩ := hlen i (List.mem_cons_self _ _)
    rw [possibleLoop] at h
    split at h
    · simp at h
    · rename_i lts c1 e1
      split at h
      · simp at h
      · rename_i rts c2 e2
        obtain ⟨hc1, n1⟩ := hrec _ _ _ _ hl hc e1
        obtain ⟨hc2, n2⟩ := hrec _ _ _ _ hr hc1 e2
        obtain ⟨hc', n3⟩ := ih _ _ _ _ (fun j hj => hlen j (List.mem_cons_of_mem _ hj)) hc2 h
        refine ⟨hc', fun h63 => ?_⟩
        have := splitDeal_length deal i
        rw [n3 h63, List.length_append, combine_length, n1 (by omega), n2 (by omega),
          List.map_cons, List.sum_cons]
        ring

theorem getPossibleTreesF_count : ∀ (fuel : Nat) (deal : List Val) (c : Caches)
    (ts : List node) (c' : Caches), deal.length < fuel → CountInv c →
    getPossibleTreesF fuel deal c = some (ts, c') →
    CountInv c' ∧ (deal.length ≤ 63 → ts.length = numTrees deal.length) := by
  intro fuel
  induction fuel with
  | zero => intro deal c ts c' h; omega
  | succ fuel ih =>
    intro deal c ts c' hfuel hc h
    change getPossibleTreesBody (getPossibleTreesF fuel) deal c = some (ts, c') at h
    unfold getPossibleTreesBody at h
    split at h
    · rename_i nodes hn
      simp only [Option.some.injEq, Prod.mk.injEq] at h
      rw [← h.1, ← h.2]
      refine ⟨hc, fun h63 => ?_⟩
      have := (hc _ _ hn).2 (by rw [dealString_length]; exact h63)
      rw [this, dealString_length]
    · split at h
      · simp only [Option.some.injEq, Prod.mk.injEq] at h
        rw [← h.1, ← h.2]
        exact ⟨hc, fun _ => rfl⟩
      · rename_i hne
        have hlen1 : deal.length ≠ 1 := by
          intro h1
          obtain ⟨v, hv⟩ := List.length_eq_one.mp h1
          exact hne v hv
        split at h
        · simp at h
        · rename_i trees c1 e
          simp only [Option.some.injEq, Prod.mk.injEq] at h
          obtain ⟨hc1, hn⟩ := possibleLoop_count (getPossibleTreesF fuel) deal deal.length
            (fun d c0 r c0' hd hc0 hr => ih d c0 r c0' (by omega) hc0 hr)
            _ _ _ _ _ (fun i hi => splitDeal_lengths_lt deal i hi) hc e
          have hcount : deal.length ≤ 63 → trees.length = numTrees deal.length := by
            intro h63
            rw [hn h63, sum_splits deal h63 hlen1]
            simp
          rw [← h.1, ← h.2]
          refine ⟨?_, hcount⟩
          intro K l hK
          simp only [Caches.setTrees, Function.update_apply] at hK
          split at hK
          · rename_i heq
            simp only [Option.some.injEq] at hK
            rw [heq, ← hK, dealString_length]
            exact ⟨hlen1, hcount⟩
          · rw [storeNeeded_treeCache] at hK
            exact hc1 K l hK

theorem getPossibleTrees_count (deal : List Val) (c : Caches) (ts : List node) (c' : Caches)
    (hc : CountInv c) (h : getPossibleTrees deal c = some (ts, c')) :
    CountInv c' ∧ (deal.length ≤ 63 → ts.length = numTrees deal.length) :=
  getPossibleTreesF_count (deal.length + 1) deal c ts c' (Nat.lt_succ_self _) hc h

theorem Reachable_CountInv (c : Caches) (h : Reachable c) : CountInv c := by
  induction h with
  | empty => exact CountInv_empty
  | needed _ e ih =>
    exact getNeededTreeF_preserves CountInv CountInv_setNeeded
      (fun d c0 ts c0' hc0 h0 => (getPossibleTrees_count d c0 ts c0' hc0 h0).1) _ _ _ _ _ _ ih e
  | possible _ e ih => exact (getPossibleTrees_count _ _ _ _ ih e).1

/-- C15, counterexample: for a deal of 64 cards `getPossibleTrees` returns the empty list, while
`N(64)` is not zero. -/
theorem forward_count_sixty_four :
    (getPossibleTrees (List.replicate 64 (Val.num 0)) Caches.empty).map
        (fun p => p.1.length) = some 0 ∧
      0 < numTrees 64 :=
  ⟨by decide!, numTrees_pos 64 (by decide)⟩

/-- C15, amended: in every reachable cache state `getPossibleTrees` returns; on a deal of one
card the result is the one leaf holding that card; on a deal of `n` cards, `n ≤ 63`, the result
has `N(n)` trees, where `N(1) = 1` and `N(n) = 4 * sum over k = 1..n-1 of C(n,k) * N(k) * N(n-k)`
for `n ≥ 2`, whatever the cards are, and every tree of the result is an operation node when
`n ≥ 2`. `N` is 8, 192 and 7680 for 2, 3 and 4 cards. -/
theorem getPossibleTrees_count_trees (c : Caches) (deal : List Val) (hc : Reachable c) :
    (∃ ts c', getPossibleTrees deal c = some (ts, c') ∧
      (∀ v, deal = [v] → ts = [node.valNode v]) ∧
      (deal.length ≤ 63 → ts.length = numTrees deal.length) ∧
      (2 ≤ deal.length → ∀ T ∈ ts, ∃ op l r, T = node.opNode op l r)) ∧
    numTrees 1 = 1 ∧
    (∀ n, 2 ≤ n → numTrees n = 4 * ((List.range' 1 (n - 1)).map fun k =>
      n.choose k * numTrees k * numTrees (n - k)).sum) ∧
    numTrees 2 = 8 ∧ numTrees 3 = 192 ∧ numTrees 4 = 7680 := by
  refine ⟨?_, rfl, numTrees_rec, by decide, by decide, by decide⟩
  obtain ⟨ts, c', e, _, hf⟩ := getPossibleTrees_spec deal c (Reachable_Inv c hc)
  have hcnt := (getPossibleTrees_count deal c ts c' (Reachable_CountInv c hc) e).2
  refine ⟨ts, c', e, ?_, hcnt, ?_⟩
  · intro v hv
    subst hv
    have h1 : ts.length = 1 := hcnt (by simp)
    obtain ⟨T, rfl⟩ := List.length_eq_one.mp h1
    rw [eq_valNode_of_leaves_perm T v (hf.1 T (List.mem_singleton_self _))]
  · intro h2 T hT
    cases T with
    | valNode v =>
      have := (hf.1 _ hT).length_eq
      simp [node.leaves] at this
      omega
    | opNode op l r => exact ⟨op, l, r, rfl⟩

/-- C15, witness at the empty caches: the deal `[3 3]` with a repeated card gives 8 trees. -/
theorem getPossibleTrees_count_trees_witness :
    ∃ ts c', getPossibleTrees [Val.num 3, Val.num 3] Caches.empty = some (ts, c') ∧
      ts.length = 8 := by
  obtain ⟨⟨ts, c', e, _, h, _⟩, _⟩ :=
    getPossibleTrees_count_trees Caches.empty [Val.num 3, Val.num 3] Reachable.empty
  exact ⟨ts, c', e, h (by decide)⟩

/-! ## Exactness on four small cards -/

theorem mul_isFinite (a b : Val) (h : (a.mul b).isFinite = true) :
    a.isFinite = true ∧ b.isFinite = true := by
  cases a <;> cases b <;>
    simp [Val.mul, Val.isNaN, Val.isInf, Val.isZero, Val.isFinite, Val.inf, Val.signBit] at h ⊢ <;>
    split_ifs at h

theorem div_isFinite (a b : Val) (h : (a.div b).isFinite = true) :
    a.isFinite = true ∧ ((b.isFinite = true ∧ b.isZero = false) ∨
      (b.isInf = true ∧ (a.div b).isZero = true)) := by
  cases a <;> cases b <;>
    simp [Val.div, Val.isNaN, Val.isInf, Val.isZero, Val.isFinite, Val.inf, Val.zero,
      Val.signBit] at h ⊢ <;>
    (try split_ifs at h ⊢) <;> simp_all [Val.isFinite, Val.isZero]

theorem isInf_not_finite (a : Val) (h : a.isInf = true) : a.isFinite = false := by
  cases a <;> simp_all [Val.isInf, Val.isFinite]

theorem Frac_mono {x : ℚ} {S S' : ℤ} (h : Frac x S) (hS : S ≤ S') : Frac x S' := by
  obtain ⟨p, q, hq, e, hb⟩ := h
  exact ⟨p, q, hq, e, le_trans hb hS⟩

theorem Frac_bound {p1 q1 p2 q2 S S' : ℤ} (hq1 : 0 < q1) (hq2 : 0 < q2)
    (h1 : |p1| + q1 ≤ S) (h2 : |p2| + q2 ≤ S') :
    |p1| * q2 + |p2| * q1 + q1 * q2 ≤ S * S' ∧ |p1| * |p2| + q1 * q2 ≤ S * S' ∧
      |p1| * q2 + q1 * |p2| ≤ S * S' := by
  have a1 := abs_nonneg p1
  have a2 := abs_nonneg p2
  have hm : (|p1| + q1) * (|p2| + q2) ≤ S * S' :=
    mul_le_mul h1 h2 (by positivity) (by linarith)
  have e : (|p1| + q1) * (|p2| + q2) = |p1| * |p2| + |p1| * q2 + q1 * |p2| + q1 * q2 := by ring
  have m1 : 0 ≤ |p1| * |p2| := mul_nonneg a1 a2
  have m2 : 0 ≤ |p1| * q2 := mul_nonneg a1 hq2.le
  have m3 : 0 ≤ q1 * |p2| := mul_nonneg hq1.le a2
  have m4 : 0 < q1 * q2 := mul_pos hq1 hq2
  refine ⟨?_, ?_, ?_⟩ <;> nlinarith

theorem Frac_sub {x y : ℚ} {S S' : ℤ} (hx : Frac x S) (hy : Frac y S') :
    Frac (x - y) (S * S') := by
  obtain ⟨p1, q1, hq1, e1, b1⟩ := hx
  obtain ⟨p2, q2, hq2, e2, b2⟩ := hy
  refine ⟨p1 * q2 - p2 * q1, q1 * q2, mul_pos hq1 hq2, ?_, ?_⟩
  · have h1 : (q1 : ℚ) ≠ 0 := by exact_mod_cast hq1.ne'
    have h2 : (q2 : ℚ) ≠ 0 := by exact_mod_cast hq2.ne'
    rw [e1, e2]; push_cast; field_simp; ring
  · have hb := (Frac_bound hq1 hq2 b1 b2).1
    have : |p1 * q2 - p2 * q1| ≤ |p1| * q2 + |p2| * q1 := by
      calc |p1 * q2 - p2 * q1| ≤ |p1 * q2| + |p2 * q1| := abs_sub _ _
        _ = |p1| * q2 + |p2| * q1 := by
          rw [abs_mul, abs_mul, abs_of_pos hq1, abs_of_pos hq2]
    linarith

theorem Frac_add {x y : ℚ} {S S' : ℤ} (hx : Frac x S) (hy : Frac y S') :
    Frac (x + y) (S * S') := by
  obtain ⟨p1, q1, hq1, e1, b1⟩ := hx
  obtain ⟨p2, q2, hq2, e2, b2⟩ := hy
  refine ⟨p1 * q2 + p2 * q1, q1 * q2, mul_pos hq1 hq2, ?_, ?_⟩
  · have h1 : (q1 : ℚ) ≠ 0 := by exact_mod_cast hq1.ne'
    have h2 : (q2 : ℚ) ≠ 0 := by exact_mod_cast hq2.ne'
    rw [e1, e2]; push_cast; field_simp
  · have hb := (Frac_bound hq1 hq2 b1 b2).1
    have : |p1 * q2 + p2 * q1| ≤ |p1| * q2 + |p2| * q1 := by
      calc |p1 * q2 + p2 * q1| ≤ |p1 * q2| + |p2 * q1| := abs_add _ _
        _ = |p1| * q2 + |p2| * q1 := by
          rw [abs_mul, abs_mul, abs_of_pos hq1, abs_of_pos hq2]
    linarith

theorem Frac_mul {x y : ℚ} {S S' : ℤ} (hx : Frac x S) (hy : Frac y S') :
    Frac (x * y) (S * S') := by
  obtain ⟨p1, q1, hq1, e1, b1⟩ := hx
  obtain ⟨p2, q2, hq2, e2, b2⟩ := hy
  refine ⟨p1 * p2, q1 * q2, mul_pos hq1 hq2, ?_, ?_⟩
  · have h1 : (q1 : ℚ) ≠ 0 := by exact_mod_cast hq1.ne'
    have h2 : (q2 : ℚ) ≠ 0 := by exact_mod_cast hq2.ne'
    rw [e1, e2]; push_cast; field_simp
  · have hb := (Frac_bound hq1 hq2 b1 b2).2.1
    rw [abs_mul]; exact hb

theorem Frac_div {x y : ℚ} {S S' : ℤ} (hx : Frac x S) (hy : Frac y S') (hy0 : y ≠ 0) :
    Frac (x / y) (S * S') := by
  obtain ⟨p1, q1, hq1, e1, b1⟩ := hx
  obtain ⟨p2, q2, hq2, e2, b2⟩ := hy
  have h1 : (q1 : ℚ) ≠ 0 := by exact_mod_cast hq1.ne'
  have h2 : (q2 : ℚ) ≠ 0 := by exact_mod_cast hq2.ne'
  have hp2 : p2 ≠ 0 := by
    rintro rfl
    apply hy0; rw [e2]; simp
  have hp2q : (p2 : ℚ) ≠ 0 := by exact_mod_cast hp2
  have hb := (Frac_bound hq1 hq2 b1 b2).2.2
  rcases lt_or_gt_of_ne hp2 with hneg | hpos
  · refine ⟨-(p1 * q2), q1 * -p2, mul_pos hq1 (by linarith), ?_, ?_⟩
    · rw [e1, e2]; push_cast; field_simp
    · rw [abs_neg, abs_mul, abs_of_pos hq2]
      rw [abs_of_neg hneg] at hb
      exact hb
  · refine ⟨p1 * q2, q1 * p2, mul_pos hq1 hpos, ?_, ?_⟩
    · rw [e1, e2]; push_cast; field_simp
    · rw [abs_mul, abs_of_pos hq2]
      rw [abs_of_pos hpos] at hb
      exact hb

/-- A fraction with a small denominator that is within the tolerance of a whole number is this
number. -/
theorem Frac_close_exact {w : ℚ} {S : ℤ} (hw : Frac w S) (hS : S ≤ 100000) (n : ℤ)
    (h : |(n : ℚ) - w| < 1 / 100000) : w = n := by
  obtain ⟨p, q, hq, e, b⟩ := hw
  have hqq : (0 : ℚ) < q := by exact_mod_cast hq
  by_contra hne
  have hz : n * q - p ≠ 0 := by
    intro hz
    apply hne
    rw [e, div_eq_iff hqq.ne']
    have : (n : ℚ) * q - p = 0 := by exact_mod_cast hz
    linarith
  have h1 : (1 : ℤ) ≤ |n * q - p| := Int.one_le_abs hz
  have h1q : (1 : ℚ) ≤ |(n : ℚ) * q - p| := by exact_mod_cast h1
  have e2 : (n : ℚ) - w = ((n : ℚ) * q - p) / q := by rw [e]; field_simp
  rw [e2, abs_div, abs_of_pos hqq, div_lt_iff₀ hqq] at h
  have hq5 : (q : ℚ) ≤ 100000 := by
    have : q ≤ 100000 := by have := abs_nonneg p; linarith
    exact_mod_cast this
  linarith

theorem isCard_spec (v : Val) (h : isCard v = true) :
    v.isFinite = true ∧ ∃ n : ℤ, v.toRat = n ∧ 1 ≤ n ∧ n ≤ 10 := by
  cases v with
  | num q =>
    simp only [isCard, Bool.and_eq_true, decide_eq_true_eq] at h
    obtain ⟨⟨hd, h1⟩, h10⟩ := h
    refine ⟨rfl, q.num, ?_, ?_, ?_⟩
    · show q = q.num
      exact ((Rat.den_eq_one_iff q).mp hd).symm
    · have : (1 : ℚ) ≤ q.num := by rw [(Rat.den_eq_one_iff q).mp hd]; exact h1
      exact_mod_cast this
    · have : (q.num : ℚ) ≤ 10 := by rw [(Rat.den_eq_one_iff q).mp hd]; exact h10
      exact_mod_cast this
  | negZero => simp [isCard] at h
  | posInf => simp [isCard] at h
  | negInf => simp [isCard] at h
  | nan => simp [isCard] at h

theorem isCard_frac (v : Val) (h : isCard v = true) :
    v.isFinite = true ∧ v.toRat ≠ 0 ∧ v.isZero = false ∧ Frac v.toRat 11 := by
  obtain ⟨hf, n, e, h1, h10⟩ := isCard_spec v h
  have hne : v.toRat ≠ 0 := by
    rw [e]; exact_mod_cast (by omega : n ≠ 0)
  refine ⟨hf, hne, (isZero_eq_false_iff v hf).mpr hne, n, 1, by decide, by rw [e]; simp, ?_⟩
  rw [abs_of_pos (by omega)]; omega

theorem leaves_of_isZero (T : node) (hT : ∀ v ∈ T.leaves, isCard v = true)
    (h : T.getVal.isZero = true) : 2 ≤ T.leaves.length := by
  cases T with
  | valNode v =>
    have := (isCard_frac v (hT v (by simp [node.leaves]))).2.2.1
    simp only [node.getVal] at h
    rw [h] at this
    exact absurd this (by simp)
  | opNode op l r =>
    have := leaves_length_pos l
    have := leaves_length_pos r
    simp only [node.leaves, List.length_append]
    omega

theorem overCards_left {op : operator} {l r : node}
    (hT : ∀ v ∈ (node.opNode op l r).leaves, isCard v = true) :
    ∀ v ∈ l.leaves, isCard v = true :=
  fun v hv => hT v (by simp only [node.leaves, List.mem_append]; exact Or.inl hv)

theorem overCards_right {op : operator} {l r : node}
    (hT : ∀ v ∈ (node.opNode op l r).leaves, isCard v = true) :
    ∀ v ∈ r.leaves, isCard v = true :=
  fun v hv => hT v (by simp only [node.leaves, List.mem_append]; exact Or.inr hv)

theorem compute_finite (op : operator) (a b : Val) (ha : a.isFinite = true)
    (hb : b.isFinite = true) (hd : op = operator.DivOp → b.isZero = false) :
    (op.compute a b).isFinite = true := by
  cases op with
  | AddOp => exact (add_finite a b ha hb).1
  | SubOp => exact (sub_finite a b ha hb).1
  | MulOp => exact (mul_finite a b ha hb).1
  | DivOp => exact (div_finite a b ha hb (hd rfl)).1

/-- A value that is finite comes from a finite left value and, Divide by an infinity apart, from
a finite right value that is not a zero under Divide. -/
theorem compute_isFinite (op : operator) (a b : Val) (h : (op.compute a b).isFinite = true) :
    a.isFinite = true ∧ ((b.isFinite = true ∧ (op = operator.DivOp → b.isZero = false)) ∨
      (op = operator.DivOp ∧ b.isInf = true ∧ (op.compute a b).isZero = true)) := by
  cases op with
  | AddOp =>
    simp only [operator.compute, isFinite_add, Bool.and_eq_true] at h
    exact ⟨h.1, Or.inl ⟨h.2, fun h => by cases h⟩⟩
  | SubOp =>
    simp only [operator.compute, isFinite_sub, Bool.and_eq_true] at h
    exact ⟨h.1, Or.inl ⟨h.2, fun h => by cases h⟩⟩
  | MulOp =>
    have := mul_isFinite a b h
    exact ⟨this.1, Or.inl ⟨this.2, fun h => by cases h⟩⟩
  | DivOp =>
    obtain ⟨h1, h2 | h2⟩ := div_isFinite a b h
    · exact ⟨h1, Or.inl ⟨h2.1, fun _ => h2.2⟩⟩
    · exact ⟨h1, Or.inr ⟨rfl, h2.1, h2.2⟩⟩

theorem leaves_of_not_finite (T : node) : (∀ v ∈ T.leaves, isCard v = true) →
    T.getVal.isFinite = false → 3 ≤ T.leaves.length := by
  induction T with
  | valNode v =>
    intro hT h
    have := (isCard_frac v (hT v (by simp [node.leaves]))).1
    simp only [node.getVal] at h
    rw [h] at this
    exact absurd this (by simp)
  | opNode op l r ihl ihr =>
    intro hT h
    have pl := leaves_length_pos l
    have pr := leaves_length_pos r
    simp only [node.leaves, List.length_append]
    by_cases fl : l.getVal.isFinite = true
    · by_cases fr : r.getVal.isFinite = true
      · by_cases hz : r.getVal.isZero = true
        · have := leaves_of_isZero r (overCards_right hT) hz
          omega
        · have := compute_finite op l.getVal r.getVal fl fr (fun _ => by simpa using hz)
          simp only [node.getVal] at h
          rw [h] at this
          exact absurd this (by simp)
      · have := ihr (overCards_right hT) (by simpa using fr)
        omega
    · have := ihl (overCards_left hT) (by simpa using fl)
      omega

theorem leaves_of_illDefined (T : node) : (∀ v ∈ T.leaves, isCard v = true) →
    T.getVal.isFinite = true → wellDefined T = false →
    4 ≤ T.leaves.length ∧ (T.leaves.length ≤ 4 → T.getVal.isZero = true) := by
  induction T with
  | valNode v =>
    intro hT hf hw
    simp only [wellDefined] at hw
    simp only [node.getVal] at hf
    rw [hf] at hw
    exact absurd hw (by simp)
  | opNode op l r ihl ihr =>
    intro hT hf hw
    have pl := leaves_length_pos l
    have pr := leaves_length_pos r
    simp only [node.leaves, List.length_append]
    simp only [node.getVal] at hf ⊢
    obtain ⟨fl, h | h⟩ := compute_isFinite op l.getVal r.getVal hf
    · obtain ⟨fr, hd⟩ := h
      by_cases wl : wellDefined l = true
      · by_cases wr : wellDefined r = true
        · exfalso
          simp only [wellDefined, wl, wr, Bool.and_self, Bool.true_and, Bool.not_eq_false',
            Bool.and_eq_true, decide_eq_true_eq] at hw
          have := hd hw.1
          rw [hw.2] at this
          exact absurd this (by simp)
        · have := (ihr (overCards_right hT) fr (by simpa using wr)).1
          exact ⟨by omega, fun h => by omega⟩
      · have := (ihl (overCards_left hT) fl (by simpa using wl)).1
        exact ⟨by omega, fun h => by omega⟩
    · obtain ⟨_, hinf, hz⟩ := h
      have := leaves_of_not_finite r (overCards_right hT) (isInf_not_finite _ hinf)
      exact ⟨by omega, fun _ => hz⟩

theorem compute_toRat (op : operator) (a b : Val) (ha : a.isFinite = true)
    (hb : b.isFinite = true) (hd : op = operator.DivOp → b.isZero = false) :
    (op.compute a b).toRat =
      match op with
      | operator.AddOp => a.toRat + b.toRat
      | operator.SubOp => a.toRat - b.toRat
      | operator.MulOp => a.toRat * b.toRat
      | operator.DivOp => a.toRat / b.toRat := by
  cases op with
  | AddOp => exact (add_finite a b ha hb).2
  | SubOp => exact (sub_finite a b ha hb).2
  | MulOp => exact (mul_finite a b ha hb).2
  | DivOp => exact (div_finite a b ha hb (hd rfl)).2

theorem wellDefined_parts (op : operator) (l r : node)
    (h : wellDefined (node.opNode op l r) = true) :
    wellDefined l = true ∧ wellDefined r = true ∧
      (op = operator.DivOp → r.getVal.isZero = false) := by
  simp only [wellDefined, Bool.and_eq_true, Bool.not_eq_true', Bool.and_eq_false_iff,
    decide_eq_false_iff_not] at h
  obtain ⟨⟨hl, hr⟩, hd⟩ := h
  refine ⟨hl, hr, fun hop => ?_⟩
  rcases hd with hd | hd
  · exact absurd hop hd
  · exact hd

theorem wellDefined_opNode (op : operator) (l r : node) (hl : wellDefined l = true)
    (hr : wellDefined r = true) (hd : op = operator.DivOp → r.getVal.isZero = false) :
    wellDefined (node.opNode op l r) = true := by
  simp only [wellDefined, hl, hr, Bool.and_self, Bool.true_and, Bool.not_eq_true',
    Bool.and_eq_false_iff, decide_eq_false_iff_not]
  by_cases hop : op = operator.DivOp
  · exact Or.inr (hd hop)
  · exact Or.inl hop

theorem wellDefined_frac (T : node) : (∀ v ∈ T.leaves, isCard v = true) →
    wellDefined T = true → Frac T.getVal.toRat (11 ^ T.leaves.length) := by
  induction T with
  | valNode v =>
    intro hT _
    exact (isCard_frac v (hT v (by simp [node.leaves]))).2.2.2
  | opNode op l r ihl ihr =>
    intro hT hw
    obtain ⟨wl, wr, hd⟩ := wellDefined_parts op l r hw
    have fl := wellDefined_finite l wl
    have fr := wellDefined_finite r wr
    have Fl := ihl (overCards_left hT) wl
    have Fr := ihr (overCards_right hT) wr
    simp only [node.leaves, List.length_append, node.getVal, pow_add]
    rw [compute_toRat op _ _ fl fr hd]
    cases op with
    | AddOp => exact Frac_add Fl Fr
    | SubOp => exact Frac_sub Fl Fr
    | MulOp => exact Frac_mul Fl Fr
    | DivOp => exact Frac_div Fl Fr ((isZero_eq_false_iff _ fr).mp (hd rfl))

theorem div_zero_not_finite (a b : Val) (hb : b.isZero = true) : (a.div b).isFinite = false := by
  by_contra h
  obtain ⟨_, h2 | h2⟩ := div_isFinite a b (by simpa using h)
  · rw [hb] at h2; exact absurd h2.2 (by simp)
  · cases b <;> simp_all [Val.isInf, Val.isZero]

theorem computeNecessary_left_not_finite (op : operator) (lv w : Val)
    (hl : lv.isFinite = false) (h : (op.computeNecessary lv w).isFinite = true) :
    (op.computeNecessary lv w).toRat = 0 := by
  cases op with
  | AddOp =>
    simp only [operator.computeNecessary, isFinite_sub, hl, Bool.and_false] at h
    exact absurd h (by simp)
  | SubOp =>
    simp only [operator.computeNecessary, isFinite_sub, hl, Bool.false_and] at h
    exact absurd h (by simp)
  | MulOp =>
    simp only [operator.computeNecessary] at h ⊢
    obtain ⟨_, h2 | h2⟩ := div_isFinite w lv h
    · rw [hl] at h2; exact absurd h2.1 (by simp)
    · exact (isZero_iff _ h).mp h2.2
  | DivOp =>
    simp only [operator.computeNecessary] at h ⊢
    have := (div_isFinite lv w h).1
    rw [hl] at this; exact absurd this (by simp)

theorem computeNecessary_want_not_finite (op : operator) (lv w : Val)
    (hw : w.isFinite = false) :
    (op.computeNecessary lv w).isFinite = false ∨
      (op = operator.DivOp ∧ (op.computeNecessary lv w).eqZero = true) := by
  cases op with
  | AddOp => left; simp only [operator.computeNecessary, isFinite_sub, hw, Bool.false_and]
  | SubOp => left; simp only [operator.computeNecessary, isFinite_sub, hw, Bool.and_false]
  | MulOp =>
    left
    by_contra h
    have := (div_isFinite w lv (by simpa using h)).1
    rw [hw] at this; exact absurd this (by simp)
  | DivOp =>
    by_cases h : (operator.DivOp.computeNecessary lv w).isFinite = true
    · right
      obtain ⟨_, h2 | h2⟩ := div_isFinite lv w h
      · rw [hw] at h2; exact absurd h2.1 (by simp)
      · exact ⟨rfl, h2.2⟩
    · left; simpa using h

theorem computeNecessary_finite (op : operator) (lv w : Val) (hl : lv.isFinite = true)
    (hw : w.isFinite = true) (hm : op = operator.MulOp → lv.isZero = false)
    (hd : op = operator.DivOp → w.isZero = false) :
    (op.computeNecessary lv w).isFinite = true ∧
      (op.computeNecessary lv w).toRat =
        match op with
        | operator.AddOp => w.toRat - lv.toRat
        | operator.SubOp => lv.toRat - w.toRat
        | operator.MulOp => w.toRat / lv.toRat
        | operator.DivOp => lv.toRat / w.toRat := by
  cases op with
  | AddOp => exact sub_finite w lv hw hl
  | SubOp => exact sub_finite lv w hl hw
  | MulOp => exact div_finite w lv hw hl (hm rfl)
  | DivOp => exact div_finite lv w hl hw (hd rfl)

theorem eq_valNode_of_length_one (T : node) (h : T.leaves.length = 1) :
    ∃ v, T = node.valNode v := by
  cases T with
  | valNode v => exact ⟨v, rfl⟩
  | opNode op l r =>
    have := leaves_length_pos l
    have := leaves_length_pos r
    simp only [node.leaves, List.length_append] at h
    omega

/-- On at most four whole cards from 1 to 10, a tree that the backward search accepts for a
needed value with a small denominator has exactly this value, and its evaluation meets no
division by zero. -/
theorem accepts_exact : ∀ (r : node) (w : Val),
    (∀ v ∈ r.leaves, isCard v = true) → r.leaves.length ≤ 4 →
    (w.isFinite = true ∨ r.leaves.length ≤ 2) →
    (w.isFinite = true → Frac w.toRat (25 * 11 ^ (4 - r.leaves.length))) →
    (r.leaves.length = 4 → w = Val.num 24) →
    (r.leaves.length = 3 → w.toRat ≠ 0) →
    accepts r w = true →
    w.isFinite = true ∧ wellDefined r = true ∧ r.getVal.isFinite = true ∧
      r.getVal.toRat = w.toRat := by
  intro r
  induction r with
  | valNode v =>
    intro w hT _ _ hF _ _ ha
    simp only [accepts] at ha
    obtain ⟨hv, hw, hclose⟩ := (closeEnough_iff v w).mp ha
    obtain ⟨_, n, en, _, _⟩ := isCard_spec v (hT v (by simp [node.leaves]))
    have hFw := hF hw
    simp only [node.leaves, List.length_singleton] at hFw
    rw [en] at hclose
    have := Frac_close_exact hFw (by norm_num) n hclose
    exact ⟨hw, hv, hv, by simp only [node.getVal]; rw [en, this]⟩
  | opNode op l r' ihl ihr =>
    intro w hT h4 h1 hF h24 h3 ha
    have pl := leaves_length_pos l
    have pr := leaves_length_pos r'
    have hlen : (node.opNode op l r').leaves.length = l.leaves.length + r'.leaves.length := by
      simp only [node.leaves, List.length_append]
    rw [hlen] at h4 h1 hF h24 h3
    simp only [accepts, Bool.or_eq_true, decide_eq_true_eq, Bool.and_eq_true,
      Bool.not_eq_true'] at ha
    rcases ha with hseed | ⟨hskip, hacc⟩
    · -- the value of the node is the needed value
      have fin : (node.opNode op l r').getVal.isFinite = true := by
        by_contra hnf
        have h3' := leaves_of_not_finite _ hT (by simpa using hnf)
        rw [hlen] at h3'
        rcases h1 with h1 | h1
        · rw [hseed] at hnf; exact hnf h1
        · omega
      have wd : wellDefined (node.opNode op l r') = true := by
        by_contra hwd
        obtain ⟨h4', hz⟩ := leaves_of_illDefined _ hT fin (by simpa using hwd)
        rw [hlen] at h4' hz
        have hz' := hz h4
        rw [hseed, h24 (by omega)] at hz'
        simp [Val.isZero] at hz'
      exact ⟨hseed ▸ fin, wd, fin, by rw [hseed]⟩
    · -- the search goes down to the right subtree
      have hskip' : op = operator.DivOp →
          (op.computeNecessary l.getVal w).eqZero = false := by
        intro hop
        rw [hop] at hskip ⊢
        simpa using hskip
      by_cases fl : l.getVal.isFinite = true
      · have wl : wellDefined l = true := by
          by_contra hwl
          have := (leaves_of_illDefined l (overCards_left hT) fl (by simpa using hwl)).1
          omega
        have Fl := wellDefined_frac l (overCards_left hT) wl
        by_cases fw : w.isFinite = true
        · by_cases hbad : (op = operator.MulOp ∧ l.getVal.isZero = true) ∨
              (op = operator.DivOp ∧ w.isZero = true)
          · -- the needed right value is not finite
            exfalso
            have hnf : (op.computeNecessary l.getVal w).isFinite = false := by
              rcases hbad with ⟨rfl, hz⟩ | ⟨rfl, hz⟩
              · exact div_zero_not_finite _ _ hz
              · exact div_zero_not_finite _ _ hz
            have hsmall : r'.leaves.length ≤ 2 := by
              rcases hbad with ⟨_, hz⟩ | ⟨_, hz⟩
              · have := leaves_of_isZero l (overCards_left hT) hz
                omega
              · have hq := (isZero_iff w fw).mp hz
                by_contra hgt
                have hcases : l.leaves.length + r'.leaves.length = 4 ∨
                    l.leaves.length + r'.leaves.length = 3 := by omega
                rcases hcases with h | h
                · rw [h24 h] at hq
                  simp [Val.toRat] at hq
                · exact h3 h hq
            have := (ihr _ (overCards_right hT) (by omega) (Or.inr hsmall)
              (fun h => by rw [hnf] at h; exact absurd h (by simp))
              (fun h => by omega) (fun h => by omega) hacc).1
            rw [hnf] at this
            exact absurd this (by simp)
          · have hm : op = operator.MulOp → l.getVal.isZero = false := by
              intro hop
              by_contra hz
              exact hbad (Or.inl ⟨hop, by simpa using hz⟩)
            have hd : op = operator.DivOp → w.isZero = false := by
              intro hop
              by_contra hz
              exact hbad (Or.inr ⟨hop, by simpa using hz⟩)
            obtain ⟨fw', ew'⟩ := computeNecessary_finite op l.getVal w fl fw hm hd
            have Fw := hF fw
            have hpow : (25 : ℤ) * 11 ^ (4 - (l.leaves.length + r'.leaves.length)) *
                11 ^ l.leaves.length = 25 * 11 ^ (4 - r'.leaves.length) := by
              rw [mul_assoc, ← pow_add]
              congr 2
              omega
            have Fw' : Frac (op.computeNecessary l.getVal w).toRat
                (25 * 11 ^ (4 - r'.leaves.length)) := by
              rw [ew', ← hpow]
              cases op with
              | AddOp => exact Frac_sub Fw Fl
              | SubOp =>
                have := Frac_sub Fl Fw
                rwa [mul_comm] at this
              | MulOp => exact Frac_div Fw Fl ((isZero_eq_false_iff _ fl).mp (hm rfl))
              | DivOp =>
                have := Frac_div Fl Fw ((isZero_eq_false_iff _ fw).mp (hd rfl))
                rwa [mul_comm] at this
            have h3' : r'.leaves.length = 3 → (op.computeNecessary l.getVal w).toRat ≠ 0 := by
              intro hr3
              have hl1 : l.leaves.length = 1 := by omega
              obtain ⟨c, rfl⟩ := eq_valNode_of_length_one l hl1
              obtain ⟨_, n, en, n1, n10⟩ := isCard_spec c (hT c (by simp [node.leaves]))
              have hw24 : w.toRat = 24 := by rw [h24 (by omega)]; rfl
              have hn1 : (1 : ℚ) ≤ n := by exact_mod_cast n1
              have hn10 : (n : ℚ) ≤ 10 := by exact_mod_cast n10
              rw [ew']
              simp only [node.getVal, en, hw24]
              cases op with
              | AddOp => simp only; intro h; linarith
              | SubOp => simp only; intro h; linarith
              | MulOp =>
                simp only
                exact div_ne_zero (by norm_num) (by intro h; rw [h] at hn1; linarith)
              | DivOp =>
                simp only
                exact div_ne_zero (by intro h; rw [h] at hn1; linarith) (by norm_num)
            obtain ⟨_, wr, fr, er⟩ := ihr _ (overCards_right hT) (by omega) (Or.inl fw')
              (fun _ => Fw') (fun h => by omega) h3' hacc
            have hdiv : op = operator.DivOp → r'.getVal.isZero = false := by
              intro hop
              have : (op.computeNecessary l.getVal w).toRat ≠ 0 :=
                (isZero_eq_false_iff _ fw').mp (hskip' hop)
              rw [← er] at this
              exact (isZero_eq_false_iff _ fr).mpr this
            refine ⟨fw, wellDefined_opNode op l r' wl wr hdiv,
              compute_finite op _ _ fl fr hdiv, ?_⟩
            simp only [node.getVal]
            rw [compute_toRat op _ _ fl fr hdiv, er, ew']
            cases op with
            | AddOp => simp only; ring
            | SubOp => simp only; ring
            | MulOp =>
              simp only
              have := (isZero_eq_false_iff _ fl).mp (hm rfl)
              field_simp
            | DivOp =>
              simp only
              have hw0 := (isZero_eq_false_iff _ fw).mp (hd rfl)
              have hr0 := (isZero_eq_false_iff _ fr).mp (hdiv rfl)
              rw [er, ew'] at hr0
              simp only at hr0
              have hl0 : l.getVal.toRat ≠ 0 := by
                intro h; apply hr0; rw [h]; simp
              field_simp
        · -- the needed value is not finite: the right subtree is a card
          exfalso
          have hsmall : l.leaves.length + r'.leaves.length ≤ 2 := by
            rcases h1 with h1 | h1
            · exact absurd h1 fw
            · exact h1
          rcases computeNecessary_want_not_finite op l.getVal w (by simpa using fw) with hnf | hz
          · have := (ihr _ (overCards_right hT) (by omega) (Or.inr (by omega))
              (fun h => by rw [hnf] at h; exact absurd h (by simp))
              (fun h => by omega) (fun h => by omega) hacc).1
            rw [hnf] at this
            exact absurd this (by simp)
          · have := hskip' hz.1
            rw [hz.2] at this
            exact absurd this (by simp)
      · -- the left value is not finite: the right subtree is a card
        exfalso
        have h3l := leaves_of_not_finite l (overCards_left hT) (by simpa using fl)
        obtain ⟨v, rfl⟩ := eq_valNode_of_length_one r' (by omega)
        simp only [accepts] at hacc
        obtain ⟨hv, hw', hclose⟩ := (closeEnough_iff _ _).mp hacc
        obtain ⟨_, n, en, n1, _⟩ := isCard_spec v (hT v (by simp [node.leaves]))
        rw [computeNecessary_left_not_finite op l.getVal w (by simpa using fl) hw', en] at hclose
        have hn1 : (1 : ℚ) ≤ n := by exact_mod_cast n1
        rw [sub_zero, abs_of_pos (by linarith)] at hclose
        linarith

theorem expectedDeals_cards :
    expectedDeals.all (fun d => decide (d.length = 4) && d.all isCard) = true := by
  decide!

/-- C17: in every reachable cache state and for every deal of four whole cards from 1 to 10,
`getNeededTree(deal, 24)` returns, and a tree it returns has the cards of the deal as leaves,
meets no division by zero when it is evaluated, and has exactly the value 24: the tolerance
accepts no tree of another value. Every element of `allDeals([])` is such a deal. -/
theorem getNeededTree_exactly_24 (c : Caches) (deal : List Val) (hc : Reachable c)
    (hlen : deal.length = 4) (hcards : ∀ v ∈ deal, isCard v = true) :
    (∃ r c', getNeededTree deal targetNum c = some (r, c') ∧
      ∀ T, r = some T → T.leaves.Perm deal ∧ wellDefined T = true ∧ T.getVal = Val.num 24) ∧
    (∀ ds, allDeals [] = some ds → ∀ d ∈ ds, d.length = 4 ∧ ∀ v ∈ d, isCard v = true) := by
  constructor
  · obtain ⟨r, c', e, _, hb⟩ := getNeededTree_spec deal targetNum c (Reachable_Inv c hc)
    refine ⟨r, c', e, ?_⟩
    intro T hT
    obtain ⟨hp, hacc⟩ := hb.1 T hT
    have hl : T.leaves.length = 4 := by rw [hp.length_eq, hlen]
    have hF : Frac (Val.num 24).toRat (25 * 11 ^ (4 - T.leaves.length)) := by
      rw [hl]
      exact ⟨24, 1, by decide, by simp [Val.toRat], by decide⟩
    obtain ⟨_, wd, fin, ev⟩ := accepts_exact T (Val.num 24)
      (fun v hv => hcards v (hp.subset hv)) (by omega) (Or.inl rfl) (fun _ => hF)
      (fun _ => rfl) (fun h => by omega) hacc
    refine ⟨hp, wd, ?_⟩
    generalize T.getVal = x at fin ev
    cases x with
    | num q => simp only [Val.toRat] at ev; rw [ev]
    | negZero => simp [Val.toRat] at ev
    | posInf => simp [Val.isFinite] at fin
    | negInf => simp [Val.isFinite] at fin
    | nan => simp [Val.isFinite] at fin
  · intro ds hds d hd
    rw [allDeals_nil_eq] at hds
    simp only [Option.some.injEq] at hds
    rw [← hds] at hd
    have := List.all_eq_true.mp expectedDeals_cards d hd
    simp only [Bool.and_eq_true, decide_eq_true_eq, List.all_eq_true] at this
    exact this

/-- C17, witness at the empty caches: the deal `[3 3 8 8]`. -/
theorem getNeededTree_exactly_24_witness :
    ∃ r c', getNeededTree [Val.num 3, Val.num 3, Val.num 8, Val.num 8] targetNum Caches.empty =
        some (r, c') ∧
      ∀ T, r = some T → T.leaves.Perm [Val.num 3, Val.num 3, Val.num 8, Val.num 8] ∧
        wellDefined T = true ∧ T.getVal = Val.num 24 :=
  (getNeededTree_exactly_24 Caches.empty [Val.num 3, Val.num 3, Val.num 8, Val.num 8]
    Reachable.empty rfl (by
      intro v hv
      simp only [List.mem_cons, List.mem_singleton, List.not_mem_nil, or_false] at hv
      rcases hv with rfl | rfl | rfl | rfl <;> decide!)).1

/-! ## Memoisation and the verdict -/

theorem isZero_finite (a : Val) (h : a.isZero = true) : a.isFinite = true := by
  cases a <;> simp_all [Val.isZero, Val.isFinite]

end TwentyFour
